import Mathlib

/-!
# Binary search trees, AVL trees and linked lists of the C tutorials libraries

A shallow embedding of `code/libs/tree/src/bst.c` and `code/libs/tree/src/avl.c`, with the
helpers of `code/libs/tree/src/common.c` that size the text of a tree and lay out a printed
level, and of the list functions of `code/libs/linked_list/src/unidirectional.c` and
`bidirectional.c` (namespace `LinkedList`).

* A C pointer to a node is the subtree it points to; `NULL` is the constructor `null`.
* A function that takes a slot `Node **root` and rewrites it in place takes the tree held by the
  slot and returns the tree the slot holds afterwards.  The slot handle itself is assumed valid
  (`root != NULL`), as every caller in the repository passes the address of a variable.
* `int` values are mathematical integers; they are only compared, never computed with.
* `size_t` counts and heights are natural numbers.  Machine arithmetic is narrowed in three
  places: the store into `int balanceFactor`, modelled by `wrapInt32`; the shifts `1 << level`
  and `1 << height`, done in `int` and modelled by `Level.shiftLeftOne`; and the `size_t`
  arithmetic of `setPaddingAndInterSpacing`, modelled by `wrapSize`.
* Dereferencing `NULL`, an access outside an array or a buffer, and an undefined shift are
  faults: the function returns `none`.
* `malloc` succeeding or failing is the boolean argument `mallocOk` (`callocOk`, `mallocStr`);
  an allocation whose content matters is a function `malloc` from the size to the block.
* An array is the list of its entries.
-/

namespace Tree

/-- Which child slot of a node a pointer-to-pointer refers to. -/
inductive Side where
  | left : Side
  | right : Side
deriving DecidableEq

/-! ## Common helpers (`common.c`) and text -/

/-- The character of a decimal digit. -/
def digitChar : Nat → Char
  | 0 => '0'
  | 1 => '1'
  | 2 => '2'
  | 3 => '3'
  | 4 => '4'
  | 5 => '5'
  | 6 => '6'
  | 7 => '7'
  | 8 => '8'
  | _ => '9'

/-- The decimal digits of a natural number, most significant first; `fuel` bounds their
number. -/
def decimalDigits : Nat → Nat → List Char
  | 0, _ => []
  | fuel + 1, n =>
    if n < 10 then [digitChar n] else decimalDigits fuel (n / 10) ++ [digitChar (n % 10)]

/-- The text that the conversion `%d` of `printf` produces for an `int`. -/
def formatInt (x : Int) : String :=
  if x < 0 then String.mk ('-' :: decimalDigits (x.natAbs + 1) x.natAbs)
  else String.mk (decimalDigits (x.natAbs + 1) x.natAbs)

/-- `getMaxNumberOfDigitsNeeded`: `snprintf(NULL, 0, "%d", x)` is the length of the text of `x`;
both branches of the conditional yield `numMax`. -/
def getMaxNumberOfDigitsNeeded (minValue maxValue : Int) : Nat :=
  let numMin := (formatInt minValue).length
  let numMax := (formatInt maxValue).length
  if numMax ≥ numMin then numMax else numMax

/-- One `sprintf(str + strlen(str), ...)` into a buffer of `numChars` chars: the text so far
with `piece` appended, or `none` when the text and its terminator do not fit in the buffer. -/
def appendText (numChars : Nat) (str piece : String) : Option String :=
  if str.length + piece.length + 1 ≤ numChars then some (str ++ piece) else none

/-- The loop `for(i = 0; i < size - 1; ++i) sprintf(str + strlen(str), "%d | ", sortedValues[i])`
of `bstToStr` and `avlTreeToStr`, with `remaining` iterations left from index `i`. -/
def renderLoop (numChars : Nat) (sortedValues : List Int) : Nat → Nat → String → Option String
  | 0, _, str => some str
  | remaining + 1, i, str =>
    match sortedValues[i]? with
    | none => none
    | some x =>
      (appendText numChars str (formatInt x ++ " | ")).bind
        (renderLoop numChars sortedValues remaining (i + 1))

/-- The part of `bstToStr` and `avlTreeToStr` that fills the buffer of `numChars` chars from the
`size` sorted values. -/
def renderSorted (numChars size : Nat) (sortedValues : List Int) : Option String :=
  (appendText numChars "" "< ").bind fun s0 =>
    (renderLoop numChars sortedValues (size - 1) 0 s0).bind fun s1 =>
      match sortedValues[size - 1]? with
      | none => none
      | some x => appendText numChars s1 (formatInt x ++ " >")

/-- An allocator that always succeeds and returns a zero-filled block. -/
def zeroBlocks : Nat → Option (List Int) := fun n => some (List.replicate n 0)

/-- The text of a non-empty tree with the given in-order values: the decimal renderings joined
by `" | "`, between `"< "` and `" >"`. -/
def joinedText (values : List Int) : String :=
  "< " ++ " | ".intercalate (values.map formatInt) ++ " >"

/-! ## Level arrays (the level functions of `bst.c` and `avl.c`)

The four level functions of `bst.c` and `avl.c` are the same text up to the node type.  They are
embedded once, over a node handle `α` with the function `children` that gives the two child
handles of a node and `none` for `NULL`, and instantiated for each tree below.  An array of node
pointers is a list of handles; a read or write outside it is a fault (`none`). -/

namespace Level

/-- The expression `1 << n` of the level functions.  The literal `1` is an `int`, so the shift is
done in 32-bit `int` whatever the type of `n`: it is undefined (`none`) when `n` is `31` or
more.  The defined values are below `2 ^ 31`, so that the `size_t` products and sums formed
from them do not wrap. -/
def shiftLeftOne (n : Nat) : Option Nat :=
  if n < 31 then some (2 ^ n) else none

/-- The assignment `nodes[i] = x`. -/
def writeAt {α : Type} (nodes : List α) (i : Nat) (x : α) : Option (List α) :=
  if i < nodes.length then some (nodes.set i x) else none

/-- The loop `for(i = 0; i < (1 << (level - 1)); ++i)` of `getBSTLevelNodesWithPrefeed`, with
`remaining` iterations left: the children of `previousLevelNodes[i]` are stored at `index` and
`index + 1`, and two entries are skipped when the pointer is `NULL`. -/
def prefeedLoop {α : Type} (children : α → Option (α × α)) (previousLevelNodes : List α) :
    Nat → Nat → Nat → List α → Option (List α)
  | 0, _, _, nodes => some nodes
  | remaining + 1, i, index, nodes =>
    match previousLevelNodes[i]? with
    | none => none
    | some previous =>
      match children previous with
      | some (left, right) =>
        (writeAt nodes index left).bind fun nodes1 =>
          (writeAt nodes1 (index + 1) right).bind fun nodes2 =>
            prefeedLoop children previousLevelNodes remaining (i + 1) (index + 2) nodes2
      | none => prefeedLoop children previousLevelNodes remaining (i + 1) (index + 2) nodes

/-- `getBSTLevelNodesWithPrefeed` and `getAVLLevelNodesWithPrefeed`.  `null` is the `NULL`
pointer, `callocOk` tells whether `calloc` succeeds, and `previousLevelNodes` is the caller's
array (`NULL` is the empty array).  The result is `none` on a fault, `some none` when `NULL` is
returned and `some (some nodes)` when the array `nodes` is returned.  `numLevelNodes` is computed
before the test of `root` and `level`.  The block is requested with the element size of a node,
which is larger than a pointer; the writes stay below `numLevelNodes`, so the array keeps
`numLevelNodes` entries here. -/
def getLevelNodesWithPrefeed {α : Type} (children : α → Option (α × α)) (null : α)
    (callocOk : Bool) (root : α) (height level : Nat) (previousLevelNodes : List α) :
    Option (Option (List α)) :=
  (shiftLeftOne level).bind fun numLevelNodes =>
    if (children root).isSome ∧ level < height then
      if level = 0 then
        if callocOk then
          (writeAt (List.replicate numLevelNodes null) 0 root).map some
        else some none
      else
        if callocOk then
          (shiftLeftOne (level - 1)).bind fun bound =>
            (prefeedLoop children previousLevelNodes bound 0 0
              (List.replicate numLevelNodes null)).map some
        else some none
    else some none

/-- The loop `for (i = 0; i < currentNumValues; i++)` of `getBSTLevelNodes`, with `remaining`
iterations left: the node at `i * currentOffset` is replaced by its left child and its right
child is stored `nextOffset` entries further; a `NULL` entry is left as it is. -/
def expandLoop {α : Type} (children : α → Option (α × α)) (currentOffset nextOffset : Nat) :
    Nat → Nat → List α → Option (List α)
  | 0, _, nodes => some nodes
  | remaining + 1, i, nodes =>
    match nodes[i * currentOffset]? with
    | none => none
    | some current =>
      match children current with
      | some (left, right) =>
        (writeAt nodes (currentOffset * i) left).bind fun nodes1 =>
          (writeAt nodes1 (currentOffset * i + nextOffset) right).bind fun nodes2 =>
            expandLoop children currentOffset nextOffset remaining (i + 1) nodes2
      | none => expandLoop children currentOffset nextOffset remaining (i + 1) nodes

/-- The loop `while(currentLevel < level)` of `getBSTLevelNodes`, with `remaining` iterations
left (`level - currentLevel` of them, as `currentLevel` grows by one each time). -/
def levelLoop {α : Type} (children : α → Option (α × α)) :
    Nat → Nat → Nat → Nat → List α → Option (List α)
  | 0, _, _, _, nodes => some nodes
  | remaining + 1, currentLevel, currentNumValues, currentOffset, nodes =>
    let nextOffset := currentOffset / 2
    (expandLoop children currentOffset nextOffset currentNumValues 0 nodes).bind fun nodes1 =>
      (shiftLeftOne (currentLevel + 1)).bind fun nextNumValues =>
        levelLoop children remaining (currentLevel + 1) nextNumValues nextOffset nodes1

/-- `getBSTLevelNodes` and `getAVLLevelNodes`, with the conventions of
`getLevelNodesWithPrefeed`. -/
def getLevelNodes {α : Type} (children : α → Option (α × α)) (null : α) (callocOk : Bool)
    (root : α) (height level : Nat) : Option (Option (List α)) :=
  (shiftLeftOne level).bind fun numLevelNodes =>
    if (children root).isSome ∧ level < height then
      if callocOk then
        (writeAt (List.replicate numLevelNodes null) 0 root).bind fun nodes =>
          (shiftLeftOne 0).bind fun currentNumValues =>
            (levelLoop children level 0 currentNumValues numLevelNodes nodes).map some
      else some none
    else some none

/-! ### Vocabulary of the level properties -/

/-- The left (`right = false`) or right child of a node; `NULL` has `NULL` children. -/
def childOf {α : Type} (children : α → Option (α × α)) (null : α) (right : Bool) (n : α) : α :=
  match children n with
  | none => null
  | some (l, r) => if right then r else l

/-- The `numBits`-bit binary expansion of `j`, most significant bit first. -/
def binaryExpansion : Nat → Nat → List Bool
  | 0, _ => []
  | numBits + 1, j => binaryExpansion numBits (j / 2) ++ [decide (j % 2 = 1)]

/-- The node reached from `n` by following the bits (`false` = left child, `true` = right
child); `NULL` once the path has left the tree. -/
def follow {α : Type} (children : α → Option (α × α)) (null : α) : List Bool → α → α
  | [], n => n
  | b :: bs, n => follow children null bs (childOf children null b n)

/-- The row of level `level`: entry `j` is the node reached from the root by the binary
expansion of `j`. -/
def levelRow {α : Type} (children : α → Option (α × α)) (null : α) (root : α) (level : Nat) :
    List α :=
  (List.range (2 ^ level)).map fun j => follow children null (binaryExpansion level j) root

/-- The children of the nodes of a row, in the order of the row. -/
def childrenRow {α : Type} (children : α → Option (α × α)) (null : α) : List α → List α
  | [] => []
  | n :: ns =>
    childOf children null false n :: childOf children null true n ::
      childrenRow children null ns

/-- A row laid out with `offset` entries for each node: the node, then `offset - 1` times
`NULL`. -/
def spread {α : Type} (null : α) (offset : Nat) : List α → List α
  | [] => []
  | n :: ns => n :: (List.replicate (offset - 1) null ++ spread null offset ns)

end Level

/-! ## Padding and spacing of a printed level (`common.c`) -/

/-- The value a `size_t` holds after the integer `x` is stored into it: the representative of
`x` modulo `2^64`. -/
def wrapSize (x : Int) : Nat := (x % 18446744073709551616).toNat

/-- The body of `setPaddingAndInterSpacing`, with `fuel` bounding the depth of the recursion
(`none` when it is exhausted).  The two out-parameters are `none` for a `NULL` pointer and
`some x` for a pointer to a `size_t` holding `x`; the result is `done` together with the two
out-parameters after the call.  The shifts `1 << height` and `1 << level` are done in `int`
(`Level.shiftLeftOne`) and their difference is converted to `size_t`; the other operations are
done in `size_t`.  The divisor `(1 << level) - 1` is at least 1, as `level` is not 0 there. -/
def setPaddingAndInterSpacingAux :
    Nat → Nat → Nat → Option Nat → Option Nat → Option (Bool × Option Nat × Option Nat)
  | fuel, height, level, levelPaddingPtr, levelInterSpacingPtr =>
    if level < height ∧ levelPaddingPtr.isSome ∧ levelInterSpacingPtr.isSome then
      if level = height - 1 then
        some (true, some 0, some (if level ≠ 0 then 1 else 0))
      else
        match fuel with
        | 0 => none
        | fuel + 1 =>
          match setPaddingAndInterSpacingAux fuel height (level + 1) levelPaddingPtr
              levelInterSpacingPtr with
          | some (true, some padding, some spacing) =>
            let padding1 := wrapSize (padding + wrapSize (1 + wrapSize (spacing - 1) / 2))
            if level = 0 then some (true, some padding1, some 0)
            else
              (Level.shiftLeftOne height).bind fun a =>
                (Level.shiftLeftOne level).bind fun b =>
                  let spacing1 := wrapSize ((a : Int) - (b : Int))
                  let spacing2 := wrapSize ((spacing1 : Int) - wrapSize (2 * padding1 + 1))
                  some (true, some padding1, some (spacing2 / (b - 1)))
          | some (_, paddingPtr, spacingPtr) => some (true, paddingPtr, spacingPtr)
          | none => none
    else some (false, levelPaddingPtr, levelInterSpacingPtr)

/-- `setPaddingAndInterSpacing`: the recursion goes from `level` up to `height - 1`, so
`height` bounds its depth. -/
def setPaddingAndInterSpacing (height level : Nat) (levelPaddingPtr levelInterSpacingPtr :
    Option Nat) : Option (Bool × Option Nat × Option Nat) :=
  setPaddingAndInterSpacingAux height height level levelPaddingPtr levelInterSpacingPtr

/-! ## Binary search tree (`bst.c`) -/

/-- A `BSTNode *`: either `NULL` or a node with `value`, `left` and `right`. -/
inductive BSTNode where
  | null : BSTNode
  | node (value : Int) (left : BSTNode) (right : BSTNode) : BSTNode
deriving DecidableEq

namespace BSTNode

/-- In-order sequence of the values, as written by `traverseBST`. -/
def traverseBST : BSTNode → List Int
  | null => []
  | node v l r => traverseBST l ++ v :: traverseBST r

/-- `getBSTCount`. -/
def getBSTCount : BSTNode → Nat
  | null => 0
  | node _ l r => 1 + getBSTCount l + getBSTCount r

/-- `getBSTHeight`. -/
def getBSTHeight : BSTNode → Nat
  | null => 0
  | node _ l r =>
    let leftHeight := getBSTHeight l
    let rightHeight := getBSTHeight r
    1 + (if leftHeight ≥ rightHeight then leftHeight else rightHeight)

/-- `addBSTNode`: the loop walks down (`value <= (*root)->value` goes left) to the first `NULL`
slot and stores the result of `malloc` there.  When `malloc` fails the slot stays `NULL`, so the
tree is unchanged and `added` is false. -/
def addBSTNode (mallocOk : Bool) : BSTNode → Int → Bool × BSTNode
  | null, value => if mallocOk then (true, node value null null) else (false, null)
  | node v l r, value =>
    if value ≤ v then
      let res := addBSTNode mallocOk l value
      (res.1, node v res.2 r)
    else
      let res := addBSTNode mallocOk r value
      (res.1, node v l res.2)

/-- `addBSTNodeRecursively`: the result of `malloc` is written through without a check, so a
failed allocation is a `NULL` dereference. -/
def addBSTNodeRecursively (mallocOk : Bool) : BSTNode → Int → Option (Bool × BSTNode)
  | null, value => if mallocOk then some (true, node value null null) else none
  | node v l r, value =>
    if value ≤ v then
      (addBSTNodeRecursively mallocOk l value).map fun res => (res.1, node v res.2 r)
    else
      (addBSTNodeRecursively mallocOk r value).map fun res => (res.1, node v l res.2)

/-- `findBSTNode`: the pointer returned is the subtree rooted at the node found. -/
def findBSTNode : BSTNode → Int → Option BSTNode
  | null, _ => none
  | node v l r, value =>
    if value = v then some (node v l r)
    else if value < v then findBSTNode l value else findBSTNode r value

/-- `deleteBSTNodeWithNoChildren`: the slot becomes `NULL`. -/
def deleteBSTNodeWithNoChildren : BSTNode → Option BSTNode
  | null => some null
  | node _ _ _ => some null

/-- `deleteBSTNodeWithSingleChild`: the slot receives the left child when there is one, the
right child otherwise. -/
def deleteBSTNodeWithSingleChild : BSTNode → Option BSTNode
  | null => none
  | node _ l r => if l ≠ null then some l else some r

/-- The walk `while(successor->left && successor->left->left) successor = successor->left;`
of `deleteBSTNodeWithTwoChildren` followed, when `successor->left` exists, by unlinking it
(`successor->left = successor->left->right`).  The argument is the node at which the walk starts;
the result is the value of the unlinked node together with the tree rooted at the starting node
after the unlink, or `none` when the starting node has no left child. -/
def unlinkLeftmost : BSTNode → Option (Int × BSTNode)
  | null => none
  | node _ null _ => none
  | node sv (node mv null mr) sr => some (mv, node sv mr sr)
  | node sv (node mv (node av al ar) mr) sr =>
    (unlinkLeftmost (node mv (node av al ar) mr)).map fun res => (res.1, node sv res.2 sr)

/-- `deleteBSTNodeWithTwoChildren`: `successor` starts at `(*node)->right`.  When the walk ends
with `successor->left` present, that node is unlinked and installed in the slot with the right
subtree `itemPtr->right`; otherwise `successor` itself (the right child) is installed.  In both
cases the installed node receives `itemPtr->left`. -/
def deleteBSTNodeWithTwoChildren : BSTNode → Option BSTNode
  | null => none
  | node _ _ null => none
  | node _ l (node rv rl rr) =>
    match unlinkLeftmost (node rv rl rr) with
    | some (mv, r') => some (node mv l r')
    | none => some (node rv l rr)

/-- The three-way case split shared by `deleteBSTNode` and `deleteBSTNodeRecursively` once
`(*root)->value == value`. -/
def deleteBSTRoot : BSTNode → Option BSTNode
  | null => none
  | node v l r =>
    if l = null ∧ r = null then deleteBSTNodeWithNoChildren (node v l r)
    else if l = null ∨ r = null then deleteBSTNodeWithSingleChild (node v l r)
    else deleteBSTNodeWithTwoChildren (node v l r)

/-- `deleteBSTNode`. -/
def deleteBSTNode : BSTNode → Int → Option (Bool × BSTNode)
  | null, _ => some (false, null)
  | node v l r, value =>
    if v = value then
      (deleteBSTRoot (node v l r)).map fun t => (true, t)
    else if value < v then
      (deleteBSTNode l value).map fun res => (res.1, node v res.2 r)
    else
      (deleteBSTNode r value).map fun res => (res.1, node v l res.2)

/-- `deleteBSTNodeRecursively`: in the branch `(*root)->value == value` the node is removed but
`deleted` is not assigned, so it keeps its initial value `false`. -/
def deleteBSTNodeRecursively : BSTNode → Int → Option (Bool × BSTNode)
  | null, _ => some (false, null)
  | node v l r, value =>
    if v = value then
      (deleteBSTRoot (node v l r)).map fun t => (false, t)
    else if value < v then
      (deleteBSTNodeRecursively l value).map fun res => (res.1, node v res.2 r)
    else
      (deleteBSTNodeRecursively r value).map fun res => (res.1, node v l res.2)

/-- `maxBST`.  The out-parameter `maxValuePtr` is `none` for a `NULL` pointer and `some x` for a
pointer to an `int` holding `x`; the result is `maxFound` together with the out-parameter after
the call. -/
def maxBST : BSTNode → Option Int → Bool × Option Int
  | null, maxValuePtr => (false, maxValuePtr)
  | node v _ null, maxValuePtr =>
    match maxValuePtr with
    | some _ => (true, some v)
    | none => (false, none)
  | node _ _ (node rv rl rr), maxValuePtr => maxBST (node rv rl rr) maxValuePtr

/-- `minBST`, with the out-parameter as in `maxBST`. -/
def minBST : BSTNode → Option Int → Bool × Option Int
  | null, minValuePtr => (false, minValuePtr)
  | node v null _, minValuePtr =>
    match minValuePtr with
    | some _ => (true, some v)
    | none => (false, none)
  | node _ (node lv ll lr) _, minValuePtr => minBST (node lv ll lr) minValuePtr

/-- `traverseBST(root, sortedArray, indexPtr)` as state passing: the array and `*indexPtr` after
the call, `none` when a write falls outside the array.  (The guards `if(root->left)` and
`if(root->right)` are subsumed by the `if(root)` of the callee.) -/
def traverseBSTInto : BSTNode → List Int → Nat → Option (List Int × Nat)
  | null, sortedArray, index => some (sortedArray, index)
  | node v l r, sortedArray, index =>
    (traverseBSTInto l sortedArray index).bind fun st =>
      if st.2 < st.1.length then traverseBSTInto r (st.1.set st.2 v) (st.2 + 1) else none

/-- `getBSTAsSortedArray`.  `malloc n` is what the allocation of `n` ints returns: `none` when it
fails, otherwise a block of `n` ints of arbitrary content.  The result is `none` on a fault,
`some none` when `NULL` is returned and `some (some a)` when the array `a` is returned. -/
def getBSTAsSortedArray (malloc : Nat → Option (List Int)) :
    BSTNode → Option (Option (List Int))
  | null => some none
  | node v l r =>
    let count := getBSTCount (node v l r)
    match malloc count with
    | none => some none
    | some sortedArray => (traverseBSTInto (node v l r) sortedArray 0).map fun st => some st.1

/-- `bstToStr`.  `malloc n` is what the allocation of the `n` sorted values returns and
`mallocStr` tells whether the allocation of the text buffer succeeds.  The result is `none` on
a fault (a write outside a buffer, or `memcpy` into `NULL`), `some none` when `NULL` is
returned and `some (some s)` when the text `s` is returned.  The locals `minValue` and
`maxValue` are not initialised in the source; they are written by `minBST` and `maxBST` as the
root is not `NULL`. -/
def bstToStr (malloc : Nat → Option (List Int)) (mallocStr : Bool) :
    BSTNode → Option (Option String)
  | null => if mallocStr then some (some "< >") else none
  | node v l r =>
    let size := getBSTCount (node v l r)
    match malloc size with
    | none => some none
    | some block =>
      (traverseBSTInto (node v l r) block 0).bind fun st =>
        let minValue := ((minBST (node v l r) (some 0)).2).getD 0
        let maxValue := ((maxBST (node v l r) (some 0)).2).getD 0
        let numDigits := getMaxNumberOfDigitsNeeded minValue maxValue
        let numChars := size * numDigits + 3 * (size - 1) + 5
        if mallocStr then (renderSorted numChars size st.1).map some else some none

/-- The children of a node, `none` for `NULL`. -/
def children : BSTNode → Option (BSTNode × BSTNode)
  | null => none
  | node _ l r => some (l, r)

/-- `getBSTLevelNodesWithPrefeed`. -/
def getBSTLevelNodesWithPrefeed (callocOk : Bool) (root : BSTNode) (height level : Nat)
    (previousLevelNodes : List BSTNode) : Option (Option (List BSTNode)) :=
  Level.getLevelNodesWithPrefeed children null callocOk root height level previousLevelNodes

/-- `getBSTLevelNodes`. -/
def getBSTLevelNodes (callocOk : Bool) (root : BSTNode) (height level : Nat) :
    Option (Option (List BSTNode)) :=
  Level.getLevelNodes children null callocOk root height level

/-! ### Vocabulary of the BST properties -/

/-- The ordering invariant documented for the BST: at every node all values of the left subtree
are at most the node's value and all values of the right subtree are greater. -/
def BSTOrdered : BSTNode → Prop
  | null => True
  | node v l r =>
    (∀ x ∈ traverseBST l, x ≤ v) ∧ (∀ x ∈ traverseBST r, v < x) ∧ BSTOrdered l ∧ BSTOrdered r

instance decidableBSTOrdered : (t : BSTNode) → Decidable (BSTOrdered t)
  | null => isTrue trivial
  | node _ l r =>
    have := decidableBSTOrdered l
    have := decidableBSTOrdered r
    inferInstanceAs (Decidable (_ ∧ _ ∧ _ ∧ _))

/-- The node (or `NULL`) held by the slot reached from the root slot through the given child
slots; `none` when the walk would pass through `NULL`. -/
def subtreeAt : List Side → BSTNode → Option BSTNode
  | [], t => some t
  | _ :: _, null => none
  | Side.left :: p, node _ l _ => subtreeAt p l
  | Side.right :: p, node _ _ r => subtreeAt p r

/-- The tree in which the slot reached through the given child slots holds `s` instead; every
node outside that slot is kept. -/
def replaceAt (s : BSTNode) : List Side → BSTNode → BSTNode
  | [], _ => s
  | _ :: _, null => null
  | Side.left :: p, node v l r => node v (replaceAt s p l) r
  | Side.right :: p, node v l r => node v l (replaceAt s p r)

/-- The slot list `p` is the comparison descent for `value` from the root of the tree down to
the first node holding `value`: every node passed on the way holds another value, and the walk
goes left below a greater value and right below a smaller one. -/
def DescendsTo (value : Int) : BSTNode → List Side → Prop
  | null, _ => False
  | node x _ _, [] => x = value
  | node x l _, Side.left :: p => value < x ∧ DescendsTo value l p
  | node x _ r, Side.right :: p => x < value ∧ DescendsTo value r p

/-- The tree built by `addBSTNode` (allocation succeeding) from the values of a list, in order. -/
def addBSTNodes (t : BSTNode) : List Int → BSTNode
  | [] => t
  | v :: vs => addBSTNodes (addBSTNode true t v).2 vs

/-- A request of a caller on a BST, served by the iterative operations: add or delete a value. -/
inductive BSTRequest where
  | add (value : Int) : BSTRequest
  | delete (value : Int) : BSTRequest
deriving DecidableEq

/-- Serves one request with `addBSTNode` (allocation succeeding) or `deleteBSTNode`. -/
def serve (t : BSTNode) : BSTRequest → Option (Bool × BSTNode)
  | BSTRequest.add v => some (addBSTNode true t v)
  | BSTRequest.delete v => deleteBSTNode t v

/-- Serves a list of requests in order and keeps the tally: the tree left at the end, the number
of adds that returned `true` and the number of deletes that returned `true`. -/
def tally (t : BSTNode) : List BSTRequest → Option (BSTNode × Nat × Nat)
  | [] => some (t, 0, 0)
  | q :: qs =>
    (serve t q).bind fun res =>
      (tally res.2 qs).map fun fin =>
        match q with
        | BSTRequest.add _ => (fin.1, fin.2.1 + (if res.1 then 1 else 0), fin.2.2)
        | BSTRequest.delete _ => (fin.1, fin.2.1, fin.2.2 + (if res.1 then 1 else 0))

/-- The value of the leftmost node of a tree: the node reached from the root by following `left`
as long as there is a left child. -/
def leftmostValue : BSTNode → Option Int
  | null => none
  | node v null _ => some v
  | node _ (node lv ll lr) _ => leftmostValue (node lv ll lr)

/-- The tree without its leftmost node, the right child of that node spliced into its place. -/
def removeLeftmost : BSTNode → BSTNode
  | null => null
  | node _ null r => r
  | node v (node lv ll lr) r => node v (removeLeftmost (node lv ll lr)) r

/-- At every node all values of the left subtree are at most the node's value and all values of
the right subtree are at least the node's value. -/
def WeaklyOrdered : BSTNode → Prop
  | null => True
  | node v l r =>
    (∀ x ∈ traverseBST l, x ≤ v) ∧ (∀ x ∈ traverseBST r, v ≤ x)
      ∧ WeaklyOrdered l ∧ WeaklyOrdered r

/-- The number of present (non-`NULL`) entries of the row that a level function returns; 0 when
it returns no row. -/
def presentEntries : Option (Option (List BSTNode)) → Nat
  | some (some row) => row.countP fun n => decide (n ≠ null)
  | _ => 0

/-- The number of nodes at the given depth below the root (the root is at depth 0). -/
def levelCount : BSTNode → Nat → Nat
  | null, _ => 0
  | node _ _ _, 0 => 1
  | node _ l r, depth + 1 => levelCount l depth + levelCount r depth

/-- The value of an entry of a level row; `none` for an absent entry. -/
def entryValue : BSTNode → Option Int
  | null => none
  | node v _ _ => some v

/-- The BST built by inserting 8, 3, 10, 5, 1, 12, 7, 9, 2, 6 into the empty tree. -/
def levelFixture : BSTNode := addBSTNodes null [8, 3, 10, 5, 1, 12, 7, 9, 2, 6]

/-- The BST built by inserting 0, 1, ..., 31 into the empty tree: a chain of 32 nodes. -/
def chain32 : BSTNode := addBSTNodes null ((List.range 32).map Int.ofNat)

end BSTNode

/-! ## AVL tree (`avl.c`) -/

/-- An `AVLNode *`: either `NULL` or a node with `value`, `left`, `right` and the stored
`balanceFactor`. -/
inductive AVLNode where
  | null : AVLNode
  | node (value : Int) (left : AVLNode) (right : AVLNode) (balanceFactor : Int) : AVLNode
deriving DecidableEq

/-- The value an `int` holds after a `size_t` difference is stored into it: the representative of
`x` modulo `2^32` in `[-2^31, 2^31)`. -/
def wrapInt32 (x : Int) : Int := (x + 2147483648) % 4294967296 - 2147483648

namespace AVLNode

/-- In-order sequence of the values, as written by `traverseAVL`. -/
def traverseAVL : AVLNode → List Int
  | null => []
  | node v l r _ => traverseAVL l ++ v :: traverseAVL r

/-- `getAVLCount`. -/
def getAVLCount : AVLNode → Nat
  | null => 0
  | node _ l r _ => 1 + getAVLCount l + getAVLCount r

/-- `getAVLHeight`. -/
def getAVLHeight : AVLNode → Nat
  | null => 0
  | node _ l r _ =>
    let leftHeight := getAVLHeight l
    let rightHeight := getAVLHeight r
    1 + (if leftHeight ≥ rightHeight then leftHeight else rightHeight)

/-- `updateBalanceFactors`: stores `height(right) - height(left)` in every node and returns the
slot of the deepest node whose stored factor has absolute value above one, as the list of child
slots leading to it from the root slot.  A report from the left subtree wins over one from the
right subtree, and either wins over the node itself.  (`abs` of the stored factor is its
absolute value; `abs(INT_MIN)` is not defined in C and is taken here as `2^31`.) -/
def updateBalanceFactors : AVLNode → AVLNode × Option (List Side)
  | null => (null, none)
  | node v l r _ =>
    let balanceFactor := wrapInt32 ((getAVLHeight r : Int) - (getAVLHeight l : Int))
    let imbalancedNode : Option (List Side) := if balanceFactor.natAbs > 1 then some [] else none
    let leftRes := updateBalanceFactors l
    let rightRes := updateBalanceFactors r
    (node v leftRes.1 rightRes.1 balanceFactor,
      match leftRes.2, rightRes.2 with
      | some p, _ => some (Side.left :: p)
      | none, some p => some (Side.right :: p)
      | none, none => imbalancedNode)

/-- `rotateLeft` on the slot holding the given node. -/
def rotateLeft : AVLNode → Option AVLNode
  | node xv xl (node yv yl yr ybf) xbf => some (node yv (node xv xl yl xbf) yr ybf)
  | _ => none

/-- `rotateRight` on the slot holding the given node. -/
def rotateRight : AVLNode → Option AVLNode
  | node xv (node yv yl yr ybf) xr xbf => some (node yv yl (node xv yr xr xbf) ybf)
  | _ => none

/-- Runs `f` on the slot reached from the root slot through the given child slots. -/
def atSlot (f : AVLNode → Option AVLNode) : List Side → AVLNode → Option AVLNode
  | [], t => f t
  | _ :: _, null => none
  | Side.left :: p, node v l r bf => (atSlot f p l).map fun l' => node v l' r bf
  | Side.right :: p, node v l r bf => (atSlot f p r).map fun r' => node v l r' bf

/-- The body of `if(imbalancedNode)` in `balance`, on the slot of the imbalanced node. -/
def rotateImbalanced : AVLNode → Option AVLNode
  | null => none
  | node v l r bf =>
    if bf > 1 then
      match r with
      | null => none
      | node rv rl rr rbf =>
        if rbf < 0 then
          (rotateRight (node rv rl rr rbf)).bind fun r' => rotateLeft (node v l r' bf)
        else rotateLeft (node v l (node rv rl rr rbf) bf)
    else
      match l with
      | null => none
      | node lv ll lr lbf =>
        if lbf > 0 then
          (rotateLeft (node lv ll lr lbf)).bind fun l' => rotateRight (node v l' r bf)
        else rotateRight (node v (node lv ll lr lbf) r bf)

/-- `balance`. -/
def balance (root : AVLNode) : Option AVLNode :=
  let res := updateBalanceFactors root
  match res.2 with
  | some imbalancedNode =>
    (atSlot rotateImbalanced imbalancedNode res.1).map fun t => (updateBalanceFactors t).1
  | none => some (updateBalanceFactors res.1).1

/-- The descent loop of `addAVLNode` and the store of the new node: `none` when the loop stops at
a node holding `value` (the `break`), otherwise the tree with the new leaf in the `NULL` slot
reached. -/
def addAVLLeaf : AVLNode → Int → Option AVLNode
  | null, value => some (node value null null 0)
  | node v l r bf, value =>
    if value = v then none
    else if value ≤ v then (addAVLLeaf l value).map fun l' => node v l' r bf
    else (addAVLLeaf r value).map fun r' => node v l r' bf

/-- `addAVLNode`: when the loop stops at an equal value nothing is written; when `malloc` fails
the slot stays `NULL`; otherwise the new leaf is linked and `balance(originalRoot)` runs. -/
def addAVLNode (mallocOk : Bool) (root : AVLNode) (value : Int) : Option (Bool × AVLNode) :=
  match addAVLLeaf root value with
  | none => some (false, root)
  | some t =>
    if mallocOk then (balance t).map fun t' => (true, t')
    else some (false, root)

/-- `addAVLNodeRecursively`: the result of `malloc` is written through without a check; after a
successful insertion below, `balance` runs on the slot of every node on the way back. -/
def addAVLNodeRecursively (mallocOk : Bool) : AVLNode → Int → Option (Bool × AVLNode)
  | null, value =>
    if mallocOk then (balance (node value null null 0)).map fun t => (true, t) else none
  | node v l r bf, value =>
    if value ≠ v then
      if value < v then
        match addAVLNodeRecursively mallocOk l value with
        | none => none
        | some (added, l') =>
          if added then (balance (node v l' r bf)).map fun t => (true, t)
          else some (false, node v l' r bf)
      else
        match addAVLNodeRecursively mallocOk r value with
        | none => none
        | some (added, r') =>
          if added then (balance (node v l r' bf)).map fun t => (true, t)
          else some (false, node v l r' bf)
    else some (false, node v l r bf)

/-- `findAVLNode`: the pointer returned is the subtree rooted at the node found. -/
def findAVLNode : AVLNode → Int → Option AVLNode
  | null, _ => none
  | node v l r bf, value =>
    if value = v then some (node v l r bf)
    else if value < v then findAVLNode l value else findAVLNode r value

/-- `deleteAVLNodeWithNoChildren`: the slot becomes `NULL`. -/
def deleteAVLNodeWithNoChildren : AVLNode → Option AVLNode
  | null => some null
  | node _ _ _ _ => some null

/-- `deleteAVLNodeWithSingleChild`: the slot receives the left child when there is one, the
right child otherwise. -/
def deleteAVLNodeWithSingleChild : AVLNode → Option AVLNode
  | null => none
  | node _ l r _ => if l ≠ null then some l else some r

/-- The walk `while(successor->left && successor->left->left) successor = successor->left;`
of `deleteAVLNodeWithTwoChildren` followed, when `successor->left` exists, by unlinking it.  The
result is the value and stored balance factor of the unlinked node together with the tree rooted
at the starting node after the unlink, or `none` when the starting node has no left child. -/
def unlinkLeftmost : AVLNode → Option (Int × Int × AVLNode)
  | null => none
  | node _ null _ _ => none
  | node sv (node mv null mr mbf) sr sbf => some (mv, mbf, node sv mr sr sbf)
  | node sv (node mv (node av al ar abf) mr mbf) sr sbf =>
    (unlinkLeftmost (node mv (node av al ar abf) mr mbf)).map
      fun res => (res.1, res.2.1, node sv res.2.2 sr sbf)

/-- `deleteAVLNodeWithTwoChildren`: as in the BST; the installed node keeps its own stored
balance factor. -/
def deleteAVLNodeWithTwoChildren : AVLNode → Option AVLNode
  | null => none
  | node _ _ null _ => none
  | node _ l (node rv rl rr rbf) _ =>
    match unlinkLeftmost (node rv rl rr rbf) with
    | some (mv, mbf, r') => some (node mv l r' mbf)
    | none => some (node rv l rr rbf)

/-- The three-way case split shared by `deleteAVLNode` and `deleteAVLNodeRecursively` once
`(*root)->value == value`. -/
def deleteAVLRoot : AVLNode → Option AVLNode
  | null => none
  | node v l r bf =>
    if l = null ∧ r = null then deleteAVLNodeWithNoChildren (node v l r bf)
    else if l = null ∨ r = null then deleteAVLNodeWithSingleChild (node v l r bf)
    else deleteAVLNodeWithTwoChildren (node v l r bf)

/-- The descent loop of `deleteAVLNode` with the removal it performs: `deleted` and the tree held
by the root slot when the loop ends. -/
def deleteAVLLoop : AVLNode → Int → Option (Bool × AVLNode)
  | null, _ => some (false, null)
  | node v l r bf, value =>
    if v = value then
      (deleteAVLRoot (node v l r bf)).map fun t => (true, t)
    else if value < v then
      (deleteAVLLoop l value).map fun res => (res.1, node v res.2 r bf)
    else
      (deleteAVLLoop r value).map fun res => (res.1, node v l res.2 bf)

/-- `deleteAVLNode`: the loop, then `balance(initialRoot)` when a node was removed. -/
def deleteAVLNode (root : AVLNode) (value : Int) : Option (Bool × AVLNode) :=
  match deleteAVLLoop root value with
  | none => none
  | some (deleted, t) =>
    if deleted then (balance t).map fun t' => (true, t') else some (false, t)

/-- `deleteAVLNodeRecursively`: `balance` runs on the slot of the removed node and on the slot of
every node on the way back to the root. -/
def deleteAVLNodeRecursively : AVLNode → Int → Option (Bool × AVLNode)
  | null, _ => some (false, null)
  | node v l r bf, value =>
    if v = value then
      (deleteAVLRoot (node v l r bf)).bind fun t => (balance t).map fun t' => (true, t')
    else if value < v then
      match deleteAVLNodeRecursively l value with
      | none => none
      | some (deleted, l') =>
        if deleted then (balance (node v l' r bf)).map fun t => (true, t)
        else some (false, node v l' r bf)
    else
      match deleteAVLNodeRecursively r value with
      | none => none
      | some (deleted, r') =>
        if deleted then (balance (node v l r' bf)).map fun t => (true, t)
        else some (false, node v l r' bf)

/-- `maxAVL`.  The out-parameter `maxValuePtr` is `none` for a `NULL` pointer and `some x` for a
pointer to an `int` holding `x`; the result is `maxFound` together with the out-parameter after
the call. -/
def maxAVL : AVLNode → Option Int → Bool × Option Int
  | null, maxValuePtr => (false, maxValuePtr)
  | node v _ null _, maxValuePtr =>
    match maxValuePtr with
    | some _ => (true, some v)
    | none => (false, none)
  | node _ _ (node rv rl rr rbf) _, maxValuePtr => maxAVL (node rv rl rr rbf) maxValuePtr

/-- `minAVL`, with the out-parameter as in `maxAVL`. -/
def minAVL : AVLNode → Option Int → Bool × Option Int
  | null, minValuePtr => (false, minValuePtr)
  | node v null _ _, minValuePtr =>
    match minValuePtr with
    | some _ => (true, some v)
    | none => (false, none)
  | node _ (node lv ll lr lbf) _ _, minValuePtr => minAVL (node lv ll lr lbf) minValuePtr

/-- `traverseAVL(root, sortedArray, indexPtr)` as state passing: the array and `*indexPtr` after
the call, `none` when a write falls outside the array.  (The guards `if(root->left)` and
`if(root->right)` are subsumed by the `if(root)` of the callee.) -/
def traverseAVLInto : AVLNode → List Int → Nat → Option (List Int × Nat)
  | null, sortedArray, index => some (sortedArray, index)
  | node v l r _, sortedArray, index =>
    (traverseAVLInto l sortedArray index).bind fun st =>
      if st.2 < st.1.length then traverseAVLInto r (st.1.set st.2 v) (st.2 + 1) else none

/-- `getAVLAsSortedArray`.  `malloc n` is what the allocation of `n` ints returns: `none` when it
fails, otherwise a block of `n` ints of arbitrary content.  The result is `none` on a fault,
`some none` when `NULL` is returned and `some (some a)` when the array `a` is returned. -/
def getAVLAsSortedArray (malloc : Nat → Option (List Int)) :
    AVLNode → Option (Option (List Int))
  | null => some none
  | node v l r bf =>
    let count := getAVLCount (node v l r bf)
    match malloc count with
    | none => some none
    | some sortedArray => (traverseAVLInto (node v l r bf) sortedArray 0).map fun st => some st.1

/-- `avlTreeToStr`.  `malloc n` is what the allocation of the `n` sorted values returns and
`mallocStr` tells whether the allocation of the text buffer succeeds.  The result is `none` on
a fault (a write outside a buffer, or `memcpy` into `NULL`), `some none` when `NULL` is
returned and `some (some s)` when the text `s` is returned.  The locals `minValue` and
`maxValue` are not initialised in the source; they are written by `minAVL` and `maxAVL` as the
root is not `NULL`. -/
def avlTreeToStr (malloc : Nat → Option (List Int)) (mallocStr : Bool) :
    AVLNode → Option (Option String)
  | null => if mallocStr then some (some "< >") else none
  | node v l r bf =>
    let size := getAVLCount (node v l r bf)
    match malloc size with
    | none => some none
    | some block =>
      (traverseAVLInto (node v l r bf) block 0).bind fun st =>
        let minValue := ((minAVL (node v l r bf) (some 0)).2).getD 0
        let maxValue := ((maxAVL (node v l r bf) (some 0)).2).getD 0
        let numDigits := getMaxNumberOfDigitsNeeded minValue maxValue
        let numChars := size * numDigits + 3 * (size - 1) + 5
        if mallocStr then (renderSorted numChars size st.1).map some else some none

/-- The children of a node, `none` for `NULL`. -/
def children : AVLNode → Option (AVLNode × AVLNode)
  | null => none
  | node _ l r _ => some (l, r)

/-- `getAVLLevelNodesWithPrefeed`. -/
def getAVLLevelNodesWithPrefeed (callocOk : Bool) (root : AVLNode) (height level : Nat)
    (previousLevelNodes : List AVLNode) : Option (Option (List AVLNode)) :=
  Level.getLevelNodesWithPrefeed children null callocOk root height level previousLevelNodes

/-- `getAVLLevelNodes`. -/
def getAVLLevelNodes (callocOk : Bool) (root : AVLNode) (height level : Nat) :
    Option (Option (List AVLNode)) :=
  Level.getLevelNodes children null callocOk root height level

/-! ### Vocabulary of the AVL properties -/

/-- Every node has subtree heights, recomputed with `getAVLHeight` and not read from the stored
field, that differ by at most one. -/
def Balanced : AVLNode → Prop
  | null => True
  | node _ l r _ =>
    ((getAVLHeight r : Int) - (getAVLHeight l : Int)).natAbs ≤ 1 ∧ Balanced l ∧ Balanced r

instance decidableBalanced : (t : AVLNode) → Decidable (Balanced t)
  | null => isTrue trivial
  | node _ l r _ =>
    have := decidableBalanced l
    have := decidableBalanced r
    inferInstanceAs (Decidable (_ ∧ _ ∧ _))

/-- Exactly one node has subtree heights that differ by two; every other node is balanced. -/
def OneImbalance : AVLNode → Prop
  | null => False
  | node _ l r _ =>
    (((getAVLHeight r : Int) - (getAVLHeight l : Int)).natAbs = 2 ∧ Balanced l ∧ Balanced r)
    ∨ (((getAVLHeight r : Int) - (getAVLHeight l : Int)).natAbs ≤ 1
        ∧ OneImbalance l ∧ Balanced r)
    ∨ (((getAVLHeight r : Int) - (getAVLHeight l : Int)).natAbs ≤ 1
        ∧ Balanced l ∧ OneImbalance r)

/-- What one removal, possibly followed by rotations, leaves of a balanced tree of height `h`:
either a balanced tree of height `h` or `h - 1`, or a tree of height `h` with exactly one
imbalanced node. -/
def NearBalanced (h : Nat) (t : AVLNode) : Prop :=
  (Balanced t ∧ (getAVLHeight t = h ∨ getAVLHeight t + 1 = h))
  ∨ (OneImbalance t ∧ getAVLHeight t = h)

/-- The in-order traversal is strictly increasing. -/
def StrictlyOrdered (t : AVLNode) : Prop := (traverseAVL t).Pairwise (· < ·)

instance decidableStrictlyOrdered (t : AVLNode) : Decidable (StrictlyOrdered t) :=
  inferInstanceAs (Decidable (List.Pairwise _ _))

/-- The tree built by `addAVLNode` (allocation succeeding) from the values of a list, in order. -/
def addAVLNodes (t : AVLNode) : List Int → Option AVLNode
  | [] => some t
  | v :: vs => (addAVLNode true t v).bind fun res => addAVLNodes res.2 vs

/-- The node (or `NULL`) held by the slot reached from the root slot through the given child
slots; `none` when the walk would pass through `NULL`. -/
def subtreeAt : List Side → AVLNode → Option AVLNode
  | [], t => some t
  | _ :: _, null => none
  | Side.left :: p, node _ l _ _ => subtreeAt p l
  | Side.right :: p, node _ _ r _ => subtreeAt p r

/-- The slot list `p` is the comparison descent for `value` from the root of the tree down to
the first node holding `value`. -/
def DescendsTo (value : Int) : AVLNode → List Side → Prop
  | null, _ => False
  | node x _ _ _, [] => x = value
  | node x l _ _, Side.left :: p => value < x ∧ DescendsTo value l p
  | node x _ r _, Side.right :: p => x < value ∧ DescendsTo value r p

/-- The difference `height(right) - height(left)` at the root, recomputed; 0 for `NULL`. -/
def rootDiff : AVLNode → Int
  | null => 0
  | node _ l r _ => (getAVLHeight r : Int) - (getAVLHeight l : Int)

/-- The part of `balance` up to and including the rotations: the first `updateBalanceFactors`
pass and, when it reports a node, `rotateImbalanced` on the reported slot. -/
def rotateDeepest (root : AVLNode) : Option AVLNode :=
  match (updateBalanceFactors root).2 with
  | some imbalancedNode => atSlot rotateImbalanced imbalancedNode (updateBalanceFactors root).1
  | none => some (updateBalanceFactors root).1

/-- A request of a caller on an AVL tree: add or delete a value, with the iterative or the
recursive implementation. -/
inductive AVLRequest where
  | add (recursive : Bool) (value : Int) : AVLRequest
  | delete (recursive : Bool) (value : Int) : AVLRequest
deriving DecidableEq

/-- Serves one request (allocation succeeding). -/
def serve (t : AVLNode) : AVLRequest → Option (Bool × AVLNode)
  | AVLRequest.add false v => addAVLNode true t v
  | AVLRequest.add true v => addAVLNodeRecursively true t v
  | AVLRequest.delete false v => deleteAVLNode t v
  | AVLRequest.delete true v => deleteAVLNodeRecursively t v

/-- Serves a list of requests in order, each on the tree left by the previous one. -/
def serveAll (t : AVLNode) : List AVLRequest → Option AVLNode
  | [] => some t
  | q :: qs => (serve t q).bind fun res => serveAll res.2 qs

/-- Serves a list of requests in order and keeps the tally: the tree left at the end, the number
of adds that returned `true` and the number of deletes that returned `true`. -/
def tally (t : AVLNode) : List AVLRequest → Option (AVLNode × Nat × Nat)
  | [] => some (t, 0, 0)
  | q :: qs =>
    (serve t q).bind fun res =>
      (tally res.2 qs).map fun fin =>
        match q with
        | AVLRequest.add _ _ => (fin.1, fin.2.1 + (if res.1 then 1 else 0), fin.2.2)
        | AVLRequest.delete _ _ => (fin.1, fin.2.1, fin.2.2 + (if res.1 then 1 else 0))

/-- The tree with every stored balance factor reset to 0: its shape and values only. -/
def clearFactors : AVLNode → AVLNode
  | null => null
  | node v l r _ => node v (clearFactors l) (clearFactors r) 0

/-- A leaf. -/
def leaf (v : Int) : AVLNode := node v null null 0

/-- The 12-node tree built by inserting 5, 2, 8, 1, 3, 6, 10, 4, 7, 9, 11, 12. -/
def fib12 : AVLNode :=
  node 5 (node 2 (leaf 1) (node 3 null (leaf 4) 1) 1)
    (node 8 (node 6 null (leaf 7) 1)
      (node 10 (leaf 9) (node 11 null (leaf 12) 1) 1) 1) 1

/-- What `deleteAVLNode fib12 1` leaves: the root has a left subtree of height 2 and a right
subtree of height 4. -/
def fib12Without1 : AVLNode :=
  node 5 (node 3 (leaf 2) (leaf 4) 0)
    (node 8 (node 6 null (leaf 7) 1)
      (node 10 (leaf 9) (node 11 null (leaf 12) 1) 1) 1) 2

/-- The 20-node tree built by inserting
8, 3, 13, 1, 5, 10, 16, 2, 4, 6, 9, 11, 14, 18, 7, 12, 15, 17, 19, 20. -/
def fib20 : AVLNode :=
  node 8 (node 3 (node 1 null (leaf 2) 1) (node 5 (leaf 4) (node 6 null (leaf 7) 1) 1) 1)
    (node 13 (node 10 (leaf 9) (node 11 null (leaf 12) 1) 1)
      (node 16 (node 14 null (leaf 15) 1)
        (node 18 (leaf 17) (node 19 null (leaf 20) 1) 1) 1) 1) 1

/-- What `deleteAVLNodeRecursively fib20 8` leaves: the node holding 13 has a left subtree of
height 2 and a right subtree of height 4. -/
def fib20Without8 : AVLNode :=
  node 9 (node 3 (node 1 null (leaf 2) 1) (node 5 (leaf 4) (node 6 null (leaf 7) 1) 1) 1)
    (node 13 (node 11 (leaf 10) (leaf 12) 0)
      (node 16 (node 14 null (leaf 15) 1)
        (node 18 (leaf 17) (node 19 null (leaf 20) 1) 1) 1) 2) 1

/-- What `deleteAVLNodeRecursively fib12 1` leaves: after the rotation at the node holding 2,
the pass on the root slot rotates again and the node holding 8 becomes the root. -/
def fib12Without1Recursively : AVLNode :=
  node 8 (node 5 (node 3 (leaf 2) (leaf 4) 0) (node 6 null (leaf 7) 1) 0)
    (node 10 (leaf 9) (node 11 null (leaf 12) 1) 1) 0

/-- Every stored `balanceFactor` is the difference `height(right) - height(left)` recomputed
from the shape. -/
def FactorsAccurate : AVLNode → Prop
  | null => True
  | node _ l r bf =>
    bf = (getAVLHeight r : Int) - (getAVLHeight l : Int) ∧ FactorsAccurate l ∧ FactorsAccurate r

instance decidableFactorsAccurate : (t : AVLNode) → Decidable (FactorsAccurate t)
  | null => isTrue trivial
  | node _ l r _ =>
    have := decidableFactorsAccurate l
    have := decidableFactorsAccurate r
    inferInstanceAs (Decidable (_ ∧ _ ∧ _))

/-- The value and the stored balance factor of the leftmost node of a tree. -/
def leftmostNode : AVLNode → Option (Int × Int)
  | null => none
  | node v null _ bf => some (v, bf)
  | node _ (node lv ll lr lbf) _ _ => leftmostNode (node lv ll lr lbf)

/-- The tree without its leftmost node, the right child of that node spliced into its place. -/
def removeLeftmost : AVLNode → AVLNode
  | null => null
  | node _ null r _ => r
  | node v (node lv ll lr lbf) r bf => node v (removeLeftmost (node lv ll lr lbf)) r bf

/-- Every difference `height(right) - height(left)` lies strictly between `-2^31` and `2^31`, so
that the `int` field holds it and `abs` is defined on it. -/
def DiffsFit : AVLNode → Prop
  | null => True
  | node _ l r _ =>
    ((getAVLHeight r : Int) - (getAVLHeight l : Int)).natAbs < 2 ^ 31 ∧ DiffsFit l ∧ DiffsFit r

/-- A chain of `n` nodes linked by their `right` pointers, holding `v`, `v + 1`, ... from the
top down. -/
def rightChainFrom (v : Int) : Nat → AVLNode
  | 0 => null
  | n + 1 => node v null (rightChainFrom (v + 1) n) 0

/-- A chain of `2^31` nodes linked by their `right` pointers, holding the values `-2147483643`,
`-2147483642`, ..., `4` from the top down. -/
def longChain : AVLNode := rightChainFrom (-2147483643) 2147483648

/-- A search tree of `2^31 + 4` nodes and height `2^31 + 2` whose values all lie in the range of
`int`: the root holds `INT_MIN = -2147483648` and has no left child; its right child holds
`-2147483644` over the small subtree `-2147483645(-2147483646)` on the left and `longChain` on
the right.  The value `-2147483647` is absent. -/
def deepTree : AVLNode :=
  node (-2147483648) null
    (node (-2147483644) (node (-2147483645) (leaf (-2147483646)) null 0) longChain 0) 0

/-- All the imbalanced nodes lie on one path from the root: at every node one of the two
subtrees is balanced throughout. -/
def OnOnePath : AVLNode → Prop
  | null => True
  | node _ l r _ => (Balanced l ∧ OnOnePath r) ∨ (Balanced r ∧ OnOnePath l)

/-- At no node do the two recursive calls of `updateBalanceFactors`, on the left and on the right
subtree, both report an imbalanced node. -/
def NeverBothReport : AVLNode → Prop
  | null => True
  | node _ l r _ =>
    ((updateBalanceFactors l).2 = none ∨ (updateBalanceFactors r).2 = none)
      ∧ NeverBothReport l ∧ NeverBothReport r

/-- The repair of an imbalanced node by rotations, chosen from the recomputed heights: for a
right-heavy node a left rotation, preceded by a right rotation of the right child when that
child is left-heavy; the mirror image for a left-heavy node. -/
def repair : AVLNode → Option AVLNode
  | null => none
  | node v l r bf =>
    if getAVLHeight r > getAVLHeight l then
      if rootDiff r < 0 then (rotateRight r).bind fun r' => rotateLeft (node v l r' bf)
      else rotateLeft (node v l r bf)
    else
      if rootDiff l > 0 then (rotateLeft l).bind fun l' => rotateRight (node v l' r bf)
      else rotateRight (node v l r bf)

/-- The values 10, 20, ..., 10 * n, in ascending order. -/
def firstTens (n : Nat) : List Int := (List.range n).map fun i => 10 * ((i : Int) + 1)

end AVLNode

end Tree

/-! # Linked lists (`unidirectional.c`, `bidirectional.c`)

A list pointer is the list it points to; `NULL` is the constructor `null`.  A function that takes
the slot `Node **root` takes the list held by the slot and returns the list it holds afterwards;
the slot handle itself is assumed valid. -/

namespace LinkedList

/-- A `UniNode *`: either `NULL` or a node with `value` and `next`. -/
inductive UniNode where
  | null : UniNode
  | node (value : Int) (next : UniNode) : UniNode
deriving DecidableEq

namespace UniNode

/-- `addUniNode`: the loop walks to the `NULL` slot at the end and the new node is stored there
when `malloc` succeeds. -/
def addUniNode (mallocOk : Bool) : UniNode → Int → Bool × UniNode
  | null, value => if mallocOk then (true, node value null) else (false, null)
  | node x next, value =>
    let res := addUniNode mallocOk next value
    (res.1, node x res.2)

/-- The loop `while(*root)` of `deleteUniNode`, from the slot holding the given list, with the
current value of `deleted`.  On a match the slot receives the next node and the loop goes on
with the same slot; otherwise it moves to the slot `&(*root)->next`. -/
def deleteUniNodeLoop : UniNode → Int → Bool → Bool × UniNode
  | null, _, deleted => (deleted, null)
  | node x next, value, deleted =>
    if x = value then deleteUniNodeLoop next value true
    else
      let res := deleteUniNodeLoop next value deleted
      (res.1, node x res.2)

/-- `deleteUniNode`. -/
def deleteUniNode (root : UniNode) (value : Int) : Bool × UniNode :=
  deleteUniNodeLoop root value false

/-- `deleteUniNodeRecursively`. -/
def deleteUniNodeRecursively : UniNode → Int → Bool × UniNode
  | null, _ => (false, null)
  | node x next, value =>
    if x = value then (true, next)
    else
      let res := deleteUniNodeRecursively next value
      (res.1, node x res.2)

/-- `getUniNodesCount`. -/
def getUniNodesCount : UniNode → Nat
  | null => 0
  | node _ next => getUniNodesCount next + 1

/-- `addOrderedUniNode`: the loop `while(*root && (*root)->value < value)` walks to the slot of
the first node that is not below `value`, and the new node is stored in front of it when `malloc`
succeeds. -/
def addOrderedUniNode (mallocOk : Bool) : UniNode → Int → Bool × UniNode
  | null, value => if mallocOk then (true, node value null) else (false, null)
  | node x next, value =>
    if x < value then
      let res := addOrderedUniNode mallocOk next value
      (res.1, node x res.2)
    else if mallocOk then (true, node value (node x next)) else (false, node x next)

/-- `addOrderedUniNodeRecursively`. -/
def addOrderedUniNodeRecursively (mallocOk : Bool) : UniNode → Int → Bool × UniNode
  | null, value => if mallocOk then (true, node value null) else (false, null)
  | node x next, value =>
    if x ≥ value then
      if mallocOk then (true, node value (node x next)) else (false, node x next)
    else
      let res := addOrderedUniNodeRecursively mallocOk next value
      (res.1, node x res.2)

/-! ### Vocabulary of the list properties -/

/-- The values of the nodes, from the root on. -/
def values : UniNode → List Int
  | null => []
  | node x next => x :: values next

/-- The list built by `addUniNode` (allocation succeeding) from the given values, in order. -/
def addUniNodes (root : UniNode) : List Int → UniNode
  | [] => root
  | v :: vs => addUniNodes (addUniNode true root v).2 vs

/-- The list built by `addOrderedUniNode` (allocation succeeding) from the given values, in
order. -/
def addOrderedUniNodes (root : UniNode) : List Int → UniNode
  | [] => root
  | v :: vs => addOrderedUniNodes (addOrderedUniNode true root v).2 vs

end UniNode

/-- A `BiNode *`: either `NULL` or a node with `value`, `prev` and `next`.  The pointer `prev`
is kept as an address (`0` for `NULL`): the functions embedded here copy it and never follow
it. -/
inductive BiNode where
  | null : BiNode
  | node (value : Int) (prev : Nat) (next : BiNode) : BiNode
deriving DecidableEq

namespace BiNode

/-- The assignment `(*root)->prev = prev` guarded by `if(*root)`. -/
def setPrev (prev : Nat) : BiNode → BiNode
  | null => null
  | node x _ next => node x prev next

/-- The loop `while(*root)` of `deleteBiNode`, as `deleteUniNodeLoop`.  The node that follows a
removed node receives its `prev` before the loop goes on with the same slot: `written` is that
assignment, pending on the node now held by the slot (`none` when the loop has just moved to
the slot `&(*root)->next`). -/
def deleteBiNodeLoop : BiNode → Option Nat → Int → Bool → Bool × BiNode
  | null, _, _, deleted => (deleted, null)
  | node x stored next, written, value, deleted =>
    let prev := written.getD stored
    if x = value then deleteBiNodeLoop next (some prev) value true
    else
      let res := deleteBiNodeLoop next none value deleted
      (res.1, node x prev res.2)

/-- `deleteBiNode`. -/
def deleteBiNode (root : BiNode) (value : Int) : Bool × BiNode :=
  deleteBiNodeLoop root none value false

/-- `deleteBiNodeRecursively`. -/
def deleteBiNodeRecursively : BiNode → Int → Bool × BiNode
  | null, _ => (false, null)
  | node x prev next, value =>
    if x = value then (true, setPrev prev next)
    else
      let res := deleteBiNodeRecursively next value
      (res.1, node x prev res.2)

/-- `getBiNodesCount`. -/
def getBiNodesCount : BiNode → Nat
  | null => 0
  | node _ _ next => getBiNodesCount next + 1

/-! ### Vocabulary of the list properties -/

/-- The values of the nodes, from the root on (the forward sequence). -/
def values : BiNode → List Int
  | null => []
  | node x _ next => x :: values next

/-- The list whose nodes hold the given values, the first node stored at address `address + 1`
and each node at the address after that of its predecessor; `address` is the address of the node
in front (`0` for none). -/
def ofValues (address : Nat) : List Int → BiNode
  | [] => null
  | v :: vs => node v address (ofValues (address + 1) vs)

end BiNode

end LinkedList

namespace Tree

/-! ## Theorems -/

namespace BSTNode

/-! ### Membership and search in the BST -/

theorem mem_traverseBST_node (x v : Int) (l r : BSTNode) :
    v ∈ traverseBST (node x l r) ↔ v ∈ traverseBST l ∨ v = x ∨ v ∈ traverseBST r := by
  simp [traverseBST]

theorem sorted_traverseBST_node (x : Int) (l r : BSTNode) :
    (traverseBST (node x l r)).Pairwise (· ≤ ·) ↔
      (traverseBST l).Pairwise (· ≤ ·) ∧ (traverseBST r).Pairwise (· ≤ ·)
      ∧ (∀ a ∈ traverseBST l, a ≤ x) ∧ (∀ b ∈ traverseBST r, x ≤ b) := by
  simp only [traverseBST, List.pairwise_append, List.pairwise_cons, List.mem_cons]
  constructor
  · rintro ⟨hl, ⟨hxr, hr⟩, hlr⟩
    exact ⟨hl, hr, fun a ha => hlr a ha x (Or.inl rfl), hxr⟩
  · rintro ⟨hl, hr, hlx, hxr⟩
    refine ⟨hl, ⟨hxr, hr⟩, ?_⟩
    rintro a ha b (rfl | hb)
    · exact hlx a ha
    · exact le_trans (hlx a ha) (hxr b hb)

theorem deleteBSTNode_absent (t : BSTNode) (v : Int) (h : v ∉ traverseBST t) :
    deleteBSTNode t v = some (false, t) := by
  induction t with
  | null => rfl
  | node x l r ihl ihr =>
    rw [mem_traverseBST_node] at h
    push_neg at h
    obtain ⟨hl, hx, hr⟩ := h
    have hx' : ¬ x = v := fun e => hx e.symm
    by_cases hlt : v < x
    · simp [deleteBSTNode, hx', hlt, ihl hl]
    · simp [deleteBSTNode, hx', hlt, ihr hr]

theorem deleteBSTNodeRecursively_absent (t : BSTNode) (v : Int) (h : v ∉ traverseBST t) :
    deleteBSTNodeRecursively t v = some (false, t) := by
  induction t with
  | null => rfl
  | node x l r ihl ihr =>
    rw [mem_traverseBST_node] at h
    push_neg at h
    obtain ⟨hl, hx, hr⟩ := h
    have hx' : ¬ x = v := fun e => hx e.symm
    by_cases hlt : v < x
    · simp [deleteBSTNodeRecursively, hx', hlt, ihl hl]
    · simp [deleteBSTNodeRecursively, hx', hlt, ihr hr]

theorem findBSTNode_some_iff (t : BSTNode) (v : Int) (hs : (traverseBST t).Pairwise (· ≤ ·)) :
    (∃ n, findBSTNode t v = some n) ↔ v ∈ traverseBST t := by
  induction t with
  | null => simp [findBSTNode, traverseBST]
  | node x l r ihl ihr =>
    rw [sorted_traverseBST_node] at hs
    obtain ⟨hl, hr, hlx, hxr⟩ := hs
    rw [mem_traverseBST_node]
    by_cases hx : v = x
    · simp [findBSTNode, hx]
    · by_cases hlt : v < x
      · simp only [findBSTNode, hx, hlt, if_true, if_false, ihl hl]
        constructor
        · exact fun h => Or.inl h
        · rintro (h | h | h)
          · exact h
          · exact h.elim
          · exact absurd (hxr v h) (not_le.mpr hlt)
      · simp only [findBSTNode, hx, hlt, if_false, ihr hr]
        constructor
        · exact fun h => Or.inr (Or.inr h)
        · rintro (h | h | h)
          · have := hlx v h
            omega
          · exact h.elim
          · exact h

theorem findBSTNode_descends (t : BSTNode) (v : Int) (n : BSTNode)
    (h : findBSTNode t v = some n) :
    ∃ p l r, DescendsTo v t p ∧ subtreeAt p t = some n ∧ n = node v l r := by
  induction t with
  | null => simp [findBSTNode] at h
  | node x l r ihl ihr =>
    by_cases hx : v = x
    · simp only [findBSTNode, hx, if_true, Option.some.injEq] at h
      exact ⟨[], l, r, by simp [DescendsTo, hx], by simp [subtreeAt, h], by rw [← h, hx]⟩
    · by_cases hlt : v < x
      · simp only [findBSTNode, hx, hlt, if_true, if_false] at h
        obtain ⟨p, l', r', hd, hsub, hn⟩ := ihl h
        exact ⟨Side.left :: p, l', r', ⟨hlt, hd⟩, hsub, hn⟩
      · simp only [findBSTNode, hx, hlt, if_false] at h
        obtain ⟨p, l', r', hd, hsub, hn⟩ := ihr h
        have hgt : x < v := by omega
        exact ⟨Side.right :: p, l', r', ⟨hgt, hd⟩, hsub, hn⟩

/-! ### Insertion in the BST -/

theorem addBSTNode_fst (t : BSTNode) (v : Int) : (addBSTNode true t v).1 = true := by
  induction t with
  | null => rfl
  | node x l r ihl ihr =>
    by_cases h : v ≤ x
    · simpa [addBSTNode, h] using ihl
    · simpa [addBSTNode, h] using ihr

theorem mem_traverseBST_addBSTNode (t : BSTNode) (v y : Int) :
    y ∈ traverseBST (addBSTNode true t v).2 ↔ y = v ∨ y ∈ traverseBST t := by
  induction t with
  | null => simp [addBSTNode, traverseBST]
  | node x l r ihl ihr =>
    by_cases h : v ≤ x
    · simp only [addBSTNode, h, if_true, mem_traverseBST_node, ihl]
      tauto
    · simp only [addBSTNode, h, if_false, mem_traverseBST_node, ihr]
      tauto

theorem addBSTNode_ordered (t : BSTNode) (v : Int) (h : BSTOrdered t) :
    BSTOrdered (addBSTNode true t v).2 := by
  induction t with
  | null => simp [addBSTNode, BSTOrdered, traverseBST]
  | node x l r ihl ihr =>
    obtain ⟨hlx, hxr, hl, hr⟩ := h
    by_cases hv : v ≤ x
    · simp only [addBSTNode, hv, if_true]
      refine ⟨?_, hxr, ihl hl, hr⟩
      intro y hy
      rcases (mem_traverseBST_addBSTNode l v y).mp hy with rfl | hy
      · exact hv
      · exact hlx y hy
    · simp only [addBSTNode, hv, if_false]
      refine ⟨hlx, ?_, hl, ihr hr⟩
      intro y hy
      rcases (mem_traverseBST_addBSTNode r v y).mp hy with rfl | hy
      · omega
      · exact hxr y hy

theorem addBSTNode_new_leaf (t : BSTNode) (v : Int) :
    ∃ p, subtreeAt p t = some null
      ∧ (addBSTNode true t v).2 = replaceAt (node v null null) p t
      ∧ ∀ q, DescendsTo v t q → ∃ p', p = q ++ Side.left :: p' := by
  induction t with
  | null =>
    exact ⟨[], rfl, rfl, fun q hq => by simp [DescendsTo] at hq⟩
  | node x l r ihl ihr =>
    by_cases hv : v ≤ x
    · obtain ⟨p, hsub, hrep, hq⟩ := ihl
      refine ⟨Side.left :: p, hsub, by simp [addBSTNode, hv, replaceAt, hrep], ?_⟩
      intro q hd
      match q, hd with
      | [], _ => exact ⟨p, rfl⟩
      | Side.left :: q', hd =>
        obtain ⟨p', hp'⟩ := hq q' hd.2
        exact ⟨p', by simp [hp']⟩
      | Side.right :: q', hd =>
        have := hd.1
        omega
    · obtain ⟨p, hsub, hrep, hq⟩ := ihr
      refine ⟨Side.right :: p, hsub, by simp [addBSTNode, hv, replaceAt, hrep], ?_⟩
      intro q hd
      match q, hd with
      | [], hd =>
        have : x = v := hd
        omega
      | Side.left :: q', hd =>
        have := hd.1
        omega
      | Side.right :: q', hd =>
        obtain ⟨p', hp'⟩ := hq q' hd.2
        exact ⟨p', by simp [hp']⟩

theorem getBSTCount_replaceAt_leaf (t : BSTNode) (v : Int) (p : List Side)
    (h : subtreeAt p t = some null) :
    getBSTCount (replaceAt (node v null null) p t) = getBSTCount t + 1 := by
  induction t generalizing p with
  | null =>
    cases p with
    | nil => simp [replaceAt, getBSTCount]
    | cons d p => simp [subtreeAt] at h
  | node x l r ihl ihr =>
    cases p with
    | nil => simp [subtreeAt] at h
    | cons d p =>
      cases d with
      | left =>
        simp only [replaceAt, getBSTCount, ihl p h]
        omega
      | right =>
        simp only [replaceAt, getBSTCount, ihr p h]
        omega

/-! ### Deletion in the BST -/

theorem unlinkLeftmost_isSome (sl : BSTNode) (sv : Int) (sr : BSTNode) (h : sl ≠ null) :
    ∃ res, unlinkLeftmost (node sv sl sr) = some res := by
  induction sl generalizing sv sr with
  | null => exact absurd rfl h
  | node mv ml mr ihl _ =>
    cases ml with
    | null => exact ⟨_, rfl⟩
    | node av al ar =>
      obtain ⟨res, hres⟩ := ihl mv mr (by simp)
      exact ⟨(res.1, node sv res.2 sr), by simp [unlinkLeftmost, hres]⟩

theorem unlinkLeftmost_traverse (s : BSTNode) (res : Int × BSTNode)
    (h : unlinkLeftmost s = some res) : traverseBST s = res.1 :: traverseBST res.2 := by
  induction s generalizing res with
  | null => simp [unlinkLeftmost] at h
  | node sv sl sr ihl _ =>
    cases sl with
    | null => simp [unlinkLeftmost] at h
    | node mv ml mr =>
      cases ml with
      | null =>
        simp only [unlinkLeftmost, Option.some.injEq] at h
        subst h
        simp [traverseBST]
      | node av al ar =>
        rw [unlinkLeftmost] at h
        cases hu : unlinkLeftmost (node mv (node av al ar) mr) with
        | none => simp [hu] at h
        | some res' =>
          simp only [hu, Option.map_some', Option.some.injEq] at h
          subst h
          have := ihl res' hu
          simp only [traverseBST] at this ⊢
          simp [this]

theorem deleteBSTRoot_traverse (v : Int) (l r : BSTNode) :
    ∃ s, deleteBSTRoot (node v l r) = some s ∧ traverseBST s = traverseBST l ++ traverseBST r := by
  cases l with
  | null =>
    cases r with
    | null => exact ⟨null, by simp [deleteBSTRoot, deleteBSTNodeWithNoChildren], rfl⟩
    | node rv rl rr =>
      exact ⟨node rv rl rr, by simp [deleteBSTRoot, deleteBSTNodeWithSingleChild],
        by simp [traverseBST]⟩
  | node lv ll lr =>
    cases r with
    | null =>
      exact ⟨node lv ll lr, by simp [deleteBSTRoot, deleteBSTNodeWithSingleChild],
        by simp [traverseBST]⟩
    | node rv rl rr =>
      cases hu : unlinkLeftmost (node rv rl rr) with
      | none =>
        have hrl : rl = null := by
          by_contra hne
          obtain ⟨res, hres⟩ := unlinkLeftmost_isSome rl rv rr hne
          simp [hres] at hu
        subst hrl
        exact ⟨node rv (node lv ll lr) rr,
          by simp [deleteBSTRoot, deleteBSTNodeWithTwoChildren, hu], by simp [traverseBST]⟩
      | some res =>
        have ht := unlinkLeftmost_traverse _ res hu
        exact ⟨node res.1 (node lv ll lr) res.2,
          by simp [deleteBSTRoot, deleteBSTNodeWithTwoChildren, hu], by
            rw [ht]
            simp [traverseBST]⟩

theorem deleteBSTNode_present (t : BSTNode) (v : Int) (hs : (traverseBST t).Pairwise (· ≤ ·))
    (hv : v ∈ traverseBST t) :
    ∃ t', deleteBSTNode t v = some (true, t')
      ∧ (∃ l1 l2, traverseBST t = l1 ++ v :: l2 ∧ traverseBST t' = l1 ++ l2)
      ∧ ∃ p l r s, DescendsTo v t p ∧ subtreeAt p t = some (node v l r)
          ∧ deleteBSTRoot (node v l r) = some s ∧ t' = replaceAt s p t := by
  induction t with
  | null => simp [traverseBST] at hv
  | node x l r ihl ihr =>
    rw [sorted_traverseBST_node] at hs
    obtain ⟨hl, hr, hlx, hxr⟩ := hs
    rw [mem_traverseBST_node] at hv
    by_cases hx : x = v
    · subst hx
      obtain ⟨s, hs1, hs2⟩ := deleteBSTRoot_traverse x l r
      refine ⟨s, by simp [deleteBSTNode, hs1], ⟨traverseBST l, traverseBST r, rfl, hs2⟩, ?_⟩
      exact ⟨[], l, r, s, rfl, rfl, hs1, rfl⟩
    · by_cases hlt : v < x
      · have hvl : v ∈ traverseBST l := by
          rcases hv with h | h | h
          · exact h
          · exact absurd h.symm hx
          · have := hxr v h
            omega
        obtain ⟨l', hdel, ⟨l1, l2, e1, e2⟩, p, a, b, s, hd, hsub, hroot, hrep⟩ := ihl hl hvl
        refine ⟨node x l' r, by simp [deleteBSTNode, hx, hlt, hdel],
          ⟨l1, l2 ++ x :: traverseBST r, by simp [traverseBST, e1], by simp [traverseBST, e2]⟩,
          ?_⟩
        exact ⟨Side.left :: p, a, b, s, ⟨hlt, hd⟩, hsub, hroot, by simp [replaceAt, hrep]⟩
      · have hvr : v ∈ traverseBST r := by
          rcases hv with h | h | h
          · have := hlx v h
            omega
          · exact absurd h.symm hx
          · exact h
        have hgt : x < v := by omega
        obtain ⟨r', hdel, ⟨l1, l2, e1, e2⟩, p, a, b, s, hd, hsub, hroot, hrep⟩ := ihr hr hvr
        refine ⟨node x l r', by simp [deleteBSTNode, hx, hlt, hdel],
          ⟨traverseBST l ++ x :: l1, l2, by simp [traverseBST, e1], by simp [traverseBST, e2]⟩,
          ?_⟩
        exact ⟨Side.right :: p, a, b, s, ⟨hgt, hd⟩, hsub, hroot, by simp [replaceAt, hrep]⟩

theorem deleteBSTNodeRecursively_fst (t : BSTNode) (v : Int) (res : Bool × BSTNode)
    (h : deleteBSTNodeRecursively t v = some res) : res.1 = false := by
  induction t generalizing res with
  | null =>
    simp only [deleteBSTNodeRecursively, Option.some.injEq] at h
    rw [← h]
  | node x l r ihl ihr =>
    by_cases hx : x = v
    · simp only [deleteBSTNodeRecursively, hx, if_true] at h
      cases hs : deleteBSTRoot (node v l r) with
      | none => simp [hs] at h
      | some s =>
        simp only [hs, Option.map_some', Option.some.injEq] at h
        rw [← h]
    · by_cases hlt : v < x
      · simp only [deleteBSTNodeRecursively, hx, hlt, if_true, if_false] at h
        cases hl : deleteBSTNodeRecursively l v with
        | none => simp [hl] at h
        | some res' =>
          simp only [hl, Option.map_some', Option.some.injEq] at h
          rw [← h]
          exact ihl res' hl
      · simp only [deleteBSTNodeRecursively, hx, hlt, if_false] at h
        cases hr : deleteBSTNodeRecursively r v with
        | none => simp [hr] at h
        | some res' =>
          simp only [hr, Option.map_some', Option.some.injEq] at h
          rw [← h]
          exact ihr res' hr

/-- C8, at the failing input: on the one-node tree holding 5, `deleteBSTNodeRecursively` removes
the node (the tree becomes empty) and returns `false`, because the branch that removes the
matching node does not assign `deleted`. -/
theorem deleteBSTNodeRecursively_root_match_returns_false :
    deleteBSTNodeRecursively (node 5 null null) 5 = some (false, null)
    ∧ deleteBSTNode (node 5 null null) 5 = some (true, null) := by
  decide

/-- C6, at the failing input: the tree built by `addBSTNode` from 5, 3, 7, 7 satisfies the
ordering invariant; `deleteBSTNode` of 5 promotes the inner 7 and leaves the other 7 in its right
subtree, so the right subtree of the root is no longer strictly greater than the root. -/
theorem deleteBSTNode_breaks_BSTOrdered_on_duplicates :
    addBSTNodes null [5, 3, 7, 7] = node 5 (node 3 null null) (node 7 (node 7 null null) null)
    ∧ BSTOrdered (node 5 (node 3 null null) (node 7 (node 7 null null) null))
    ∧ deleteBSTNode (node 5 (node 3 null null) (node 7 (node 7 null null) null)) 5
        = some (true, node 7 (node 3 null null) (node 7 null null))
    ∧ ¬ BSTOrdered (node 7 (node 3 null null) (node 7 null null)) := by
  decide

end BSTNode

namespace AVLNode

/-! ### Membership and search in the AVL tree -/

theorem mem_traverseAVL_node (x v bf : Int) (l r : AVLNode) :
    v ∈ traverseAVL (node x l r bf) ↔ v ∈ traverseAVL l ∨ v = x ∨ v ∈ traverseAVL r := by
  simp [traverseAVL]

theorem strictlyOrdered_node (x bf : Int) (l r : AVLNode) :
    StrictlyOrdered (node x l r bf) ↔
      StrictlyOrdered l ∧ StrictlyOrdered r
      ∧ (∀ a ∈ traverseAVL l, a < x) ∧ (∀ b ∈ traverseAVL r, x < b) := by
  simp only [StrictlyOrdered, traverseAVL, List.pairwise_append, List.pairwise_cons,
    List.mem_cons]
  constructor
  · rintro ⟨hl, ⟨hxr, hr⟩, hlr⟩
    exact ⟨hl, hr, fun a ha => hlr a ha x (Or.inl rfl), hxr⟩
  · rintro ⟨hl, hr, hlx, hxr⟩
    refine ⟨hl, ⟨hxr, hr⟩, ?_⟩
    rintro a ha b (rfl | hb)
    · exact hlx a ha
    · exact lt_trans (hlx a ha) (hxr b hb)

theorem deleteAVLLoop_absent (t : AVLNode) (v : Int) (h : v ∉ traverseAVL t) :
    deleteAVLLoop t v = some (false, t) := by
  induction t with
  | null => rfl
  | node x l r bf ihl ihr =>
    rw [mem_traverseAVL_node] at h
    push_neg at h
    obtain ⟨hl, hx, hr⟩ := h
    have hx' : ¬ x = v := fun e => hx e.symm
    by_cases hlt : v < x
    · simp [deleteAVLLoop, hx', hlt, ihl hl]
    · simp [deleteAVLLoop, hx', hlt, ihr hr]

theorem deleteAVLNode_absent (t : AVLNode) (v : Int) (h : v ∉ traverseAVL t) :
    deleteAVLNode t v = some (false, t) := by
  simp [deleteAVLNode, deleteAVLLoop_absent t v h]

theorem deleteAVLNodeRecursively_absent (t : AVLNode) (v : Int) (h : v ∉ traverseAVL t) :
    deleteAVLNodeRecursively t v = some (false, t) := by
  induction t with
  | null => rfl
  | node x l r bf ihl ihr =>
    rw [mem_traverseAVL_node] at h
    push_neg at h
    obtain ⟨hl, hx, hr⟩ := h
    have hx' : ¬ x = v := fun e => hx e.symm
    by_cases hlt : v < x
    · simp [deleteAVLNodeRecursively, hx', hlt, ihl hl]
    · simp [deleteAVLNodeRecursively, hx', hlt, ihr hr]

theorem findAVLNode_some_iff (t : AVLNode) (v : Int) (hs : StrictlyOrdered t) :
    (∃ n, findAVLNode t v = some n) ↔ v ∈ traverseAVL t := by
  induction t with
  | null => simp [findAVLNode, traverseAVL]
  | node x l r bf ihl ihr =>
    rw [strictlyOrdered_node] at hs
    obtain ⟨hl, hr, hlx, hxr⟩ := hs
    rw [mem_traverseAVL_node]
    by_cases hx : v = x
    · simp [findAVLNode, hx]
    · by_cases hlt : v < x
      · simp only [findAVLNode, hx, hlt, if_true, if_false, ihl hl]
        constructor
        · exact fun h => Or.inl h
        · rintro (h | h | h)
          · exact h
          · exact h.elim
          · exact absurd (hxr v h) (not_lt.mpr (le_of_lt hlt))
      · simp only [findAVLNode, hx, hlt, if_false, ihr hr]
        constructor
        · exact fun h => Or.inr (Or.inr h)
        · rintro (h | h | h)
          · have := hlx v h
            omega
          · exact h.elim
          · exact h

theorem findAVLNode_descends (t : AVLNode) (v : Int) (n : AVLNode)
    (h : findAVLNode t v = some n) :
    ∃ p l r bf, DescendsTo v t p ∧ subtreeAt p t = some n ∧ n = node v l r bf := by
  induction t with
  | null => simp [findAVLNode] at h
  | node x l r bf ihl ihr =>
    by_cases hx : v = x
    · simp only [findAVLNode, hx, if_true, Option.some.injEq] at h
      exact ⟨[], l, r, bf, by simp [DescendsTo, hx], by simp [subtreeAt, h], by rw [← h, hx]⟩
    · by_cases hlt : v < x
      · simp only [findAVLNode, hx, hlt, if_true, if_false] at h
        obtain ⟨p, l', r', bf', hd, hsub, hn⟩ := ihl h
        exact ⟨Side.left :: p, l', r', bf', ⟨hlt, hd⟩, hsub, hn⟩
      · simp only [findAVLNode, hx, hlt, if_false] at h
        obtain ⟨p, l', r', bf', hd, hsub, hn⟩ := ihr h
        have hgt : x < v := by omega
        exact ⟨Side.right :: p, l', r', bf', ⟨hgt, hd⟩, hsub, hn⟩

theorem count_eq_one_of_strictlyOrdered (l : List Int) (v : Int) (hs : l.Pairwise (· < ·))
    (hv : v ∈ l) : l.count v = 1 := by
  have hnd : l.Nodup := hs.imp (fun h => ne_of_lt h)
  exact List.count_eq_one_of_mem hnd hv

/-! ### Heights, stored factors and the reported slot -/

theorem wrapInt32_small (x : Int) (h1 : -2147483648 ≤ x) (h2 : x < 2147483648) :
    wrapInt32 x = x := by
  unfold wrapInt32
  omega

theorem getAVLHeight_node (v bf : Int) (l r : AVLNode) :
    getAVLHeight (node v l r bf) = 1 + max (getAVLHeight l) (getAVLHeight r) := by
  simp only [getAVLHeight]
  split_ifs with h
  · rw [max_eq_left h]
  · rw [max_eq_right (by omega)]

theorem updateBalanceFactors_node (v bf : Int) (l r : AVLNode) :
    (updateBalanceFactors (node v l r bf)).1
      = node v (updateBalanceFactors l).1 (updateBalanceFactors r).1
          (wrapInt32 ((getAVLHeight r : Int) - (getAVLHeight l : Int))) := by
  simp [updateBalanceFactors]

theorem traverseAVL_updateBalanceFactors (t : AVLNode) :
    traverseAVL (updateBalanceFactors t).1 = traverseAVL t := by
  induction t with
  | null => rfl
  | node v l r bf ihl ihr => simp [updateBalanceFactors_node, traverseAVL, ihl, ihr]

theorem getAVLHeight_updateBalanceFactors (t : AVLNode) :
    getAVLHeight (updateBalanceFactors t).1 = getAVLHeight t := by
  induction t with
  | null => rfl
  | node v l r bf ihl ihr => simp [updateBalanceFactors_node, getAVLHeight, ihl, ihr]

theorem getAVLCount_updateBalanceFactors (t : AVLNode) :
    getAVLCount (updateBalanceFactors t).1 = getAVLCount t := by
  induction t with
  | null => rfl
  | node v l r bf ihl ihr => simp [updateBalanceFactors_node, getAVLCount, ihl, ihr]

theorem balanced_updateBalanceFactors (t : AVLNode) :
    Balanced (updateBalanceFactors t).1 ↔ Balanced t := by
  induction t with
  | null => simp [updateBalanceFactors]
  | node v l r bf ihl ihr =>
    simp [updateBalanceFactors_node, Balanced, ihl, ihr, getAVLHeight_updateBalanceFactors]

theorem rootDiff_updateBalanceFactors (t : AVLNode) :
    rootDiff (updateBalanceFactors t).1 = rootDiff t := by
  cases t with
  | null => rfl
  | node v l r bf =>
    simp [updateBalanceFactors_node, rootDiff, getAVLHeight_updateBalanceFactors]

theorem updateBalanceFactors_snd_left (v bf : Int) (l r : AVLNode) (p : List Side)
    (h : (updateBalanceFactors l).2 = some p) :
    (updateBalanceFactors (node v l r bf)).2 = some (Side.left :: p) := by
  simp [updateBalanceFactors, h]

theorem updateBalanceFactors_snd_right (v bf : Int) (l r : AVLNode) (p : List Side)
    (hl : (updateBalanceFactors l).2 = none) (h : (updateBalanceFactors r).2 = some p) :
    (updateBalanceFactors (node v l r bf)).2 = some (Side.right :: p) := by
  simp [updateBalanceFactors, hl, h]

theorem updateBalanceFactors_snd_root (v bf : Int) (l r : AVLNode)
    (hl : (updateBalanceFactors l).2 = none) (hr : (updateBalanceFactors r).2 = none) :
    (updateBalanceFactors (node v l r bf)).2
      = if (wrapInt32 ((getAVLHeight r : Int) - (getAVLHeight l : Int))).natAbs > 1
          then some [] else none := by
  simp [updateBalanceFactors, hl, hr]

theorem updateBalanceFactors_snd_of_balanced (t : AVLNode) (h : Balanced t) :
    (updateBalanceFactors t).2 = none := by
  induction t with
  | null => rfl
  | node v l r bf ihl ihr =>
    obtain ⟨hd, hl, hr⟩ := h
    rw [updateBalanceFactors_snd_root v bf l r (ihl hl) (ihr hr)]
    rw [wrapInt32_small _ (by omega) (by omega)]
    simp only [gt_iff_lt, ite_eq_right_iff]
    intro hc
    omega

theorem balance_eq (t : AVLNode) :
    balance t = (rotateDeepest t).map fun t' => (updateBalanceFactors t').1 := by
  unfold balance rotateDeepest
  cases h : (updateBalanceFactors t).2 <;> simp [h]

/-! ### Rotations at a node with balanced subtrees, and insertion -/

theorem balanced_node (v bf : Int) (l r : AVLNode) :
    Balanced (node v l r bf) ↔
      (getAVLHeight r ≤ getAVLHeight l + 1 ∧ getAVLHeight l ≤ getAVLHeight r + 1)
        ∧ Balanced l ∧ Balanced r := by
  simp only [Balanced]
  constructor
  · rintro ⟨h, hl, hr⟩
    exact ⟨by omega, hl, hr⟩
  · rintro ⟨h, hl, hr⟩
    exact ⟨by omega, hl, hr⟩

theorem rotateImbalanced_right_heavy (v bf rv rbf : Int) (l rl rr : AVLNode)
    (hbf : 1 < bf) (hrbf : rbf = (getAVLHeight rr : Int) - (getAVLHeight rl : Int))
    (hd : getAVLHeight (node rv rl rr rbf) = getAVLHeight l + 2)
    (hl : Balanced l) (hr : Balanced (node rv rl rr rbf)) :
    ∃ t', rotateImbalanced (node v l (node rv rl rr rbf) bf) = some t' ∧ Balanced t'
      ∧ getAVLHeight t' = (if rbf = 0 then getAVLHeight l + 3 else getAVLHeight l + 2)
      ∧ traverseAVL t' = traverseAVL (node v l (node rv rl rr rbf) bf) := by
  rw [balanced_node] at hr
  obtain ⟨hr0, hrl, hrr⟩ := hr
  rw [getAVLHeight_node] at hd
  by_cases hneg : rbf < 0
  · cases rl with
    | null =>
      simp only [getAVLHeight] at hrbf
      omega
    | node rlv rll rlr rlbf =>
      rw [balanced_node] at hrl
      obtain ⟨hrl0, hrll, hrlr⟩ := hrl
      rw [getAVLHeight_node] at hd hrbf hr0
      refine ⟨node rlv (node v l rll bf) (node rv rlr rr rbf) rlbf,
        by simp [rotateImbalanced, hbf, hneg, rotateRight, rotateLeft], ?_, ?_, ?_⟩
      · simp only [balanced_node, getAVLHeight_node]
        exact ⟨by omega, ⟨by omega, hl, hrll⟩, ⟨by omega, hrlr, hrr⟩⟩
      · have : rbf ≠ 0 := by omega
        simp only [this, if_false, getAVLHeight_node]
        omega
      · simp [traverseAVL]
  · refine ⟨node rv (node v l rl bf) rr rbf,
      by simp [rotateImbalanced, hbf, hneg, rotateLeft], ?_, ?_, ?_⟩
    · simp only [balanced_node, getAVLHeight_node]
      exact ⟨by omega, ⟨by omega, hl, hrl⟩, hrr⟩
    · simp only [getAVLHeight_node]
      split_ifs <;> omega
    · simp [traverseAVL]

theorem rotateImbalanced_left_heavy (v bf lv lbf : Int) (ll lr r : AVLNode)
    (hbf : bf < -1) (hlbf : lbf = (getAVLHeight lr : Int) - (getAVLHeight ll : Int))
    (hd : getAVLHeight (node lv ll lr lbf) = getAVLHeight r + 2)
    (hl : Balanced (node lv ll lr lbf)) (hr : Balanced r) :
    ∃ t', rotateImbalanced (node v (node lv ll lr lbf) r bf) = some t' ∧ Balanced t'
      ∧ getAVLHeight t' = (if lbf = 0 then getAVLHeight r + 3 else getAVLHeight r + 2)
      ∧ traverseAVL t' = traverseAVL (node v (node lv ll lr lbf) r bf) := by
  rw [balanced_node] at hl
  obtain ⟨hl0, hll, hlr⟩ := hl
  rw [getAVLHeight_node] at hd
  have hbf' : ¬ bf > 1 := by omega
  by_cases hpos : lbf > 0
  · cases lr with
    | null =>
      simp only [getAVLHeight] at hlbf
      omega
    | node lrv lrl lrr lrbf =>
      rw [balanced_node] at hlr
      obtain ⟨hlr0, hlrl, hlrr⟩ := hlr
      rw [getAVLHeight_node] at hd hlbf hl0
      refine ⟨node lrv (node lv ll lrl lbf) (node v lrr r bf) lrbf,
        by simp [rotateImbalanced, hbf', hpos, rotateRight, rotateLeft], ?_, ?_, ?_⟩
      · simp only [balanced_node, getAVLHeight_node]
        exact ⟨by omega, ⟨by omega, hll, hlrl⟩, ⟨by omega, hlrr, hr⟩⟩
      · have : lbf ≠ 0 := by omega
        simp only [this, if_false, getAVLHeight_node]
        omega
      · simp [traverseAVL]
  · refine ⟨node lv ll (node v lr r bf) lbf,
      by simp [rotateImbalanced, hbf', hpos, rotateRight], ?_, ?_, ?_⟩
    · simp only [balanced_node, getAVLHeight_node]
      exact ⟨by omega, hll, ⟨by omega, hlr, hr⟩⟩
    · simp only [getAVLHeight_node]
      split_ifs <;> omega
    · simp [traverseAVL]


theorem rotateDeepest_of_balanced_children (v bf : Int) (l r : AVLNode)
    (hl : Balanced l) (hr : Balanced r)
    (hd : getAVLHeight r ≤ getAVLHeight l + 2 ∧ getAVLHeight l ≤ getAVLHeight r + 2) :
    ∃ t', rotateDeepest (node v l r bf) = some t' ∧ Balanced t'
      ∧ traverseAVL t' = traverseAVL (node v l r bf)
      ∧ (getAVLHeight r ≤ getAVLHeight l + 1 → getAVLHeight l ≤ getAVLHeight r + 1 →
          t' = (updateBalanceFactors (node v l r bf)).1)
      ∧ (getAVLHeight r = getAVLHeight l + 2 →
          getAVLHeight t' = if rootDiff r = 0 then getAVLHeight l + 3 else getAVLHeight l + 2)
      ∧ (getAVLHeight l = getAVLHeight r + 2 →
          getAVLHeight t' = if rootDiff l = 0 then getAVLHeight r + 3 else getAVLHeight r + 2) := by
  have hpl := updateBalanceFactors_snd_of_balanced l hl
  have hpr := updateBalanceFactors_snd_of_balanced r hr
  have hp := updateBalanceFactors_snd_root v bf l r hpl hpr
  rw [wrapInt32_small _ (by omega) (by omega)] at hp
  have hu := updateBalanceFactors_node v bf l r
  rw [wrapInt32_small _ (by omega) (by omega)] at hu
  by_cases hsmall : getAVLHeight r ≤ getAVLHeight l + 1 ∧ getAVLHeight l ≤ getAVLHeight r + 1
  · have hnone : (updateBalanceFactors (node v l r bf)).2 = none := by
      rw [hp]
      simp only [gt_iff_lt, ite_eq_right_iff]
      intro hc
      omega
    refine ⟨(updateBalanceFactors (node v l r bf)).1, by simp [rotateDeepest, hnone], ?_,
      traverseAVL_updateBalanceFactors _, fun _ _ => rfl, fun h => by omega, fun h => by omega⟩
    rw [balanced_updateBalanceFactors, balanced_node]
    exact ⟨hsmall, hl, hr⟩
  · have hsome : (updateBalanceFactors (node v l r bf)).2 = some [] := by
      rw [hp]
      simp only [gt_iff_lt, ite_eq_left_iff]
      intro hc
      omega
    have hrd : rotateDeepest (node v l r bf)
        = rotateImbalanced (node v (updateBalanceFactors l).1 (updateBalanceFactors r).1
            ((getAVLHeight r : Int) - (getAVLHeight l : Int))) := by
      simp [rotateDeepest, hsome, hu, atSlot]
    rw [hrd]
    by_cases hright : getAVLHeight r = getAVLHeight l + 2
    · cases r with
      | null => simp [getAVLHeight] at hright
      | node rv rl rr rbf =>
        have hr' := hr
        rw [balanced_node] at hr'
        have hur := updateBalanceFactors_node rv rbf rl rr
        rw [wrapInt32_small _ (by omega) (by omega)] at hur
        rw [hur]
        obtain ⟨t', h1, h2, h3, h4⟩ := rotateImbalanced_right_heavy v
          ((getAVLHeight (node rv rl rr rbf) : Int) - (getAVLHeight l : Int)) rv
          ((getAVLHeight rr : Int) - (getAVLHeight rl : Int))
          (updateBalanceFactors l).1 (updateBalanceFactors rl).1 (updateBalanceFactors rr).1
          (by omega) (by simp [getAVLHeight_updateBalanceFactors])
          (by
            rw [getAVLHeight_updateBalanceFactors l, ← hright]
            simp [getAVLHeight_node, getAVLHeight_updateBalanceFactors])
          ((balanced_updateBalanceFactors l).mpr hl)
          (by
            have := (balanced_updateBalanceFactors (node rv rl rr rbf)).mpr hr
            rw [hur] at this
            exact this)
        refine ⟨t', h1, h2, ?_, fun h => by omega, fun _ => ?_, fun h => by omega⟩
        · rw [h4]
          simp [traverseAVL, traverseAVL_updateBalanceFactors]
        · rw [h3, getAVLHeight_updateBalanceFactors]
          simp [rootDiff]
    · have hleft : getAVLHeight l = getAVLHeight r + 2 := by omega
      cases l with
      | null => simp [getAVLHeight] at hleft
      | node lv ll lr lbf =>
        have hl' := hl
        rw [balanced_node] at hl'
        have hul := updateBalanceFactors_node lv lbf ll lr
        rw [wrapInt32_small _ (by omega) (by omega)] at hul
        rw [hul]
        obtain ⟨t', h1, h2, h3, h4⟩ := rotateImbalanced_left_heavy v
          ((getAVLHeight r : Int) - (getAVLHeight (node lv ll lr lbf) : Int)) lv
          ((getAVLHeight lr : Int) - (getAVLHeight ll : Int))
          (updateBalanceFactors ll).1 (updateBalanceFactors lr).1 (updateBalanceFactors r).1
          (by omega) (by simp [getAVLHeight_updateBalanceFactors])
          (by
            rw [getAVLHeight_updateBalanceFactors r, ← hleft]
            simp [getAVLHeight_node, getAVLHeight_updateBalanceFactors])
          (by
            have := (balanced_updateBalanceFactors (node lv ll lr lbf)).mpr hl
            rw [hul] at this
            exact this)
          ((balanced_updateBalanceFactors r).mpr hr)
        refine ⟨t', h1, h2, ?_, fun h => by omega, fun h => by omega, fun _ => ?_⟩
        · rw [h4]
          simp [traverseAVL, traverseAVL_updateBalanceFactors]
        · rw [h3, getAVLHeight_updateBalanceFactors]
          simp [rootDiff]


theorem updateBalanceFactors_snd_eq_none_iff (v bf : Int) (l r : AVLNode)
    (hl : Balanced l) (hr : Balanced r)
    (hd : getAVLHeight r ≤ getAVLHeight l + 2 ∧ getAVLHeight l ≤ getAVLHeight r + 2) :
    (updateBalanceFactors (node v l r bf)).2 = none
      ↔ (getAVLHeight r ≤ getAVLHeight l + 1 ∧ getAVLHeight l ≤ getAVLHeight r + 1) := by
  rw [updateBalanceFactors_snd_root v bf l r (updateBalanceFactors_snd_of_balanced l hl)
    (updateBalanceFactors_snd_of_balanced r hr), wrapInt32_small _ (by omega) (by omega)]
  simp only [gt_iff_lt, ite_eq_right_iff]
  constructor
  · intro h
    by_contra hc
    exact absurd (h (by omega)) (by simp)
  · intro h hc
    omega

theorem rotateDeepest_left (v bf : Int) (l r : AVLNode) (p : List Side)
    (h : (updateBalanceFactors l).2 = some p) :
    rotateDeepest (node v l r bf) = (rotateDeepest l).map fun l' =>
      node v l' (updateBalanceFactors r).1
        (wrapInt32 ((getAVLHeight r : Int) - (getAVLHeight l : Int))) := by
  simp [rotateDeepest, updateBalanceFactors_snd_left v bf l r p h, h,
    updateBalanceFactors_node, atSlot]

theorem rotateDeepest_right (v bf : Int) (l r : AVLNode) (p : List Side)
    (hl : (updateBalanceFactors l).2 = none) (h : (updateBalanceFactors r).2 = some p) :
    rotateDeepest (node v l r bf) = (rotateDeepest r).map fun r' =>
      node v (updateBalanceFactors l).1 r'
        (wrapInt32 ((getAVLHeight r : Int) - (getAVLHeight l : Int))) := by
  simp [rotateDeepest, updateBalanceFactors_snd_right v bf l r p hl h, h,
    updateBalanceFactors_node, atSlot]

theorem rotateDeepest_addAVLLeaf (t : AVLNode) (v : Int) (t1 : AVLNode) (hb : Balanced t)
    (h1 : addAVLLeaf t v = some t1) :
    ∃ t2, rotateDeepest t1 = some t2 ∧ Balanced t2
      ∧ ((updateBalanceFactors t1).2 = none →
          t2 = (updateBalanceFactors t1).1 ∧
          (getAVLHeight t1 = getAVLHeight t ∨
            (getAVLHeight t1 = getAVLHeight t + 1 ∧ (t = null ∨ rootDiff t1 ≠ 0))))
      ∧ ((updateBalanceFactors t1).2 ≠ none → getAVLHeight t2 = getAVLHeight t) := by
  induction t generalizing t1 with
  | null =>
    simp only [addAVLLeaf, Option.some.injEq] at h1
    subst h1
    have hleafb : Balanced (node v null null 0) := by simp [Balanced, getAVLHeight]
    have hleaf := updateBalanceFactors_snd_of_balanced _ hleafb
    refine ⟨(updateBalanceFactors (node v null null 0)).1, by simp [rotateDeepest, hleaf],
      ?_, ?_, ?_⟩
    · rw [balanced_updateBalanceFactors]
      simp [Balanced, getAVLHeight]
    · intro _
      exact ⟨rfl, Or.inr ⟨by simp [getAVLHeight], Or.inl rfl⟩⟩
    · intro h
      exact absurd hleaf h
  | node x l r bf ihl ihr =>
    rw [balanced_node] at hb
    obtain ⟨hd, hbl, hbr⟩ := hb
    by_cases hx : v = x
    · simp [addAVLLeaf, hx] at h1
    · by_cases hle : v ≤ x
      · simp only [addAVLLeaf, hx, hle, if_true, if_false] at h1
        cases hl1 : addAVLLeaf l v with
        | none => simp [hl1] at h1
        | some l1 =>
          simp only [hl1, Option.map_some', Option.some.injEq] at h1
          subst h1
          obtain ⟨l2, hrot, hbl2, hnone, hsome⟩ := ihl l1 hbl hl1
          cases hp : (updateBalanceFactors l1).2 with
          | some p =>
            have hh := hsome (by simp [hp])
            refine ⟨_, by rw [rotateDeepest_left x bf l1 r p hp, hrot]; rfl, ?_, ?_, ?_⟩
            · rw [balanced_node, getAVLHeight_updateBalanceFactors, hh]
              exact ⟨hd, hbl2, (balanced_updateBalanceFactors r).mpr hbr⟩
            · intro hc
              rw [updateBalanceFactors_snd_left x bf l1 r p hp] at hc
              simp at hc
            · intro _
              simp [getAVLHeight_node, getAVLHeight_updateBalanceFactors, hh]
          | none =>
            obtain ⟨hl2, hh⟩ := hnone hp
            have hbl1 : Balanced l1 := by
              rw [hl2, balanced_updateBalanceFactors] at hbl2
              exact hbl2
            have hd1 : getAVLHeight r ≤ getAVLHeight l1 + 2
                ∧ getAVLHeight l1 ≤ getAVLHeight r + 2 := by omega
            obtain ⟨t2, hr1, hr2, _, hr4, hr5, hr6⟩ :=
              rotateDeepest_of_balanced_children x bf l1 r hbl1 hbr hd1
            have hiff := updateBalanceFactors_snd_eq_none_iff x bf l1 r hbl1 hbr hd1
            refine ⟨t2, hr1, hr2, ?_, ?_⟩
            · intro hn
              have hs := hiff.mp hn
              refine ⟨hr4 hs.1 hs.2, ?_⟩
              simp only [getAVLHeight_node, rootDiff]
              rcases hh with hh | ⟨hh, _⟩
              · left
                omega
              · by_cases hgrow : getAVLHeight l1 > getAVLHeight r
                · right
                  refine ⟨by omega, Or.inr (by omega)⟩
                · left
                  omega
            · intro hn
              have hs : ¬ (getAVLHeight r ≤ getAVLHeight l1 + 1
                  ∧ getAVLHeight l1 ≤ getAVLHeight r + 1) := fun hc => hn (hiff.mpr hc)
              have hleft : getAVLHeight l1 = getAVLHeight r + 2 := by omega
              rcases hh with hh | ⟨hh, hcond⟩
              · omega
              · rcases hcond with rfl | hcond
                · simp [getAVLHeight] at hh
                  omega
                · rw [hr6 hleft]
                  simp only [hcond, if_false, getAVLHeight_node]
                  omega
      · simp only [addAVLLeaf, hx, hle, if_false] at h1
        cases hr1 : addAVLLeaf r v with
        | none => simp [hr1] at h1
        | some r1 =>
          simp only [hr1, Option.map_some', Option.some.injEq] at h1
          subst h1
          obtain ⟨r2, hrot, hbr2, hnone, hsome⟩ := ihr r1 hbr hr1
          have hpl := updateBalanceFactors_snd_of_balanced l hbl
          cases hp : (updateBalanceFactors r1).2 with
          | some p =>
            have hh := hsome (by simp [hp])
            refine ⟨_, by rw [rotateDeepest_right x bf l r1 p hpl hp, hrot]; rfl, ?_, ?_, ?_⟩
            · rw [balanced_node, getAVLHeight_updateBalanceFactors, hh]
              exact ⟨hd, (balanced_updateBalanceFactors l).mpr hbl, hbr2⟩
            · intro hc
              rw [updateBalanceFactors_snd_right x bf l r1 p hpl hp] at hc
              simp at hc
            · intro _
              simp [getAVLHeight_node, getAVLHeight_updateBalanceFactors, hh]
          | none =>
            obtain ⟨hr2', hh⟩ := hnone hp
            have hbr1 : Balanced r1 := by
              rw [hr2', balanced_updateBalanceFactors] at hbr2
              exact hbr2
            have hd1 : getAVLHeight r1 ≤ getAVLHeight l + 2
                ∧ getAVLHeight l ≤ getAVLHeight r1 + 2 := by omega
            obtain ⟨t2, hq1, hq2, _, hq4, hq5, hq6⟩ :=
              rotateDeepest_of_balanced_children x bf l r1 hbl hbr1 hd1
            have hiff := updateBalanceFactors_snd_eq_none_iff x bf l r1 hbl hbr1 hd1
            refine ⟨t2, hq1, hq2, ?_, ?_⟩
            · intro hn
              have hs := hiff.mp hn
              refine ⟨hq4 hs.1 hs.2, ?_⟩
              simp only [getAVLHeight_node, rootDiff]
              rcases hh with hh | ⟨hh, _⟩
              · left
                omega
              · by_cases hgrow : getAVLHeight r1 > getAVLHeight l
                · right
                  refine ⟨by omega, Or.inr (by omega)⟩
                · left
                  omega
            · intro hn
              have hs : ¬ (getAVLHeight r1 ≤ getAVLHeight l + 1
                  ∧ getAVLHeight l ≤ getAVLHeight r1 + 1) := fun hc => hn (hiff.mpr hc)
              have hright : getAVLHeight r1 = getAVLHeight l + 2 := by omega
              rcases hh with hh | ⟨hh, hcond⟩
              · omega
              · rcases hcond with rfl | hcond
                · simp [getAVLHeight] at hh
                  omega
                · rw [hq5 hright]
                  simp only [hcond, if_false, getAVLHeight_node]
                  omega

/-! ### Rotations keep the in-order sequence -/

theorem traverseAVL_rotateLeft (t t' : AVLNode) (h : rotateLeft t = some t') :
    traverseAVL t' = traverseAVL t := by
  cases t with
  | null => simp [rotateLeft] at h
  | node xv xl xr xbf =>
    cases xr with
    | null => simp [rotateLeft] at h
    | node yv yl yr ybf =>
      simp only [rotateLeft, Option.some.injEq] at h
      subst h
      simp [traverseAVL]

theorem traverseAVL_rotateRight (t t' : AVLNode) (h : rotateRight t = some t') :
    traverseAVL t' = traverseAVL t := by
  cases t with
  | null => simp [rotateRight] at h
  | node xv xl xr xbf =>
    cases xl with
    | null => simp [rotateRight] at h
    | node yv yl yr ybf =>
      simp only [rotateRight, Option.some.injEq] at h
      subst h
      simp [traverseAVL]

theorem traverseAVL_rotateImbalanced (t t' : AVLNode) (h : rotateImbalanced t = some t') :
    traverseAVL t' = traverseAVL t := by
  cases t with
  | null => simp [rotateImbalanced] at h
  | node v l r bf =>
    simp only [rotateImbalanced] at h
    split_ifs at h with h1
    · cases r with
      | null => simp at h
      | node rv rl rr rbf =>
        simp only at h
        split_ifs at h with h2
        · cases hrr : rotateRight (node rv rl rr rbf) with
          | none => simp [hrr] at h
          | some r' =>
            simp only [hrr, Option.some_bind] at h
            rw [traverseAVL_rotateLeft _ _ h]
            simp [traverseAVL, traverseAVL_rotateRight _ _ hrr]
        · exact traverseAVL_rotateLeft _ _ h
    · cases l with
      | null => simp at h
      | node lv ll lr lbf =>
        simp only at h
        split_ifs at h with h2
        · cases hrl : rotateLeft (node lv ll lr lbf) with
          | none => simp [hrl] at h
          | some l' =>
            simp only [hrl, Option.some_bind] at h
            rw [traverseAVL_rotateRight _ _ h]
            simp [traverseAVL, traverseAVL_rotateLeft _ _ hrl]
        · exact traverseAVL_rotateRight _ _ h

theorem traverseAVL_atSlot (f : AVLNode → Option AVLNode)
    (hf : ∀ s s', f s = some s' → traverseAVL s' = traverseAVL s)
    (p : List Side) (t t' : AVLNode) (h : atSlot f p t = some t') :
    traverseAVL t' = traverseAVL t := by
  induction p generalizing t t' with
  | nil => exact hf t t' h
  | cons d p ih =>
    cases t with
    | null => simp [atSlot] at h
    | node v l r bf =>
      cases d with
      | left =>
        simp only [atSlot] at h
        cases hl : atSlot f p l with
        | none => simp [hl] at h
        | some l' =>
          simp only [hl, Option.map_some', Option.some.injEq] at h
          subst h
          simp [traverseAVL, ih l l' hl]
      | right =>
        simp only [atSlot] at h
        cases hr : atSlot f p r with
        | none => simp [hr] at h
        | some r' =>
          simp only [hr, Option.map_some', Option.some.injEq] at h
          subst h
          simp [traverseAVL, ih r r' hr]

theorem traverseAVL_rotateDeepest (t t' : AVLNode) (h : rotateDeepest t = some t') :
    traverseAVL t' = traverseAVL t := by
  unfold rotateDeepest at h
  cases hp : (updateBalanceFactors t).2 with
  | none =>
    simp only [hp, Option.some.injEq] at h
    rw [← h, traverseAVL_updateBalanceFactors]
  | some p =>
    simp only [hp] at h
    rw [traverseAVL_atSlot _ traverseAVL_rotateImbalanced p _ _ h,
      traverseAVL_updateBalanceFactors]

theorem traverseAVL_balance (t t' : AVLNode) (h : balance t = some t') :
    traverseAVL t' = traverseAVL t := by
  rw [balance_eq] at h
  cases hr : rotateDeepest t with
  | none => simp [hr] at h
  | some t2 =>
    simp only [hr, Option.map_some', Option.some.injEq] at h
    rw [← h, traverseAVL_updateBalanceFactors, traverseAVL_rotateDeepest t t2 hr]

theorem getAVLCount_eq_length (t : AVLNode) : getAVLCount t = (traverseAVL t).length := by
  induction t with
  | null => rfl
  | node v l r bf ihl ihr =>
    simp [getAVLCount, traverseAVL, ihl, ihr]
    omega

/-! ### The raw leaf insertion -/

theorem addAVLLeaf_isSome_of_not_mem (t : AVLNode) (v : Int) (h : v ∉ traverseAVL t) :
    ∃ t1, addAVLLeaf t v = some t1 := by
  induction t with
  | null => exact ⟨_, rfl⟩
  | node x l r bf ihl ihr =>
    rw [mem_traverseAVL_node] at h
    push_neg at h
    obtain ⟨hl, hx, hr⟩ := h
    by_cases hle : v ≤ x
    · obtain ⟨l1, hl1⟩ := ihl hl
      exact ⟨node x l1 r bf, by simp [addAVLLeaf, hx, hle, hl1]⟩
    · obtain ⟨r1, hr1⟩ := ihr hr
      exact ⟨node x l r1 bf, by simp [addAVLLeaf, hx, hle, hr1]⟩

theorem addAVLLeaf_eq_none_of_mem (t : AVLNode) (v : Int) (ho : StrictlyOrdered t)
    (h : v ∈ traverseAVL t) : addAVLLeaf t v = none := by
  induction t with
  | null => simp [traverseAVL] at h
  | node x l r bf ihl ihr =>
    rw [strictlyOrdered_node] at ho
    obtain ⟨hol, hor, hlx, hxr⟩ := ho
    rw [mem_traverseAVL_node] at h
    by_cases hx : v = x
    · simp [addAVLLeaf, hx]
    · by_cases hle : v ≤ x
      · have hvl : v ∈ traverseAVL l := by
          rcases h with h | h | h
          · exact h
          · exact absurd h hx
          · have := hxr v h
            omega
        simp [addAVLLeaf, hx, hle, ihl hol hvl]
      · have hvr : v ∈ traverseAVL r := by
          rcases h with h | h | h
          · have := hlx v h
            omega
          · exact absurd h hx
          · exact h
        simp [addAVLLeaf, hx, hle, ihr hor hvr]

theorem orderedInsert_append_cons_of_lt (v x : Int) (A B : List Int) (h : v < x) :
    List.orderedInsert (· ≤ ·) v (A ++ x :: B) = List.orderedInsert (· ≤ ·) v A ++ x :: B := by
  induction A with
  | nil => simp [List.orderedInsert, le_of_lt h]
  | cons a A ih =>
    by_cases ha : v ≤ a
    · simp [List.orderedInsert, ha]
    · simp [List.orderedInsert, ha, ih]

theorem orderedInsert_append_cons_of_gt (v x : Int) (A B : List Int) (h : x < v)
    (hA : ∀ a ∈ A, a < v) :
    List.orderedInsert (· ≤ ·) v (A ++ x :: B) = A ++ x :: List.orderedInsert (· ≤ ·) v B := by
  induction A with
  | nil => simp [List.orderedInsert, not_le.mpr h]
  | cons a A ih =>
    have ha : ¬ v ≤ a := not_le.mpr (hA a (by simp))
    simp [List.orderedInsert, ha, ih (fun b hb => hA b (by simp [hb]))]

theorem traverseAVL_addAVLLeaf (t : AVLNode) (v : Int) (t1 : AVLNode) (ho : StrictlyOrdered t)
    (h : addAVLLeaf t v = some t1) :
    traverseAVL t1 = List.orderedInsert (· ≤ ·) v (traverseAVL t) := by
  induction t generalizing t1 with
  | null =>
    simp only [addAVLLeaf, Option.some.injEq] at h
    subst h
    simp [traverseAVL]
  | node x l r bf ihl ihr =>
    rw [strictlyOrdered_node] at ho
    obtain ⟨hol, hor, hlx, hxr⟩ := ho
    by_cases hx : v = x
    · simp [addAVLLeaf, hx] at h
    · by_cases hle : v ≤ x
      · simp only [addAVLLeaf, hx, hle, if_true, if_false] at h
        cases hl1 : addAVLLeaf l v with
        | none => simp [hl1] at h
        | some l1 =>
          simp only [hl1, Option.map_some', Option.some.injEq] at h
          subst h
          have hlt : v < x := lt_of_le_of_ne hle hx
          simp only [traverseAVL, ihl l1 hol hl1]
          rw [orderedInsert_append_cons_of_lt v x _ _ hlt]
      · simp only [addAVLLeaf, hx, hle, if_false] at h
        cases hr1 : addAVLLeaf r v with
        | none => simp [hr1] at h
        | some r1 =>
          simp only [hr1, Option.map_some', Option.some.injEq] at h
          subst h
          have hgt : x < v := by omega
          simp only [traverseAVL, ihr r1 hor hr1]
          rw [orderedInsert_append_cons_of_gt v x _ _ hgt
            (fun a ha => lt_trans (hlx a ha) hgt)]

/-! ### `balance` at a node with balanced subtrees, and the recursive insertion -/

theorem balance_of_balanced_children (v bf : Int) (l r : AVLNode)
    (hl : Balanced l) (hr : Balanced r)
    (hd : getAVLHeight r ≤ getAVLHeight l + 2 ∧ getAVLHeight l ≤ getAVLHeight r + 2) :
    ∃ t', balance (node v l r bf) = some t' ∧ Balanced t'
      ∧ traverseAVL t' = traverseAVL (node v l r bf)
      ∧ (getAVLHeight r ≤ getAVLHeight l + 1 → getAVLHeight l ≤ getAVLHeight r + 1 →
          getAVLHeight t' = 1 + max (getAVLHeight l) (getAVLHeight r)
          ∧ rootDiff t' = (getAVLHeight r : Int) - (getAVLHeight l : Int))
      ∧ (getAVLHeight r = getAVLHeight l + 2 →
          getAVLHeight t' = if rootDiff r = 0 then getAVLHeight l + 3 else getAVLHeight l + 2)
      ∧ (getAVLHeight l = getAVLHeight r + 2 →
          getAVLHeight t' = if rootDiff l = 0 then getAVLHeight r + 3 else getAVLHeight r + 2) := by
  obtain ⟨t2, h1, h2, h3, h4, h5, h6⟩ := rotateDeepest_of_balanced_children v bf l r hl hr hd
  refine ⟨(updateBalanceFactors t2).1, by simp [balance_eq, h1],
    (balanced_updateBalanceFactors t2).mpr h2, by rw [traverseAVL_updateBalanceFactors, h3],
    ?_, ?_, ?_⟩
  · intro ha hb
    rw [getAVLHeight_updateBalanceFactors, rootDiff_updateBalanceFactors, h4 ha hb,
      getAVLHeight_updateBalanceFactors, rootDiff_updateBalanceFactors, getAVLHeight_node]
    exact ⟨rfl, rfl⟩
  · intro ha
    rw [getAVLHeight_updateBalanceFactors, h5 ha]
  · intro ha
    rw [getAVLHeight_updateBalanceFactors, h6 ha]

theorem addAVLNodeRecursively_of_addAVLLeaf (t : AVLNode) (v : Int) (t1 : AVLNode)
    (hb : Balanced t) (h1 : addAVLLeaf t v = some t1) :
    ∃ t', addAVLNodeRecursively true t v = some (true, t') ∧ Balanced t'
      ∧ traverseAVL t' = traverseAVL t1
      ∧ (getAVLHeight t' = getAVLHeight t
          ∨ (getAVLHeight t' = getAVLHeight t + 1 ∧ (t = null ∨ rootDiff t' ≠ 0))) := by
  induction t generalizing t1 with
  | null =>
    simp only [addAVLLeaf, Option.some.injEq] at h1
    subst h1
    obtain ⟨t', h1, h2, h3, h4, _, _⟩ := balance_of_balanced_children v 0 null null
      trivial trivial (by simp)
    refine ⟨t', by simp [addAVLNodeRecursively, h1], h2, h3, Or.inr ⟨?_, Or.inl rfl⟩⟩
    rw [(h4 (by simp) (by simp)).1]
    simp [getAVLHeight]
  | node x l r bf ihl ihr =>
    rw [balanced_node] at hb
    obtain ⟨hd, hbl, hbr⟩ := hb
    by_cases hx : v = x
    · simp [addAVLLeaf, hx] at h1
    · by_cases hle : v ≤ x
      · have hlt : v < x := lt_of_le_of_ne hle hx
        simp only [addAVLLeaf, hx, hle, if_true, if_false] at h1
        cases hl1 : addAVLLeaf l v with
        | none => simp [hl1] at h1
        | some l1 =>
          simp only [hl1, Option.map_some', Option.some.injEq] at h1
          subst h1
          obtain ⟨l', hrec, hbl', htl', hh⟩ := ihl l1 hbl hl1
          have hd1 : getAVLHeight r ≤ getAVLHeight l' + 2
              ∧ getAVLHeight l' ≤ getAVLHeight r + 2 := by omega
          obtain ⟨t', h1, h2, h3, h4, h5, h6⟩ :=
            balance_of_balanced_children x bf l' r hbl' hbr hd1
          refine ⟨t', by simp [addAVLNodeRecursively, hx, hlt, hrec, h1], h2,
            by rw [h3]; simp [traverseAVL, htl'], ?_⟩
          rw [getAVLHeight_node]
          by_cases hsmall : getAVLHeight l' ≤ getAVLHeight r + 1
          · obtain ⟨e1, e2⟩ := h4 (by omega) hsmall
            rw [e1, e2]
            rcases hh with hh | ⟨hh, _⟩
            · left
              omega
            · by_cases hgrow : getAVLHeight l' > getAVLHeight r
              · right
                exact ⟨by omega, Or.inr (by omega)⟩
              · left
                omega
          · have hleft : getAVLHeight l' = getAVLHeight r + 2 := by omega
            rcases hh with hh | ⟨hh, hcond⟩
            · omega
            · rcases hcond with rfl | hcond
              · simp [getAVLHeight] at hh
                omega
              · left
                rw [h6 hleft]
                simp only [hcond, if_false]
                omega
      · have hlt : ¬ v < x := by omega
        simp only [addAVLLeaf, hx, hle, if_false] at h1
        cases hr1 : addAVLLeaf r v with
        | none => simp [hr1] at h1
        | some r1 =>
          simp only [hr1, Option.map_some', Option.some.injEq] at h1
          subst h1
          obtain ⟨r', hrec, hbr', htr', hh⟩ := ihr r1 hbr hr1
          have hd1 : getAVLHeight r' ≤ getAVLHeight l + 2
              ∧ getAVLHeight l ≤ getAVLHeight r' + 2 := by omega
          obtain ⟨t', h1, h2, h3, h4, h5, h6⟩ :=
            balance_of_balanced_children x bf l r' hbl hbr' hd1
          refine ⟨t', by simp [addAVLNodeRecursively, hx, hlt, hrec, h1], h2,
            by rw [h3]; simp [traverseAVL, htr'], ?_⟩
          rw [getAVLHeight_node]
          by_cases hsmall : getAVLHeight r' ≤ getAVLHeight l + 1
          · obtain ⟨e1, e2⟩ := h4 hsmall (by omega)
            rw [e1, e2]
            rcases hh with hh | ⟨hh, _⟩
            · left
              omega
            · by_cases hgrow : getAVLHeight r' > getAVLHeight l
              · right
                exact ⟨by omega, Or.inr (by omega)⟩
              · left
                omega
          · have hright : getAVLHeight r' = getAVLHeight l + 2 := by omega
            rcases hh with hh | ⟨hh, hcond⟩
            · omega
            · rcases hcond with rfl | hcond
              · simp [getAVLHeight] at hh
                omega
              · left
                rw [h5 hright]
                simp only [hcond, if_false]
                omega

theorem addAVLNode_of_addAVLLeaf (t : AVLNode) (v : Int) (t1 : AVLNode)
    (hb : Balanced t) (h1 : addAVLLeaf t v = some t1) :
    ∃ t', addAVLNode true t v = some (true, t') ∧ Balanced t'
      ∧ traverseAVL t' = traverseAVL t1 := by
  obtain ⟨t2, hrot, hbal, _, _⟩ := rotateDeepest_addAVLLeaf t v t1 hb h1
  refine ⟨(updateBalanceFactors t2).1, by simp [addAVLNode, h1, balance_eq, hrot],
    (balanced_updateBalanceFactors t2).mpr hbal, ?_⟩
  rw [traverseAVL_updateBalanceFactors, traverseAVL_rotateDeepest t1 t2 hrot]

theorem addAVLNodeRecursively_duplicate (t : AVLNode) (v : Int) (h : addAVLLeaf t v = none) :
    addAVLNodeRecursively true t v = some (false, t) := by
  induction t with
  | null => simp [addAVLLeaf] at h
  | node x l r bf ihl ihr =>
    by_cases hx : v = x
    · simp [addAVLNodeRecursively, hx]
    · by_cases hle : v ≤ x
      · have hlt : v < x := lt_of_le_of_ne hle hx
        simp only [addAVLLeaf, hx, hle, if_true, if_false, Option.map_eq_none'] at h
        simp [addAVLNodeRecursively, hx, hlt, ihl h]
      · have hlt : ¬ v < x := by omega
        simp only [addAVLLeaf, hx, hle, if_false, Option.map_eq_none'] at h
        simp [addAVLNodeRecursively, hx, hlt, ihr h]

/-! ### No rotation around an absent child in a tree that fits in memory -/

theorem wrapInt32_natAbs_le_one (d : Int) (h : (wrapInt32 d).natAbs ≤ 1) :
    (-1 ≤ d ∧ d ≤ 1) ∨ d ≤ -4294967295 ∨ 4294967295 ≤ d := by
  unfold wrapInt32 at h
  omega

theorem updateBalanceFactors_snd_eq_none_node (v bf : Int) (l r : AVLNode)
    (h : (updateBalanceFactors (node v l r bf)).2 = none) :
    (updateBalanceFactors l).2 = none ∧ (updateBalanceFactors r).2 = none
      ∧ (wrapInt32 ((getAVLHeight r : Int) - (getAVLHeight l : Int))).natAbs ≤ 1 := by
  cases hl : (updateBalanceFactors l).2 with
  | some p => simp [updateBalanceFactors_snd_left v bf l r p hl] at h
  | none =>
    cases hr : (updateBalanceFactors r).2 with
    | some p => simp [updateBalanceFactors_snd_right v bf l r p hl hr] at h
    | none =>
      rw [updateBalanceFactors_snd_root v bf l r hl hr] at h
      refine ⟨rfl, rfl, ?_⟩
      by_contra hc
      simp [not_le.mp hc] at h

theorem getAVLCount_lower_bound (t : AVLNode) (h : (updateBalanceFactors t).2 = none) :
    2 ^ ((min (getAVLHeight t) 130 + 1) / 2) ≤ getAVLCount t + 1 := by
  induction t with
  | null => simp [getAVLHeight, getAVLCount]
  | node v l r bf ihl ihr =>
    obtain ⟨hl, hr, hd⟩ := updateBalanceFactors_snd_eq_none_node v bf l r h
    have il := ihl hl
    have ir := ihr hr
    rw [getAVLHeight_node]
    simp only [getAVLCount]
    rcases wrapInt32_natAbs_le_one _ hd with hsmall | hbig | hbig
    · have e1 : (min (1 + max (getAVLHeight l) (getAVLHeight r)) 130 + 1) / 2
          ≤ (min (getAVLHeight l) 130 + 1) / 2 + 1 := by omega
      have e2 : (min (1 + max (getAVLHeight l) (getAVLHeight r)) 130 + 1) / 2
          ≤ (min (getAVLHeight r) 130 + 1) / 2 + 1 := by omega
      have p1 := Nat.pow_le_pow_right (show 0 < 2 by norm_num) e1
      have p2 := Nat.pow_le_pow_right (show 0 < 2 by norm_num) e2
      rw [pow_succ] at p1 p2
      omega
    · have e1 : (min (1 + max (getAVLHeight l) (getAVLHeight r)) 130 + 1) / 2
          ≤ (min (getAVLHeight l) 130 + 1) / 2 := by omega
      have p1 := Nat.pow_le_pow_right (show 0 < 2 by norm_num) e1
      omega
    · have e2 : (min (1 + max (getAVLHeight l) (getAVLHeight r)) 130 + 1) / 2
          ≤ (min (getAVLHeight r) 130 + 1) / 2 := by omega
      have p2 := Nat.pow_le_pow_right (show 0 < 2 by norm_num) e2
      omega

theorem getAVLHeight_lt_of_count (t : AVLNode) (h : (updateBalanceFactors t).2 = none)
    (hc : getAVLCount t ≤ 2 ^ 64) : getAVLHeight t < 130 := by
  by_contra hge
  have hb := getAVLCount_lower_bound t h
  have e : (min (getAVLHeight t) 130 + 1) / 2 = 65 := by omega
  rw [e] at hb
  norm_num at hb hc
  omega

theorem rotateImbalanced_isSome (v : Int) (l r : AVLNode)
    (hl : (updateBalanceFactors l).2 = none) (hr : (updateBalanceFactors r).2 = none)
    (hhl : getAVLHeight l < 130) (hhr : getAVLHeight r < 130)
    (hd : (wrapInt32 ((getAVLHeight r : Int) - (getAVLHeight l : Int))).natAbs > 1) :
    ∃ t', rotateImbalanced (node v (updateBalanceFactors l).1 (updateBalanceFactors r).1
      (wrapInt32 ((getAVLHeight r : Int) - (getAVLHeight l : Int)))) = some t' := by
  rw [wrapInt32_small _ (by omega) (by omega)] at hd ⊢
  by_cases hpos : (getAVLHeight r : Int) - (getAVLHeight l : Int) > 1
  · cases r with
    | null =>
      simp only [getAVLHeight] at hpos
      omega
    | node rv rl rr rbf =>
      rw [getAVLHeight_node] at hhr
      rw [updateBalanceFactors_node, wrapInt32_small _ (by omega) (by omega)]
      by_cases hneg : (getAVLHeight rr : Int) - (getAVLHeight rl : Int) < 0
      · cases rl with
        | null =>
          simp only [getAVLHeight] at hneg
          omega
        | node rlv rll rlr rlbf =>
          rw [updateBalanceFactors_node]
          simp [rotateImbalanced, hpos, hneg, rotateRight, rotateLeft]
      · simp [rotateImbalanced, hpos, hneg, rotateLeft]
  · cases l with
    | null =>
      simp only [getAVLHeight] at hpos hd
      omega
    | node lv ll lr lbf =>
      rw [getAVLHeight_node] at hhl
      rw [updateBalanceFactors_node lv, wrapInt32_small _ (by omega) (by omega)]
      by_cases hgt : (getAVLHeight lr : Int) - (getAVLHeight ll : Int) > 0
      · cases lr with
        | null =>
          simp only [getAVLHeight] at hgt
          omega
        | node lrv lrl lrr lrbf =>
          rw [updateBalanceFactors_node lrv]
          simp [rotateImbalanced, hpos, hgt, rotateRight, rotateLeft]
      · simp [rotateImbalanced, hpos, hgt, rotateRight]

theorem rotateDeepest_isSome (t : AVLNode) (hc : getAVLCount t ≤ 2 ^ 64) :
    ∃ t', rotateDeepest t = some t' := by
  induction t with
  | null => exact ⟨null, rfl⟩
  | node v l r bf ihl ihr =>
    simp only [getAVLCount] at hc
    cases hl : (updateBalanceFactors l).2 with
    | some p =>
      obtain ⟨l', hl'⟩ := ihl (by omega)
      exact ⟨_, by rw [rotateDeepest_left v bf l r p hl, hl']; rfl⟩
    | none =>
      cases hr : (updateBalanceFactors r).2 with
      | some p =>
        obtain ⟨r', hr'⟩ := ihr (by omega)
        exact ⟨_, by rw [rotateDeepest_right v bf l r p hl hr, hr']; rfl⟩
      | none =>
        have hroot := updateBalanceFactors_snd_root v bf l r hl hr
        by_cases hd : (wrapInt32 ((getAVLHeight r : Int) - (getAVLHeight l : Int))).natAbs > 1
        · rw [if_pos hd] at hroot
          have hhl := getAVLHeight_lt_of_count l hl (by omega)
          have hhr := getAVLHeight_lt_of_count r hr (by omega)
          obtain ⟨t', ht'⟩ := rotateImbalanced_isSome v l r hl hr hhl hhr hd
          exact ⟨t', by simp [rotateDeepest, hroot, updateBalanceFactors_node, atSlot, ht']⟩
        · rw [if_neg hd] at hroot
          simp [rotateDeepest, hroot]

theorem balance_isSome (t : AVLNode) (hc : getAVLCount t ≤ 2 ^ 64) :
    ∃ t', balance t = some t' ∧ traverseAVL t' = traverseAVL t := by
  obtain ⟨t2, h2⟩ := rotateDeepest_isSome t hc
  have hb : balance t = some (updateBalanceFactors t2).1 := by simp [balance_eq, h2]
  exact ⟨_, hb, traverseAVL_balance t _ hb⟩

/-! ### The raw removal in the AVL tree -/

theorem unlinkLeftmostAVL_isSome (sl : AVLNode) (sv sbf : Int) (sr : AVLNode) (h : sl ≠ null) :
    ∃ res, unlinkLeftmost (node sv sl sr sbf) = some res := by
  induction sl generalizing sv sr sbf with
  | null => exact absurd rfl h
  | node mv ml mr mbf ihl _ =>
    cases ml with
    | null => exact ⟨_, rfl⟩
    | node av al ar abf =>
      obtain ⟨res, hres⟩ := ihl mv mbf mr (by simp)
      exact ⟨(res.1, res.2.1, node sv res.2.2 sr sbf), by simp [unlinkLeftmost, hres]⟩

theorem unlinkLeftmostAVL_traverse (s : AVLNode) (res : Int × Int × AVLNode)
    (h : unlinkLeftmost s = some res) : traverseAVL s = res.1 :: traverseAVL res.2.2 := by
  induction s generalizing res with
  | null => simp [unlinkLeftmost] at h
  | node sv sl sr sbf ihl _ =>
    cases sl with
    | null => simp [unlinkLeftmost] at h
    | node mv ml mr mbf =>
      cases ml with
      | null =>
        simp only [unlinkLeftmost, Option.some.injEq] at h
        subst h
        simp [traverseAVL]
      | node av al ar abf =>
        rw [unlinkLeftmost] at h
        cases hu : unlinkLeftmost (node mv (node av al ar abf) mr mbf) with
        | none => simp [hu] at h
        | some res' =>
          simp only [hu, Option.map_some', Option.some.injEq] at h
          subst h
          have := ihl res' hu
          simp only [traverseAVL] at this ⊢
          simp [this]

theorem deleteAVLRoot_traverse (v bf : Int) (l r : AVLNode) :
    ∃ s, deleteAVLRoot (node v l r bf) = some s
      ∧ traverseAVL s = traverseAVL l ++ traverseAVL r := by
  cases l with
  | null =>
    cases r with
    | null => exact ⟨null, by simp [deleteAVLRoot, deleteAVLNodeWithNoChildren], rfl⟩
    | node rv rl rr rbf =>
      exact ⟨node rv rl rr rbf, by simp [deleteAVLRoot, deleteAVLNodeWithSingleChild],
        by simp [traverseAVL]⟩
  | node lv ll lr lbf =>
    cases r with
    | null =>
      exact ⟨node lv ll lr lbf, by simp [deleteAVLRoot, deleteAVLNodeWithSingleChild],
        by simp [traverseAVL]⟩
    | node rv rl rr rbf =>
      cases hu : unlinkLeftmost (node rv rl rr rbf) with
      | none =>
        have hrl : rl = null := by
          by_contra hne
          obtain ⟨res, hres⟩ := unlinkLeftmostAVL_isSome rl rv rbf rr hne
          simp [hres] at hu
        subst hrl
        exact ⟨node rv (node lv ll lr lbf) rr rbf,
          by simp [deleteAVLRoot, deleteAVLNodeWithTwoChildren, hu], by simp [traverseAVL]⟩
      | some res =>
        have ht := unlinkLeftmostAVL_traverse _ res hu
        exact ⟨node res.1 (node lv ll lr lbf) res.2.2 res.2.1,
          by simp [deleteAVLRoot, deleteAVLNodeWithTwoChildren, hu], by
            rw [ht]
            simp [traverseAVL]⟩

theorem deleteAVLLoop_total (t : AVLNode) (v : Int) :
    ∃ b t1, deleteAVLLoop t v = some (b, t1) ∧ (b = false → t1 = t)
      ∧ (b = true → ∃ l1 l2, traverseAVL t = l1 ++ v :: l2 ∧ traverseAVL t1 = l1 ++ l2) := by
  induction t with
  | null => exact ⟨false, null, rfl, fun _ => rfl, fun h => by simp at h⟩
  | node x l r bf ihl ihr =>
    by_cases hx : x = v
    · subst hx
      obtain ⟨s, hs1, hs2⟩ := deleteAVLRoot_traverse x bf l r
      exact ⟨true, s, by simp [deleteAVLLoop, hs1], fun h => by simp at h,
        fun _ => ⟨traverseAVL l, traverseAVL r, rfl, hs2⟩⟩
    · by_cases hlt : v < x
      · obtain ⟨b, l', hdel, hf, ht⟩ := ihl
        refine ⟨b, node x l' r bf, by simp [deleteAVLLoop, hx, hlt, hdel],
          fun h => by rw [hf h], fun h => ?_⟩
        obtain ⟨l1, l2, e1, e2⟩ := ht h
        exact ⟨l1, l2 ++ x :: traverseAVL r, by simp [traverseAVL, e1], by simp [traverseAVL, e2]⟩
      · obtain ⟨b, r', hdel, hf, ht⟩ := ihr
        refine ⟨b, node x l r' bf, by simp [deleteAVLLoop, hx, hlt, hdel],
          fun h => by rw [hf h], fun h => ?_⟩
        obtain ⟨l1, l2, e1, e2⟩ := ht h
        exact ⟨traverseAVL l ++ x :: l1, l2, by simp [traverseAVL, e1],
          by simp [traverseAVL, e2]⟩

theorem deleteAVLLoop_present (t : AVLNode) (v : Int) (ho : StrictlyOrdered t)
    (hv : v ∈ traverseAVL t) : ∃ t1, deleteAVLLoop t v = some (true, t1) := by
  induction t with
  | null => simp [traverseAVL] at hv
  | node x l r bf ihl ihr =>
    rw [strictlyOrdered_node] at ho
    obtain ⟨hol, hor, hlx, hxr⟩ := ho
    rw [mem_traverseAVL_node] at hv
    by_cases hx : x = v
    · subst hx
      obtain ⟨s, hs1, _⟩ := deleteAVLRoot_traverse x bf l r
      exact ⟨s, by simp [deleteAVLLoop, hs1]⟩
    · by_cases hlt : v < x
      · have hvl : v ∈ traverseAVL l := by
          rcases hv with h | h | h
          · exact h
          · exact absurd h.symm hx
          · have := hxr v h
            omega
        obtain ⟨l', hdel⟩ := ihl hol hvl
        exact ⟨node x l' r bf, by simp [deleteAVLLoop, hx, hlt, hdel]⟩
      · have hvr : v ∈ traverseAVL r := by
          rcases hv with h | h | h
          · have := hlx v h
            omega
          · exact absurd h.symm hx
          · exact h
        obtain ⟨r', hdel⟩ := ihr hor hvr
        exact ⟨node x l r' bf, by simp [deleteAVLLoop, hx, hlt, hdel]⟩

theorem getAVLCount_le_of_deleteAVLLoop (t : AVLNode) (v : Int) (b : Bool) (t1 : AVLNode)
    (h : deleteAVLLoop t v = some (b, t1)) : getAVLCount t1 ≤ getAVLCount t := by
  obtain ⟨b', t1', h', hf, ht⟩ := deleteAVLLoop_total t v
  rw [h] at h'
  simp only [Option.some.injEq, Prod.mk.injEq] at h'
  obtain ⟨rfl, rfl⟩ := h'
  cases b with
  | false => rw [hf rfl]
  | true =>
    obtain ⟨l1, l2, e1, e2⟩ := ht rfl
    rw [getAVLCount_eq_length, getAVLCount_eq_length, e1, e2]
    simp

theorem deleteAVLNode_of_loop (t : AVLNode) (v : Int) (hc : getAVLCount t ≤ 2 ^ 64) :
    ∃ b t1 t', deleteAVLLoop t v = some (b, t1) ∧ deleteAVLNode t v = some (b, t')
      ∧ traverseAVL t' = traverseAVL t1 ∧ (b = false → t' = t) := by
  obtain ⟨b, t1, h1, hf, _⟩ := deleteAVLLoop_total t v
  cases b with
  | false =>
    exact ⟨false, t1, t1, h1, by simp [deleteAVLNode, h1], rfl, hf⟩
  | true =>
    have hc1 := getAVLCount_le_of_deleteAVLLoop t v true t1 h1
    obtain ⟨t', hb, ht⟩ := balance_isSome t1 (by omega)
    exact ⟨true, t1, t', h1, by simp [deleteAVLNode, h1, hb], ht, fun h => by simp at h⟩

theorem deleteAVLNodeRecursively_of_loop (t : AVLNode) (v : Int)
    (hc : getAVLCount t ≤ 2 ^ 64) :
    ∃ b t1 t', deleteAVLLoop t v = some (b, t1) ∧ deleteAVLNodeRecursively t v = some (b, t')
      ∧ traverseAVL t' = traverseAVL t1 ∧ (b = false → t' = t) := by
  induction t with
  | null => exact ⟨false, null, null, rfl, rfl, rfl, fun _ => rfl⟩
  | node x l r bf ihl ihr =>
    have hc' := hc
    simp only [getAVLCount] at hc'
    by_cases hx : x = v
    · subst hx
      obtain ⟨s, hs1, hs2⟩ := deleteAVLRoot_traverse x bf l r
      have hcs : getAVLCount s ≤ 2 ^ 64 := by
        rw [getAVLCount_eq_length, hs2]
        simp only [List.length_append, ← getAVLCount_eq_length]
        omega
      obtain ⟨t', hb, ht⟩ := balance_isSome s hcs
      exact ⟨true, s, t', by simp [deleteAVLLoop, hs1],
        by simp [deleteAVLNodeRecursively, hs1, hb], ht, fun h => by simp at h⟩
    · by_cases hlt : v < x
      · obtain ⟨b, l1, l', h1, h2, h3, h4⟩ := ihl (by omega)
        cases b with
        | false =>
          have := h4 rfl
          subst this
          have h1' : l1 = l' := by
            obtain ⟨b', t1', h', hf, _⟩ := deleteAVLLoop_total l' v
            rw [h1] at h'
            simp only [Option.some.injEq, Prod.mk.injEq] at h'
            obtain ⟨rfl, rfl⟩ := h'
            exact hf rfl
          subst h1'
          exact ⟨false, node x l1 r bf, node x l1 r bf, by simp [deleteAVLLoop, hx, hlt, h1],
            by simp [deleteAVLNodeRecursively, hx, hlt, h2], rfl, fun _ => rfl⟩
        | true =>
          have hc1 := getAVLCount_le_of_deleteAVLLoop l v true l1 h1
          have hcn : getAVLCount (node x l' r bf) ≤ 2 ^ 64 := by
            simp only [getAVLCount]
            rw [getAVLCount_eq_length l', h3, ← getAVLCount_eq_length]
            omega
          obtain ⟨t', hb, ht⟩ := balance_isSome _ hcn
          exact ⟨true, node x l1 r bf, t', by simp [deleteAVLLoop, hx, hlt, h1],
            by simp [deleteAVLNodeRecursively, hx, hlt, h2, hb],
            by rw [ht]; simp [traverseAVL, h3], fun h => by simp at h⟩
      · obtain ⟨b, r1, r', h1, h2, h3, h4⟩ := ihr (by omega)
        cases b with
        | false =>
          have := h4 rfl
          subst this
          have h1' : r1 = r' := by
            obtain ⟨b', t1', h', hf, _⟩ := deleteAVLLoop_total r' v
            rw [h1] at h'
            simp only [Option.some.injEq, Prod.mk.injEq] at h'
            obtain ⟨rfl, rfl⟩ := h'
            exact hf rfl
          subst h1'
          exact ⟨false, node x l r1 bf, node x l r1 bf, by simp [deleteAVLLoop, hx, hlt, h1],
            by simp [deleteAVLNodeRecursively, hx, hlt, h2], rfl, fun _ => rfl⟩
        | true =>
          have hc1 := getAVLCount_le_of_deleteAVLLoop r v true r1 h1
          have hcn : getAVLCount (node x l r' bf) ≤ 2 ^ 64 := by
            simp only [getAVLCount]
            rw [getAVLCount_eq_length r', h3, ← getAVLCount_eq_length]
            omega
          obtain ⟨t', hb, ht⟩ := balance_isSome _ hcn
          exact ⟨true, node x l r1 bf, t', by simp [deleteAVLLoop, hx, hlt, h1],
            by simp [deleteAVLNodeRecursively, hx, hlt, h2, hb],
            by rw [ht]; simp [traverseAVL, h3], fun h => by simp at h⟩

/-! ### One removal from a balanced tree -/

theorem getAVLHeight_null : getAVLHeight null = 0 := rfl

theorem oneImbalance_updateBalanceFactors (t : AVLNode) :
    OneImbalance (updateBalanceFactors t).1 ↔ OneImbalance t := by
  induction t with
  | null => simp [updateBalanceFactors]
  | node v l r bf ihl ihr =>
    simp [updateBalanceFactors_node, OneImbalance, ihl, ihr, getAVLHeight_updateBalanceFactors,
      balanced_updateBalanceFactors]

theorem nearBalanced_updateBalanceFactors (h : Nat) (t : AVLNode) :
    NearBalanced h (updateBalanceFactors t).1 ↔ NearBalanced h t := by
  simp [NearBalanced, oneImbalance_updateBalanceFactors, getAVLHeight_updateBalanceFactors,
    balanced_updateBalanceFactors]

theorem updateBalanceFactors_snd_of_oneImbalance (t : AVLNode) (h : OneImbalance t) :
    ∃ p, (updateBalanceFactors t).2 = some p := by
  induction t with
  | null => exact absurd h (by simp [OneImbalance])
  | node v l r bf ihl ihr =>
    rcases h with ⟨hd, hl, hr⟩ | ⟨hd, hl, hr⟩ | ⟨hd, hl, hr⟩
    · refine ⟨[], ?_⟩
      rw [updateBalanceFactors_snd_root v bf l r (updateBalanceFactors_snd_of_balanced l hl)
        (updateBalanceFactors_snd_of_balanced r hr), wrapInt32_small _ (by omega) (by omega)]
      simp [hd]
    · obtain ⟨p, hp⟩ := ihl hl
      exact ⟨_, updateBalanceFactors_snd_left v bf l r p hp⟩
    · obtain ⟨p, hp⟩ := ihr hr
      exact ⟨_, updateBalanceFactors_snd_right v bf l r p
        (updateBalanceFactors_snd_of_balanced l hl) hp⟩


theorem nearBalanced_node_left (x bf bf' : Int) (l l' r : AVLNode)
    (hd : getAVLHeight r ≤ getAVLHeight l + 1 ∧ getAVLHeight l ≤ getAVLHeight r + 1)
    (hl : NearBalanced (getAVLHeight l) l') (hr : Balanced r) :
    NearBalanced (getAVLHeight (node x l r bf)) (node x l' r bf') := by
  unfold NearBalanced at hl ⊢
  simp only [getAVLHeight_node, balanced_node, OneImbalance]
  rcases hl with ⟨hb, hh | hh⟩ | ⟨ho, hh⟩
  · left
    exact ⟨⟨by omega, hb, hr⟩, by omega⟩
  · by_cases h2 : getAVLHeight r = getAVLHeight l' + 2
    · right
      exact ⟨Or.inl ⟨by omega, hb, hr⟩, by omega⟩
    · left
      exact ⟨⟨by omega, hb, hr⟩, by omega⟩
  · right
    exact ⟨Or.inr (Or.inl ⟨by omega, ho, hr⟩), by omega⟩

theorem nearBalanced_node_right (x bf bf' : Int) (l r r' : AVLNode)
    (hd : getAVLHeight r ≤ getAVLHeight l + 1 ∧ getAVLHeight l ≤ getAVLHeight r + 1)
    (hl : Balanced l) (hr : NearBalanced (getAVLHeight r) r') :
    NearBalanced (getAVLHeight (node x l r bf)) (node x l r' bf') := by
  unfold NearBalanced at hr ⊢
  simp only [getAVLHeight_node, balanced_node, OneImbalance]
  rcases hr with ⟨hb, hh | hh⟩ | ⟨ho, hh⟩
  · left
    exact ⟨⟨by omega, hl, hb⟩, by omega⟩
  · by_cases h2 : getAVLHeight l = getAVLHeight r' + 2
    · right
      exact ⟨Or.inl ⟨by omega, hl, hb⟩, by omega⟩
    · left
      exact ⟨⟨by omega, hl, hb⟩, by omega⟩
  · right
    exact ⟨Or.inr (Or.inr ⟨by omega, hl, ho⟩), by omega⟩

theorem rotateDeepest_of_oneImbalance (t : AVLNode) (h : OneImbalance t) :
    ∃ t', rotateDeepest t = some t' ∧ NearBalanced (getAVLHeight t) t' := by
  induction t with
  | null => exact absurd h (by simp [OneImbalance])
  | node v l r bf ihl ihr =>
    rcases h with ⟨hd, hl, hr⟩ | ⟨hd, hl, hr⟩ | ⟨hd, hl, hr⟩
    · obtain ⟨t', h1, h2, _, _, h5, h6⟩ :=
        rotateDeepest_of_balanced_children v bf l r hl hr (by omega)
      refine ⟨t', h1, Or.inl ⟨h2, ?_⟩⟩
      rw [getAVLHeight_node]
      by_cases hright : getAVLHeight r = getAVLHeight l + 2
      · rw [h5 hright]
        split_ifs <;> omega
      · have hleft : getAVLHeight l = getAVLHeight r + 2 := by omega
        rw [h6 hleft]
        split_ifs <;> omega
    · obtain ⟨p, hp⟩ := updateBalanceFactors_snd_of_oneImbalance l hl
      obtain ⟨l', hrot, hnear⟩ := ihl hl
      refine ⟨_, by rw [rotateDeepest_left v bf l r p hp, hrot]; rfl, ?_⟩
      have := nearBalanced_node_left v bf
        (wrapInt32 ((getAVLHeight r : Int) - (getAVLHeight l : Int))) l l'
        (updateBalanceFactors r).1
        (by rw [getAVLHeight_updateBalanceFactors]; omega) hnear
        ((balanced_updateBalanceFactors r).mpr hr)
      simpa [getAVLHeight_node, getAVLHeight_updateBalanceFactors] using this
    · obtain ⟨p, hp⟩ := updateBalanceFactors_snd_of_oneImbalance r hr
      obtain ⟨r', hrot, hnear⟩ := ihr hr
      have hpl := updateBalanceFactors_snd_of_balanced l hl
      refine ⟨_, by rw [rotateDeepest_right v bf l r p hpl hp, hrot]; rfl, ?_⟩
      have := nearBalanced_node_right v bf
        (wrapInt32 ((getAVLHeight r : Int) - (getAVLHeight l : Int)))
        (updateBalanceFactors l).1 r r'
        (by rw [getAVLHeight_updateBalanceFactors]; omega)
        ((balanced_updateBalanceFactors l).mpr hl) hnear
      simpa [getAVLHeight_node, getAVLHeight_updateBalanceFactors] using this

theorem balance_of_nearBalanced (h : Nat) (t : AVLNode) (hn : NearBalanced h t) :
    ∃ t', balance t = some t' ∧ NearBalanced h t' ∧ traverseAVL t' = traverseAVL t := by
  have key : ∃ t2, rotateDeepest t = some t2 ∧ NearBalanced h t2 := by
    rcases hn with ⟨hb, hh⟩ | ⟨ho, hh⟩
    · have hp := updateBalanceFactors_snd_of_balanced t hb
      refine ⟨(updateBalanceFactors t).1, by simp [rotateDeepest, hp], ?_⟩
      rw [nearBalanced_updateBalanceFactors]
      exact Or.inl ⟨hb, hh⟩
    · obtain ⟨t2, h1, h2⟩ := rotateDeepest_of_oneImbalance t ho
      rw [hh] at h2
      exact ⟨t2, h1, h2⟩
  obtain ⟨t2, h1, h2⟩ := key
  have hb : balance t = some (updateBalanceFactors t2).1 := by simp [balance_eq, h1]
  exact ⟨_, hb, (nearBalanced_updateBalanceFactors h t2).mpr h2, traverseAVL_balance t _ hb⟩

theorem nearBalanced_unlinkLeftmost (s : AVLNode) (res : Int × Int × AVLNode)
    (hb : Balanced s) (h : unlinkLeftmost s = some res) :
    NearBalanced (getAVLHeight s) res.2.2 := by
  induction s generalizing res with
  | null => simp [unlinkLeftmost] at h
  | node sv sl sr sbf ihl _ =>
    have hb' := hb
    rw [balanced_node] at hb'
    obtain ⟨hd, hbl, hbr⟩ := hb'
    cases sl with
    | null => simp [unlinkLeftmost] at h
    | node mv ml mr mbf =>
      cases ml with
      | null =>
        simp only [unlinkLeftmost, Option.some.injEq] at h
        subst h
        have hbl' := hbl
        rw [balanced_node] at hbl'
        refine nearBalanced_node_left sv sbf sbf (node mv null mr mbf) mr sr hd
          (Or.inl ⟨hbl'.2.2, Or.inr ?_⟩) hbr
        have h0 := hbl'.1
        simp only [getAVLHeight_node, getAVLHeight_null] at h0 ⊢
        omega
      | node av al ar abf =>
        rw [unlinkLeftmost] at h
        cases hu : unlinkLeftmost (node mv (node av al ar abf) mr mbf) with
        | none => simp [hu] at h
        | some res' =>
          simp only [hu, Option.map_some', Option.some.injEq] at h
          subst h
          exact nearBalanced_node_left sv sbf sbf _ res'.2.2 sr hd (ihl res' hbl hu) hbr

theorem nearBalanced_deleteAVLRoot (v bf : Int) (l r : AVLNode)
    (hb : Balanced (node v l r bf)) (s : AVLNode) (h : deleteAVLRoot (node v l r bf) = some s) :
    NearBalanced (getAVLHeight (node v l r bf)) s := by
  have hb' := hb
  rw [balanced_node] at hb'
  obtain ⟨hd, hbl, hbr⟩ := hb'
  cases l with
  | null =>
    cases r with
    | null =>
      simp only [deleteAVLRoot, deleteAVLNodeWithNoChildren, and_self, if_true,
        Option.some.injEq] at h
      subst h
      exact Or.inl ⟨trivial, Or.inr (by simp [getAVLHeight])⟩
    | node rv rl rr rbf =>
      simp [deleteAVLRoot, deleteAVLNodeWithSingleChild] at h
      subst h
      refine Or.inl ⟨hbr, Or.inr ?_⟩
      simp only [getAVLHeight_node, getAVLHeight_null] at hd ⊢
      omega
  | node lv ll lr lbf =>
    cases r with
    | null =>
      simp [deleteAVLRoot, deleteAVLNodeWithSingleChild] at h
      subst h
      refine Or.inl ⟨hbl, Or.inr ?_⟩
      simp only [getAVLHeight_node, getAVLHeight_null] at hd ⊢
      omega
    | node rv rl rr rbf =>
      cases hu : unlinkLeftmost (node rv rl rr rbf) with
      | none =>
        have hrl : rl = null := by
          by_contra hne
          obtain ⟨res, hres⟩ := unlinkLeftmostAVL_isSome rl rv rbf rr hne
          simp [hres] at hu
        subst hrl
        simp [deleteAVLRoot, deleteAVLNodeWithTwoChildren, hu] at h
        subst h
        have hbr' := hbr
        rw [balanced_node] at hbr'
        refine nearBalanced_node_right v bf rbf (node lv ll lr lbf) (node rv null rr rbf) rr hd
          hbl (Or.inl ⟨hbr'.2.2, Or.inr ?_⟩)
        have h0 := hbr'.1
        simp only [getAVLHeight_node, getAVLHeight_null] at h0 ⊢
        omega
      | some res =>
        simp [deleteAVLRoot, deleteAVLNodeWithTwoChildren, hu] at h
        subst h
        have hn := nearBalanced_unlinkLeftmost _ res hbr hu
        exact nearBalanced_node_right v bf res.2.1 (node lv ll lr lbf) (node rv rl rr rbf)
          res.2.2 hd hbl hn

theorem nearBalanced_deleteAVLLoop (t : AVLNode) (v : Int) (t1 : AVLNode) (hb : Balanced t)
    (h : deleteAVLLoop t v = some (true, t1)) : NearBalanced (getAVLHeight t) t1 := by
  induction t generalizing t1 with
  | null => simp [deleteAVLLoop] at h
  | node x l r bf ihl ihr =>
    have hb' := hb
    rw [balanced_node] at hb'
    obtain ⟨hd, hbl, hbr⟩ := hb'
    by_cases hx : x = v
    · simp only [deleteAVLLoop, hx, if_true] at h
      cases hs : deleteAVLRoot (node x l r bf) with
      | none =>
        rw [← hx] at h
        simp [hs] at h
      | some s =>
        rw [← hx] at h
        simp only [hs, Option.map_some', Option.some.injEq, Prod.mk.injEq, true_and] at h
        subst h
        exact nearBalanced_deleteAVLRoot x bf l r hb s hs
    · by_cases hlt : v < x
      · simp only [deleteAVLLoop, hx, hlt, if_true, if_false] at h
        cases hl1 : deleteAVLLoop l v with
        | none => simp [hl1] at h
        | some res =>
          obtain ⟨b, l1⟩ := res
          simp only [hl1, Option.map_some', Option.some.injEq, Prod.mk.injEq] at h
          obtain ⟨rfl, rfl⟩ := h
          exact nearBalanced_node_left x bf bf l l1 r hd (ihl l1 hbl hl1) hbr
      · simp only [deleteAVLLoop, hx, hlt, if_false] at h
        cases hr1 : deleteAVLLoop r v with
        | none => simp [hr1] at h
        | some res =>
          obtain ⟨b, r1⟩ := res
          simp only [hr1, Option.map_some', Option.some.injEq, Prod.mk.injEq] at h
          obtain ⟨rfl, rfl⟩ := h
          exact nearBalanced_node_right x bf bf l r r1 hd hbl (ihr r1 hbr hr1)

theorem deleteAVLNode_of_balanced (t : AVLNode) (v : Int) (hb : Balanced t) :
    ∃ b t1 t', deleteAVLLoop t v = some (b, t1) ∧ deleteAVLNode t v = some (b, t')
      ∧ traverseAVL t' = traverseAVL t1 ∧ (b = false → t' = t)
      ∧ (b = true → NearBalanced (getAVLHeight t) t') := by
  obtain ⟨b, t1, h1, hf, _⟩ := deleteAVLLoop_total t v
  cases b with
  | false =>
    exact ⟨false, t1, t1, h1, by simp [deleteAVLNode, h1], rfl, hf, fun h => by simp at h⟩
  | true =>
    have hn := nearBalanced_deleteAVLLoop t v t1 hb h1
    obtain ⟨t', hbal, hn', ht⟩ := balance_of_nearBalanced _ t1 hn
    exact ⟨true, t1, t', h1, by simp [deleteAVLNode, h1, hbal], ht, fun h => by simp at h,
      fun _ => hn'⟩

theorem deleteAVLNodeRecursively_of_balanced (t : AVLNode) (v : Int) (hb : Balanced t) :
    ∃ b t1 t', deleteAVLLoop t v = some (b, t1) ∧ deleteAVLNodeRecursively t v = some (b, t')
      ∧ traverseAVL t' = traverseAVL t1 ∧ (b = false → t' = t)
      ∧ (b = true → NearBalanced (getAVLHeight t) t') := by
  induction t with
  | null => exact ⟨false, null, null, rfl, rfl, rfl, fun _ => rfl, fun h => by simp at h⟩
  | node x l r bf ihl ihr =>
    have hb' := hb
    rw [balanced_node] at hb'
    obtain ⟨hd, hbl, hbr⟩ := hb'
    by_cases hx : x = v
    · subst hx
      obtain ⟨s, hs1, hs2⟩ := deleteAVLRoot_traverse x bf l r
      have hn := nearBalanced_deleteAVLRoot x bf l r hb s hs1
      obtain ⟨t', hbal, hn', ht⟩ := balance_of_nearBalanced _ s hn
      exact ⟨true, s, t', by simp [deleteAVLLoop, hs1],
        by simp [deleteAVLNodeRecursively, hs1, hbal], ht, fun h => by simp at h, fun _ => hn'⟩
    · by_cases hlt : v < x
      · obtain ⟨b, l1, l', h1, h2, h3, h4, h5⟩ := ihl hbl
        cases b with
        | false =>
          have := h4 rfl
          subst this
          have h1' : l1 = l' := by
            obtain ⟨b', t1', h', hf, _⟩ := deleteAVLLoop_total l' v
            rw [h1] at h'
            simp only [Option.some.injEq, Prod.mk.injEq] at h'
            obtain ⟨rfl, rfl⟩ := h'
            exact hf rfl
          subst h1'
          exact ⟨false, node x l1 r bf, node x l1 r bf, by simp [deleteAVLLoop, hx, hlt, h1],
            by simp [deleteAVLNodeRecursively, hx, hlt, h2], rfl, fun _ => rfl,
            fun h => by simp at h⟩
        | true =>
          have hn := nearBalanced_node_left x bf bf l l' r hd (h5 rfl) hbr
          obtain ⟨t', hbal, hn', ht⟩ := balance_of_nearBalanced _ _ hn
          exact ⟨true, node x l1 r bf, t', by simp [deleteAVLLoop, hx, hlt, h1],
            by simp [deleteAVLNodeRecursively, hx, hlt, h2, hbal],
            by rw [ht]; simp [traverseAVL, h3], fun h => by simp at h, fun _ => hn'⟩
      · obtain ⟨b, r1, r', h1, h2, h3, h4, h5⟩ := ihr hbr
        cases b with
        | false =>
          have := h4 rfl
          subst this
          have h1' : r1 = r' := by
            obtain ⟨b', t1', h', hf, _⟩ := deleteAVLLoop_total r' v
            rw [h1] at h'
            simp only [Option.some.injEq, Prod.mk.injEq] at h'
            obtain ⟨rfl, rfl⟩ := h'
            exact hf rfl
          subst h1'
          exact ⟨false, node x l r1 bf, node x l r1 bf, by simp [deleteAVLLoop, hx, hlt, h1],
            by simp [deleteAVLNodeRecursively, hx, hlt, h2], rfl, fun _ => rfl,
            fun h => by simp at h⟩
        | true =>
          have hn := nearBalanced_node_right x bf bf l r r' hd hbl (h5 rfl)
          obtain ⟨t', hbal, hn', ht⟩ := balance_of_nearBalanced _ _ hn
          exact ⟨true, node x l r1 bf, t', by simp [deleteAVLLoop, hx, hlt, h1],
            by simp [deleteAVLNodeRecursively, hx, hlt, h2, hbal],
            by rw [ht]; simp [traverseAVL, h3], fun h => by simp at h, fun _ => hn'⟩

theorem delete_of_loop (t : AVLNode) (v : Int) (h : Balanced t ∨ getAVLCount t < 2 ^ 64) :
    (∃ b t1 t', deleteAVLLoop t v = some (b, t1) ∧ deleteAVLNode t v = some (b, t')
      ∧ traverseAVL t' = traverseAVL t1)
    ∧ (∃ b t1 t', deleteAVLLoop t v = some (b, t1) ∧ deleteAVLNodeRecursively t v = some (b, t')
      ∧ traverseAVL t' = traverseAVL t1) := by
  rcases h with hb | hc
  · obtain ⟨b, t1, t', h1, h2, h3, _⟩ := deleteAVLNode_of_balanced t v hb
    obtain ⟨b', t1', t'', h1', h2', h3', _⟩ := deleteAVLNodeRecursively_of_balanced t v hb
    exact ⟨⟨b, t1, t', h1, h2, h3⟩, ⟨b', t1', t'', h1', h2', h3'⟩⟩
  · obtain ⟨b, t1, t', h1, h2, h3, _⟩ := deleteAVLNode_of_loop t v (by omega)
    obtain ⟨b', t1', t'', h1', h2', h3', _⟩ := deleteAVLNodeRecursively_of_loop t v (by omega)
    exact ⟨⟨b, t1, t', h1, h2, h3⟩, ⟨b', t1', t'', h1', h2', h3'⟩⟩

/-! ### Requests on a strictly ordered tree that fits in memory -/

theorem getAVLCount_addAVLLeaf (t : AVLNode) (v : Int) (t1 : AVLNode)
    (h : addAVLLeaf t v = some t1) : getAVLCount t1 = getAVLCount t + 1 := by
  induction t generalizing t1 with
  | null =>
    simp only [addAVLLeaf, Option.some.injEq] at h
    subst h
    simp [getAVLCount]
  | node x l r bf ihl ihr =>
    by_cases hx : v = x
    · simp [addAVLLeaf, hx] at h
    · by_cases hle : v ≤ x
      · simp only [addAVLLeaf, hx, hle, if_true, if_false] at h
        cases hl1 : addAVLLeaf l v with
        | none => simp [hl1] at h
        | some l1 =>
          simp only [hl1, Option.map_some', Option.some.injEq] at h
          subst h
          simp only [getAVLCount, ihl l1 hl1]
          omega
      · simp only [addAVLLeaf, hx, hle, if_false] at h
        cases hr1 : addAVLLeaf r v with
        | none => simp [hr1] at h
        | some r1 =>
          simp only [hr1, Option.map_some', Option.some.injEq] at h
          subst h
          simp only [getAVLCount, ihr r1 hr1]
          omega

theorem pairwise_lt_orderedInsert (v : Int) (l : List Int) (hs : l.Pairwise (· < ·))
    (hv : v ∉ l) : (List.orderedInsert (· ≤ ·) v l).Pairwise (· < ·) := by
  induction l with
  | nil => simp
  | cons a l ih =>
    rw [List.pairwise_cons] at hs
    obtain ⟨ha, hl⟩ := hs
    simp only [List.mem_cons, not_or] at hv
    obtain ⟨hva, hvl⟩ := hv
    by_cases hle : v ≤ a
    · simp only [List.orderedInsert, hle, if_true, List.pairwise_cons, List.mem_cons]
      have hlt : v < a := lt_of_le_of_ne hle hva
      refine ⟨?_, ha, hl⟩
      rintro b (rfl | hb)
      · exact hlt
      · exact lt_trans hlt (ha b hb)
    · simp only [List.orderedInsert, hle, if_false, List.pairwise_cons]
      refine ⟨?_, ih hl hvl⟩
      intro b hb
      rw [List.mem_orderedInsert] at hb
      rcases hb with rfl | hb
      · omega
      · exact ha b hb

theorem strictlyOrdered_addAVLLeaf (t : AVLNode) (v : Int) (t1 : AVLNode)
    (ho : StrictlyOrdered t) (h : addAVLLeaf t v = some t1) : StrictlyOrdered t1 := by
  have hv : v ∉ traverseAVL t := by
    intro hmem
    rw [addAVLLeaf_eq_none_of_mem t v ho hmem] at h
    simp at h
  unfold StrictlyOrdered
  rw [traverseAVL_addAVLLeaf t v t1 ho h]
  exact pairwise_lt_orderedInsert v _ ho hv

theorem addAVLNode_of_count (t : AVLNode) (v : Int) (hc : getAVLCount t < 2 ^ 64) :
    (addAVLLeaf t v = none → addAVLNode true t v = some (false, t))
    ∧ (∀ t1, addAVLLeaf t v = some t1 →
        ∃ t', addAVLNode true t v = some (true, t') ∧ traverseAVL t' = traverseAVL t1) := by
  constructor
  · intro h
    simp [addAVLNode, h]
  · intro t1 h
    have hc1 := getAVLCount_addAVLLeaf t v t1 h
    obtain ⟨t', hb, ht⟩ := balance_isSome t1 (by omega)
    exact ⟨t', by simp [addAVLNode, h, hb], ht⟩

theorem addAVLNodeRecursively_of_count (t : AVLNode) (v : Int) (t1 : AVLNode)
    (hc : getAVLCount t < 2 ^ 64) (h : addAVLLeaf t v = some t1) :
    ∃ t', addAVLNodeRecursively true t v = some (true, t')
      ∧ traverseAVL t' = traverseAVL t1 := by
  induction t generalizing t1 with
  | null =>
    simp only [addAVLLeaf, Option.some.injEq] at h
    subst h
    obtain ⟨t', hb, ht⟩ := balance_isSome (node v null null 0) (by simp [getAVLCount])
    exact ⟨t', by simp [addAVLNodeRecursively, hb], ht⟩
  | node x l r bf ihl ihr =>
    have hc' := hc
    simp only [getAVLCount] at hc'
    by_cases hx : v = x
    · simp [addAVLLeaf, hx] at h
    · by_cases hle : v ≤ x
      · have hlt : v < x := lt_of_le_of_ne hle hx
        simp only [addAVLLeaf, hx, hle, if_true, if_false] at h
        cases hl1 : addAVLLeaf l v with
        | none => simp [hl1] at h
        | some l1 =>
          simp only [hl1, Option.map_some', Option.some.injEq] at h
          subst h
          obtain ⟨l', hrec, htl⟩ := ihl l1 (by omega) hl1
          have hcl := getAVLCount_addAVLLeaf l v l1 hl1
          have hcn : getAVLCount (node x l' r bf) ≤ 2 ^ 64 := by
            simp only [getAVLCount]
            rw [getAVLCount_eq_length l', htl, ← getAVLCount_eq_length]
            omega
          obtain ⟨t', hb, ht⟩ := balance_isSome _ hcn
          exact ⟨t', by simp [addAVLNodeRecursively, hx, hlt, hrec, hb],
            by rw [ht]; simp [traverseAVL, htl]⟩
      · have hlt : ¬ v < x := by omega
        simp only [addAVLLeaf, hx, hle, if_false] at h
        cases hr1 : addAVLLeaf r v with
        | none => simp [hr1] at h
        | some r1 =>
          simp only [hr1, Option.map_some', Option.some.injEq] at h
          subst h
          obtain ⟨r', hrec, htr⟩ := ihr r1 (by omega) hr1
          have hcr := getAVLCount_addAVLLeaf r v r1 hr1
          have hcn : getAVLCount (node x l r' bf) ≤ 2 ^ 64 := by
            simp only [getAVLCount]
            rw [getAVLCount_eq_length r', htr, ← getAVLCount_eq_length]
            omega
          obtain ⟨t', hb, ht⟩ := balance_isSome _ hcn
          exact ⟨t', by simp [addAVLNodeRecursively, hx, hlt, hrec, hb],
            by rw [ht]; simp [traverseAVL, htr]⟩

theorem strictlyOrdered_of_traverse_eq (t t' : AVLNode) (h : traverseAVL t' = traverseAVL t)
    (ho : StrictlyOrdered t) : StrictlyOrdered t' := by
  unfold StrictlyOrdered at ho ⊢
  rw [h]
  exact ho

theorem getAVLCount_of_traverse_eq (t t' : AVLNode) (h : traverseAVL t' = traverseAVL t) :
    getAVLCount t' = getAVLCount t := by
  rw [getAVLCount_eq_length, getAVLCount_eq_length, h]

theorem add_of_leaf (t : AVLNode) (v : Int) (t1 : AVLNode)
    (hc : Balanced t ∨ getAVLCount t < 2 ^ 64) (h : addAVLLeaf t v = some t1) :
    (∃ t', addAVLNode true t v = some (true, t') ∧ traverseAVL t' = traverseAVL t1)
    ∧ (∃ t', addAVLNodeRecursively true t v = some (true, t')
        ∧ traverseAVL t' = traverseAVL t1) := by
  rcases hc with hb | hc
  · obtain ⟨t', ha, _, hta⟩ := addAVLNode_of_addAVLLeaf t v t1 hb h
    obtain ⟨t'', hr, _, htr, _⟩ := addAVLNodeRecursively_of_addAVLLeaf t v t1 hb h
    exact ⟨⟨t', ha, hta⟩, ⟨t'', hr, htr⟩⟩
  · exact ⟨(addAVLNode_of_count t v hc).2 t1 h, addAVLNodeRecursively_of_count t v t1 hc h⟩

theorem serve_add (t : AVLNode) (v : Int) (ho : StrictlyOrdered t)
    (hc : Balanced t ∨ getAVLCount t < 2 ^ 64) :
    (∃ b t', addAVLNode true t v = some (b, t') ∧ StrictlyOrdered t'
      ∧ getAVLCount t' ≤ getAVLCount t + 1)
    ∧ (∃ b t', addAVLNodeRecursively true t v = some (b, t') ∧ StrictlyOrdered t'
      ∧ getAVLCount t' ≤ getAVLCount t + 1) := by
  cases h : addAVLLeaf t v with
  | none =>
    exact ⟨⟨false, t, by simp [addAVLNode, h], ho, by omega⟩,
      ⟨false, t, addAVLNodeRecursively_duplicate t v h, ho, by omega⟩⟩
  | some t1 =>
    have ho1 := strictlyOrdered_addAVLLeaf t v t1 ho h
    have hc1 := getAVLCount_addAVLLeaf t v t1 h
    obtain ⟨⟨t', ha, hta⟩, ⟨t'', hr, htr⟩⟩ := add_of_leaf t v t1 hc h
    exact ⟨⟨true, t', ha, strictlyOrdered_of_traverse_eq t1 t' hta ho1,
        by rw [getAVLCount_of_traverse_eq t1 t' hta]; omega⟩,
      ⟨true, t'', hr, strictlyOrdered_of_traverse_eq t1 t'' htr ho1,
        by rw [getAVLCount_of_traverse_eq t1 t'' htr]; omega⟩⟩

theorem strictlyOrdered_of_deleteAVLLoop (t : AVLNode) (v : Int) (b : Bool) (t1 : AVLNode)
    (ho : StrictlyOrdered t) (h : deleteAVLLoop t v = some (b, t1)) : StrictlyOrdered t1 := by
  obtain ⟨b', t1', h', hf, ht⟩ := deleteAVLLoop_total t v
  rw [h] at h'
  simp only [Option.some.injEq, Prod.mk.injEq] at h'
  obtain ⟨rfl, rfl⟩ := h'
  cases b with
  | false => rw [hf rfl]; exact ho
  | true =>
    obtain ⟨l1, l2, e1, e2⟩ := ht rfl
    unfold StrictlyOrdered at ho ⊢
    rw [e1] at ho
    rw [e2]
    exact ho.sublist (List.Sublist.append_left (List.sublist_cons_self v l2) l1)

theorem serve_delete (t : AVLNode) (v : Int) (ho : StrictlyOrdered t)
    (hc : Balanced t ∨ getAVLCount t < 2 ^ 64) :
    (∃ b t', deleteAVLNode t v = some (b, t') ∧ StrictlyOrdered t'
      ∧ getAVLCount t' ≤ getAVLCount t + 1)
    ∧ (∃ b t', deleteAVLNodeRecursively t v = some (b, t') ∧ StrictlyOrdered t'
      ∧ getAVLCount t' ≤ getAVLCount t + 1) := by
  obtain ⟨⟨b, t1, t', h1, h2, h3⟩, ⟨b', t1', t'', h1', h2', h3'⟩⟩ := delete_of_loop t v hc
  have ho1 := strictlyOrdered_of_deleteAVLLoop t v b t1 ho h1
  have ho1' := strictlyOrdered_of_deleteAVLLoop t v b' t1' ho h1'
  have hc1 := getAVLCount_le_of_deleteAVLLoop t v b t1 h1
  have hc1' := getAVLCount_le_of_deleteAVLLoop t v b' t1' h1'
  exact ⟨⟨b, t', h2, strictlyOrdered_of_traverse_eq t1 t' h3 ho1,
      by rw [getAVLCount_of_traverse_eq t1 t' h3]; omega⟩,
    ⟨b', t'', h2', strictlyOrdered_of_traverse_eq t1' t'' h3' ho1',
      by rw [getAVLCount_of_traverse_eq t1' t'' h3']; omega⟩⟩

theorem serve_strictlyOrdered (t : AVLNode) (q : AVLRequest) (ho : StrictlyOrdered t)
    (hc : getAVLCount t < 2 ^ 64) :
    ∃ b t', serve t q = some (b, t') ∧ StrictlyOrdered t'
      ∧ getAVLCount t' ≤ getAVLCount t + 1 := by
  cases q with
  | add recursive v =>
    cases recursive with
    | false => exact (serve_add t v ho (Or.inr hc)).1
    | true => exact (serve_add t v ho (Or.inr hc)).2
  | delete recursive v =>
    cases recursive with
    | false => exact (serve_delete t v ho (Or.inr hc)).1
    | true => exact (serve_delete t v ho (Or.inr hc)).2

theorem serveAll_strictlyOrdered (qs : List AVLRequest) (t : AVLNode)
    (ho : StrictlyOrdered t) (hc : getAVLCount t + qs.length ≤ 2 ^ 64) :
    ∃ t', serveAll t qs = some t' ∧ StrictlyOrdered t' := by
  induction qs generalizing t with
  | nil => exact ⟨t, rfl, ho⟩
  | cons q qs ih =>
    simp only [List.length_cons] at hc
    obtain ⟨b, t1, hs, ho1, hc1⟩ := serve_strictlyOrdered t q ho (by omega)
    obtain ⟨t', hs', ho'⟩ := ih t1 ho1 (by omega)
    exact ⟨t', by simp [serveAll, hs, hs'], ho'⟩

theorem deleteAVLNode_present (t : AVLNode) (v : Int) (ho : StrictlyOrdered t)
    (hc : Balanced t ∨ getAVLCount t < 2 ^ 64) (hv : v ∈ traverseAVL t) :
    (∃ t', deleteAVLNode t v = some (true, t')
      ∧ ∃ l1 l2, traverseAVL t = l1 ++ v :: l2 ∧ traverseAVL t' = l1 ++ l2)
    ∧ (∃ t', deleteAVLNodeRecursively t v = some (true, t')
      ∧ ∃ l1 l2, traverseAVL t = l1 ++ v :: l2 ∧ traverseAVL t' = l1 ++ l2) := by
  obtain ⟨s, hs⟩ := deleteAVLLoop_present t v ho hv
  obtain ⟨b0, s0, h0, _, hsplit⟩ := deleteAVLLoop_total t v
  rw [hs] at h0
  simp only [Option.some.injEq, Prod.mk.injEq] at h0
  obtain ⟨rfl, rfl⟩ := h0
  obtain ⟨l1, l2, e1, e2⟩ := hsplit rfl
  obtain ⟨⟨b, t1, t', h1, h2, h3⟩, ⟨b', t1', t'', h1', h2', h3'⟩⟩ := delete_of_loop t v hc
  rw [hs] at h1 h1'
  simp only [Option.some.injEq, Prod.mk.injEq] at h1 h1'
  obtain ⟨rfl, rfl⟩ := h1
  obtain ⟨rfl, rfl⟩ := h1'
  exact ⟨⟨t', h2, l1, l2, e1, by rw [h3, e2]⟩, ⟨t'', h2', l1, l2, e1, by rw [h3', e2]⟩⟩

/-- C2, at the failing inputs.  `fib12` is built by inserts only and is balanced; `deleteAVLNode`
of 1 rotates once at the node holding 2 and leaves the root with heights 2 and 4.  `fib20` is
built by inserts only and is balanced; `deleteAVLNodeRecursively` of 8 rotates once at the node
holding 10 and leaves the node holding 13 with heights 2 and 4. -/
theorem deleteAVLNode_single_pass_leaves_imbalance :
    (addAVLNodes null [5, 2, 8, 1, 3, 6, 10, 4, 7, 9, 11, 12] = some fib12
      ∧ Balanced fib12
      ∧ deleteAVLNode fib12 1 = some (true, fib12Without1)
      ∧ ¬ Balanced fib12Without1)
    ∧ (addAVLNodes null [8, 3, 13, 1, 5, 10, 16, 2, 4, 6, 9, 11, 14, 18, 7, 12, 15, 17, 19, 20]
          = some fib20
      ∧ Balanced fib20
      ∧ deleteAVLNodeRecursively fib20 8 = some (true, fib20Without8)
      ∧ ¬ Balanced fib20Without8) := by
  decide

end AVLNode

/-! ## Deleting an absent value, and searching -/

/-- C9: when `v` does not occur in the tree, each of `deleteBSTNode`, `deleteBSTNodeRecursively`,
`deleteAVLNode` and `deleteAVLNodeRecursively` returns `false` and leaves the very same tree:
same shape and values (hence same count and height) and, for the AVL tree, the same stored
balance factors. -/
theorem delete_absent_value_changes_nothing (b : BSTNode) (a : AVLNode) (v : Int)
    (hb : v ∉ b.traverseBST) (ha : v ∉ a.traverseAVL) :
    b.deleteBSTNode v = some (false, b)
    ∧ b.deleteBSTNodeRecursively v = some (false, b)
    ∧ a.deleteAVLNode v = some (false, a)
    ∧ a.deleteAVLNodeRecursively v = some (false, a) :=
  ⟨BSTNode.deleteBSTNode_absent b v hb, BSTNode.deleteBSTNodeRecursively_absent b v hb,
    AVLNode.deleteAVLNode_absent a v ha, AVLNode.deleteAVLNodeRecursively_absent a v ha⟩

/-- Witness of C9: deleting 11 from the BST 8(3, 10) and from the AVL tree 8(3, 10). -/
theorem delete_absent_value_changes_nothing_witness :
    (11 : Int) ∉ (BSTNode.node 8 (.node 3 .null .null) (.node 10 .null .null)).traverseBST
    ∧ (11 : Int) ∉ (AVLNode.node 8 (.leaf 3) (.leaf 10) 0).traverseAVL
    ∧ (BSTNode.node 8 (.node 3 .null .null) (.node 10 .null .null)).deleteBSTNode 11
        = some (false, .node 8 (.node 3 .null .null) (.node 10 .null .null))
    ∧ (AVLNode.node 8 (.leaf 3) (.leaf 10) 0).deleteAVLNodeRecursively 11
        = some (false, .node 8 (.leaf 3) (.leaf 10) 0) :=
  have h := delete_absent_value_changes_nothing
    (.node 8 (.node 3 .null .null) (.node 10 .null .null)) (.node 8 (.leaf 3) (.leaf 10) 0) 11
    (by decide) (by decide)
  ⟨by decide, by decide, h.1, h.2.2.2⟩

/-- C10: on a tree whose in-order traversal is non-decreasing, `findBSTNode` returns a node
exactly when `v` occurs in the tree; the node returned holds `v` and sits at the end of the
comparison descent from the root, on which no earlier node holds `v`; when `v` does not occur the
result is absent.  `findAVLNode` does the same on a strictly ordered tree, where `v` occurs at
most once. -/
theorem find_returns_first_match (b : BSTNode) (a : AVLNode) (v : Int)
    (hb : (b.traverseBST).Pairwise (· ≤ ·)) (ha : a.StrictlyOrdered) :
    ((∃ n, b.findBSTNode v = some n) ↔ v ∈ b.traverseBST)
    ∧ (∀ n, b.findBSTNode v = some n →
        ∃ p l r, BSTNode.DescendsTo v b p ∧ BSTNode.subtreeAt p b = some n ∧ n = .node v l r)
    ∧ (v ∉ b.traverseBST → b.findBSTNode v = none)
    ∧ ((∃ n, a.findAVLNode v = some n) ↔ v ∈ a.traverseAVL)
    ∧ (∀ n, a.findAVLNode v = some n →
        ∃ p l r bf, AVLNode.DescendsTo v a p ∧ AVLNode.subtreeAt p a = some n
          ∧ n = .node v l r bf)
    ∧ (v ∉ a.traverseAVL → a.findAVLNode v = none)
    ∧ (v ∈ a.traverseAVL → (a.traverseAVL).count v = 1) := by
  refine ⟨BSTNode.findBSTNode_some_iff b v hb, BSTNode.findBSTNode_descends b v, ?_,
    AVLNode.findAVLNode_some_iff a v ha, AVLNode.findAVLNode_descends a v, ?_,
    AVLNode.count_eq_one_of_strictlyOrdered _ v ha⟩
  · intro h
    cases hf : b.findBSTNode v with
    | none => rfl
    | some n => exact absurd ((BSTNode.findBSTNode_some_iff b v hb).mp ⟨n, hf⟩) h
  · intro h
    cases hf : a.findAVLNode v with
    | none => rfl
    | some n => exact absurd ((AVLNode.findAVLNode_some_iff a v ha).mp ⟨n, hf⟩) h

/-- Witness of C10: searching 5 in the BST 5(5(3, ·), 7), which holds 5 twice, and in the AVL
tree 5(3, 7). -/
theorem find_returns_first_match_witness :
    ((BSTNode.node 5 (.node 5 (.node 3 .null .null) .null)
        (.node 7 .null .null)).traverseBST).Pairwise (· ≤ ·)
    ∧ (AVLNode.node 5 (.leaf 3) (.leaf 7) 0).StrictlyOrdered
    ∧ ((∃ n, (BSTNode.node 5 (.node 5 (.node 3 .null .null) .null)
        (.node 7 .null .null)).findBSTNode 5 = some n) ↔
          (5 : Int) ∈ (BSTNode.node 5 (.node 5 (.node 3 .null .null) .null)
            (.node 7 .null .null)).traverseBST) :=
  ⟨by decide, by decide,
    (find_returns_first_match
      (.node 5 (.node 5 (.node 3 .null .null) .null) (.node 7 .null .null))
      (.node 5 (.leaf 3) (.leaf 7) 0) 5 (by decide) (by decide)).1⟩

/-! ## Insertion in the BST -/

/-- C5: on a BST satisfying the ordering invariant, `addBSTNode` (allocation succeeding) returns
`true`; the result is the input with one `NULL` slot replaced by a new leaf holding `v`, every
existing node kept (so the count grows by one); the result satisfies the ordering invariant; and
when `v` already occurs, the slot of the new leaf lies in the left subtree of the first node
holding `v` on the descent. -/
theorem addBSTNode_adds_one_leaf (t : BSTNode) (v : Int) (h : t.BSTOrdered) :
    (t.addBSTNode true v).1 = true
    ∧ (∃ p, BSTNode.subtreeAt p t = some .null
        ∧ (t.addBSTNode true v).2 = BSTNode.replaceAt (.node v .null .null) p t
        ∧ (t.addBSTNode true v).2.getBSTCount = t.getBSTCount + 1
        ∧ ∀ q, BSTNode.DescendsTo v t q → ∃ p', p = q ++ Side.left :: p')
    ∧ (t.addBSTNode true v).2.BSTOrdered := by
  refine ⟨BSTNode.addBSTNode_fst t v, ?_, BSTNode.addBSTNode_ordered t v h⟩
  obtain ⟨p, hsub, hrep, hq⟩ := BSTNode.addBSTNode_new_leaf t v
  exact ⟨p, hsub, hrep, by rw [hrep, BSTNode.getBSTCount_replaceAt_leaf t v p hsub], hq⟩

/-- Witness of C5: adding a second 5 to the BST 8(5, 10). -/
theorem addBSTNode_adds_one_leaf_witness :
    (BSTNode.node 8 (.node 5 .null .null) (.node 10 .null .null)).BSTOrdered
    ∧ ((BSTNode.node 8 (.node 5 .null .null) (.node 10 .null .null)).addBSTNode true 5).2.BSTOrdered
    ∧ (BSTNode.node 8 (.node 5 .null .null) (.node 10 .null .null)).addBSTNode true 5
        = (true, .node 8 (.node 5 (.node 5 .null .null) .null) (.node 10 .null .null)) :=
  ⟨by decide,
    (addBSTNode_adds_one_leaf (.node 8 (.node 5 .null .null) (.node 10 .null .null)) 5
      (by decide)).2.2,
    by decide⟩

/-! ## Insertion in the AVL tree -/

/-- C1: when every node of `t` is balanced (heights recomputed) and `v` does not occur in `t`,
`addAVLNode` and `addAVLNodeRecursively` (allocation succeeding) both return `true` with a tree
in which every node is balanced. -/
theorem addAVLNode_keeps_balance (t : AVLNode) (v : Int) (hb : t.Balanced)
    (hv : v ∉ t.traverseAVL) :
    (∃ t', t.addAVLNode true v = some (true, t') ∧ t'.Balanced)
    ∧ (∃ t', t.addAVLNodeRecursively true v = some (true, t') ∧ t'.Balanced) := by
  obtain ⟨t1, h1⟩ := AVLNode.addAVLLeaf_isSome_of_not_mem t v hv
  obtain ⟨t', ha, hb', _⟩ := AVLNode.addAVLNode_of_addAVLLeaf t v t1 hb h1
  obtain ⟨t'', hr, hb'', _⟩ := AVLNode.addAVLNodeRecursively_of_addAVLLeaf t v t1 hb h1
  exact ⟨⟨t', ha, hb'⟩, ⟨t'', hr, hb''⟩⟩

/-- Witness of C1: adding 30 to the right-leaning tree 10(·, 20), which needs a left rotation. -/
theorem addAVLNode_keeps_balance_witness :
    (AVLNode.node 10 .null (.leaf 20) 1).Balanced
    ∧ (30 : Int) ∉ (AVLNode.node 10 .null (.leaf 20) 1).traverseAVL
    ∧ (∃ t', (AVLNode.node 10 .null (.leaf 20) 1).addAVLNode true 30 = some (true, t')
        ∧ t'.Balanced) :=
  ⟨by decide, by decide,
    (addAVLNode_keeps_balance (.node 10 .null (.leaf 20) 1) 30 (by decide) (by decide)).1⟩

/-- C4: on a valid AVL tree (balanced, strictly ordered), with allocation succeeding: when `v`
occurs in `t`, `addAVLNode` and `addAVLNodeRecursively` return `false` and the very same tree
(shape, values, stored balance factors); when `v` does not occur they return `true` and a tree
whose in-order traversal is that of `t` with `v` inserted at its sorted position. -/
theorem addAVLNode_rejects_duplicates (t : AVLNode) (v : Int) (hb : t.Balanced)
    (ho : t.StrictlyOrdered) :
    (v ∈ t.traverseAVL →
      t.addAVLNode true v = some (false, t) ∧ t.addAVLNodeRecursively true v = some (false, t))
    ∧ (v ∉ t.traverseAVL →
      (∃ t', t.addAVLNode true v = some (true, t')
        ∧ t'.traverseAVL = List.orderedInsert (· ≤ ·) v t.traverseAVL)
      ∧ (∃ t', t.addAVLNodeRecursively true v = some (true, t')
        ∧ t'.traverseAVL = List.orderedInsert (· ≤ ·) v t.traverseAVL)) := by
  constructor
  · intro hv
    have hnone := AVLNode.addAVLLeaf_eq_none_of_mem t v ho hv
    exact ⟨by simp [AVLNode.addAVLNode, hnone], AVLNode.addAVLNodeRecursively_duplicate t v hnone⟩
  · intro hv
    obtain ⟨t1, h1⟩ := AVLNode.addAVLLeaf_isSome_of_not_mem t v hv
    have ht1 := AVLNode.traverseAVL_addAVLLeaf t v t1 ho h1
    obtain ⟨t', ha, _, hta⟩ := AVLNode.addAVLNode_of_addAVLLeaf t v t1 hb h1
    obtain ⟨t'', hr, _, htr, _⟩ := AVLNode.addAVLNodeRecursively_of_addAVLLeaf t v t1 hb h1
    exact ⟨⟨t', ha, by rw [hta, ht1]⟩, ⟨t'', hr, by rw [htr, ht1]⟩⟩

/-- Witness of C4: adding 20 (present) to the tree 10(·, 20). -/
theorem addAVLNode_rejects_duplicates_witness :
    (AVLNode.node 10 .null (.leaf 20) 1).Balanced
    ∧ (AVLNode.node 10 .null (.leaf 20) 1).StrictlyOrdered
    ∧ (20 : Int) ∈ (AVLNode.node 10 .null (.leaf 20) 1).traverseAVL
    ∧ (AVLNode.node 10 .null (.leaf 20) 1).addAVLNode true 20
        = some (false, .node 10 .null (.leaf 20) 1)
    ∧ (AVLNode.node 10 .null (.leaf 20) 1).addAVLNodeRecursively true 20
        = some (false, .node 10 .null (.leaf 20) 1) :=
  ⟨by decide, by decide, by decide,
    (addAVLNode_rejects_duplicates (.node 10 .null (.leaf 20) 1) 20 (by decide) (by decide)).1
      (by decide)⟩

/-! ## Strict ordering in the AVL tree -/

/-- C3: on a tree whose in-order traversal is strictly increasing, and that is balanced or, when
of any other shape, has fewer than `2^64` nodes as every tree held in memory has, each of
`addAVLNode`, `addAVLNodeRecursively`, `deleteAVLNode` and `deleteAVLNodeRecursively` returns,
and the tree it leaves (rotations included) again has a strictly increasing in-order traversal.
Hence every tree built from the empty tree by at most `2^64` such requests is strictly ordered
and holds no value twice. -/
theorem avl_requests_keep_strict_order (t : AVLNode) (v : Int) (qs : List AVLNode.AVLRequest)
    (ho : t.StrictlyOrdered) (hc : t.Balanced ∨ t.getAVLCount < 2 ^ 64)
    (hq : qs.length ≤ 2 ^ 64) :
    (∃ b t', t.addAVLNode true v = some (b, t') ∧ t'.StrictlyOrdered)
    ∧ (∃ b t', t.addAVLNodeRecursively true v = some (b, t') ∧ t'.StrictlyOrdered)
    ∧ (∃ b t', t.deleteAVLNode v = some (b, t') ∧ t'.StrictlyOrdered)
    ∧ (∃ b t', t.deleteAVLNodeRecursively v = some (b, t') ∧ t'.StrictlyOrdered)
    ∧ (∃ t', AVLNode.serveAll .null qs = some t' ∧ t'.StrictlyOrdered
        ∧ t'.traverseAVL.Nodup) := by
  obtain ⟨⟨b1, t1, h1, o1, _⟩, ⟨b2, t2, h2, o2, _⟩⟩ := AVLNode.serve_add t v ho hc
  obtain ⟨⟨b3, t3, h3, o3, _⟩, ⟨b4, t4, h4, o4, _⟩⟩ := AVLNode.serve_delete t v ho hc
  obtain ⟨t5, h5, o5⟩ := AVLNode.serveAll_strictlyOrdered qs .null
    (by simp [AVLNode.StrictlyOrdered, AVLNode.traverseAVL])
    (by simpa [AVLNode.getAVLCount] using hq)
  exact ⟨⟨b1, t1, h1, o1⟩, ⟨b2, t2, h2, o2⟩, ⟨b3, t3, h3, o3⟩, ⟨b4, t4, h4, o4⟩,
    ⟨t5, h5, o5, o5.imp (fun h => ne_of_lt h)⟩⟩

/-- Witness of C3: the unbalanced chain 1(·, 2(·, 3)), adding 4, after the requests add 5,
add 5, delete 5. -/
theorem avl_requests_keep_strict_order_witness :
    (AVLNode.node 1 .null (.node 2 .null (.leaf 3) 0) 0).StrictlyOrdered
    ∧ (∃ b t', (AVLNode.node 1 .null (.node 2 .null (.leaf 3) 0) 0).addAVLNode true 4
        = some (b, t') ∧ t'.StrictlyOrdered) :=
  ⟨by decide,
    (avl_requests_keep_strict_order (.node 1 .null (.node 2 .null (.leaf 3) 0) 0) 4
      [.add false 5, .add true 5, .delete true 5] (by decide)
      (Or.inr (by simp [AVLNode.getAVLCount, AVLNode.leaf])) (by simp)).1⟩

/-! ## Deleting a value that occurs -/

/-- C7: on a BST whose in-order traversal is non-decreasing and that holds `v`, `deleteBSTNode`
returns `true`; the in-order traversal of the result is that of the input with one occurrence
of `v` taken out, everything else in place; and the node removed is the one at the end of the
comparison descent for `v` (the first node holding `v` on the search path): the result is the
input with the subtree at that slot replaced by what the three-case removal leaves of it.  On a
valid AVL tree holding `v` (strictly ordered and balanced; or strictly ordered, of any shape,
with fewer than `2^64` nodes), `deleteAVLNode` and `deleteAVLNodeRecursively` return `true` with
the same in-order postcondition. -/
theorem delete_removes_one_occurrence (b : BSTNode) (a : AVLNode) (v : Int)
    (hb : (b.traverseBST).Pairwise (· ≤ ·)) (hvb : v ∈ b.traverseBST)
    (ha : a.StrictlyOrdered) (hc : a.Balanced ∨ a.getAVLCount < 2 ^ 64)
    (hva : v ∈ a.traverseAVL) :
    (∃ b', b.deleteBSTNode v = some (true, b')
      ∧ (∃ l1 l2, b.traverseBST = l1 ++ v :: l2 ∧ b'.traverseBST = l1 ++ l2)
      ∧ ∃ p l r s, BSTNode.DescendsTo v b p ∧ BSTNode.subtreeAt p b = some (.node v l r)
          ∧ BSTNode.deleteBSTRoot (.node v l r) = some s ∧ b' = BSTNode.replaceAt s p b)
    ∧ (∃ a', a.deleteAVLNode v = some (true, a')
      ∧ ∃ l1 l2, a.traverseAVL = l1 ++ v :: l2 ∧ a'.traverseAVL = l1 ++ l2)
    ∧ (∃ a', a.deleteAVLNodeRecursively v = some (true, a')
      ∧ ∃ l1 l2, a.traverseAVL = l1 ++ v :: l2 ∧ a'.traverseAVL = l1 ++ l2) :=
  ⟨BSTNode.deleteBSTNode_present b v hb hvb,
    (AVLNode.deleteAVLNode_present a v ha hc hva).1,
    (AVLNode.deleteAVLNode_present a v ha hc hva).2⟩

/-- Witness of C7: deleting 5 from the BST 5(5(3, ·), 7) and from the AVL tree 5(3, 7). -/
theorem delete_removes_one_occurrence_witness :
    ((BSTNode.node 5 (.node 5 (.node 3 .null .null) .null)
        (.node 7 .null .null)).traverseBST).Pairwise (· ≤ ·)
    ∧ (5 : Int) ∈ (BSTNode.node 5 (.node 5 (.node 3 .null .null) .null)
        (.node 7 .null .null)).traverseBST
    ∧ (AVLNode.node 5 (.leaf 3) (.leaf 7) 0).StrictlyOrdered
    ∧ (AVLNode.node 5 (.leaf 3) (.leaf 7) 0).Balanced
    ∧ (5 : Int) ∈ (AVLNode.node 5 (.leaf 3) (.leaf 7) 0).traverseAVL
    ∧ (∃ a', (AVLNode.node 5 (.leaf 3) (.leaf 7) 0).deleteAVLNode 5 = some (true, a')
      ∧ ∃ l1 l2, (AVLNode.node 5 (.leaf 3) (.leaf 7) 0).traverseAVL = l1 ++ 5 :: l2
        ∧ a'.traverseAVL = l1 ++ l2) :=
  ⟨by decide, by decide, by decide, by decide, by decide,
    (delete_removes_one_occurrence
      (.node 5 (.node 5 (.node 3 .null .null) .null) (.node 7 .null .null))
      (.node 5 (.leaf 3) (.leaf 7) 0) 5 (by decide) (by decide) (by decide)
      (Or.inl (by decide)) (by decide)).2.1⟩

namespace BSTNode

/-! ### Iterative and recursive variants of the BST -/

end BSTNode
namespace AVLNode

end AVLNode

/-- C13, at the failing input: on the balanced 12-node tree `fib12`, deleting 1 returns `true`
with both variants, but `deleteAVLNode` leaves the tree with root 5 (imbalanced) while
`deleteAVLNodeRecursively` leaves the balanced tree with root 8. -/
theorem deleteAVLNode_and_recursive_leave_different_trees :
    AVLNode.addAVLNodes .null [5, 2, 8, 1, 3, 6, 10, 4, 7, 9, 11, 12] = some AVLNode.fib12
    ∧ AVLNode.fib12.Balanced ∧ AVLNode.fib12.StrictlyOrdered
    ∧ AVLNode.fib12.deleteAVLNode 1 = some (true, AVLNode.fib12Without1)
    ∧ AVLNode.fib12.deleteAVLNodeRecursively 1 = some (true, AVLNode.fib12Without1Recursively)
    ∧ AVLNode.fib12Without1 ≠ AVLNode.fib12Without1Recursively
    ∧ AVLNode.fib12Without1.getAVLHeight ≠ AVLNode.fib12Without1Recursively.getAVLHeight := by
  decide

/-! ## Ascending insertion into the AVL tree -/

/-- C20: inserting 10, 20, ..., 100 in ascending order into the empty tree with `addAVLNode`:
after the `n`-th insert, for every `n` from 1 to 10, the height is at most
`⌈log2 (n + 1)⌉ + 1` and every node is balanced. -/
theorem ascending_inserts_height_bound (i : Fin 10) :
    ∃ t, AVLNode.addAVLNodes .null (AVLNode.firstTens (i.val + 1)) = some t
      ∧ t.getAVLHeight ≤ Nat.clog 2 (i.val + 1 + 1) + 1 ∧ t.Balanced := by
  fin_cases i
  all_goals
    refine ⟨_, rfl, ?_, ?_⟩
    · simp [Nat.clog]
      decide
    · decide

namespace BSTNode

/-! ### Leftmost and rightmost values -/

theorem minBST_node (v old : Int) (l r : BSTNode) :
    ∃ m rest, traverseBST (node v l r) = m :: rest
      ∧ minBST (node v l r) (some old) = (true, some m) := by
  induction l generalizing v r with
  | null => exact ⟨v, traverseBST r, by simp [traverseBST], rfl⟩
  | node lv ll lr ihl _ =>
    obtain ⟨m, rest, h1, h2⟩ := ihl lv lr
    exact ⟨m, rest ++ v :: traverseBST r, by rw [traverseBST, h1]; rfl,
      by rw [minBST, h2]⟩

theorem maxBST_node (v old : Int) (l r : BSTNode) :
    ∃ m front, traverseBST (node v l r) = front ++ [m]
      ∧ maxBST (node v l r) (some old) = (true, some m) := by
  induction r generalizing v l with
  | null => exact ⟨v, traverseBST l, by simp [traverseBST], rfl⟩
  | node rv rl rr _ ihr =>
    obtain ⟨m, front, h1, h2⟩ := ihr rv rl
    exact ⟨m, traverseBST l ++ v :: front, by rw [traverseBST, h1]; simp,
      by rw [maxBST, h2]⟩

end BSTNode
namespace AVLNode

theorem minAVL_node (v bf old : Int) (l r : AVLNode) :
    ∃ m rest, traverseAVL (node v l r bf) = m :: rest
      ∧ minAVL (node v l r bf) (some old) = (true, some m) := by
  induction l generalizing v r bf with
  | null => exact ⟨v, traverseAVL r, by simp [traverseAVL], rfl⟩
  | node lv ll lr lbf ihl _ =>
    obtain ⟨m, rest, h1, h2⟩ := ihl lv lbf lr
    exact ⟨m, rest ++ v :: traverseAVL r, by rw [traverseAVL, h1]; rfl,
      by rw [minAVL, h2]⟩

theorem maxAVL_node (v bf old : Int) (l r : AVLNode) :
    ∃ m front, traverseAVL (node v l r bf) = front ++ [m]
      ∧ maxAVL (node v l r bf) (some old) = (true, some m) := by
  induction r generalizing v l bf with
  | null => exact ⟨v, traverseAVL l, by simp [traverseAVL], rfl⟩
  | node rv rl rr rbf _ ihr =>
    obtain ⟨m, front, h1, h2⟩ := ihr rv rbf rl
    exact ⟨m, traverseAVL l ++ v :: front, by rw [traverseAVL, h1]; simp,
      by rw [maxAVL, h2]⟩

end AVLNode

/-! ## Minimum and maximum -/

/-- C16: on a non-empty BST whose in-order traversal is non-decreasing, with a valid output
pointer, `minBST` reports `true` and writes the first element of the in-order traversal, which
is at most every value of the tree; `maxBST` reports `true` and writes the last element, which
is at least every value.  On the empty tree both report `false` and leave the output as it
was.  `minAVL` and `maxAVL` do the same. -/
theorem min_max_report_extremes (b : BSTNode) (a : AVLNode) (old : Int)
    (hb : b ≠ .null) (hbs : (b.traverseBST).Pairwise (· ≤ ·))
    (ha : a ≠ .null) (has : (a.traverseAVL).Pairwise (· ≤ ·)) :
    (∃ m rest, b.traverseBST = m :: rest ∧ b.minBST (some old) = (true, some m)
      ∧ ∀ x ∈ b.traverseBST, m ≤ x)
    ∧ (∃ m front, b.traverseBST = front ++ [m] ∧ b.maxBST (some old) = (true, some m)
      ∧ ∀ x ∈ b.traverseBST, x ≤ m)
    ∧ BSTNode.minBST .null (some old) = (false, some old)
    ∧ BSTNode.maxBST .null (some old) = (false, some old)
    ∧ (∃ m rest, a.traverseAVL = m :: rest ∧ a.minAVL (some old) = (true, some m)
      ∧ ∀ x ∈ a.traverseAVL, m ≤ x)
    ∧ (∃ m front, a.traverseAVL = front ++ [m] ∧ a.maxAVL (some old) = (true, some m)
      ∧ ∀ x ∈ a.traverseAVL, x ≤ m)
    ∧ AVLNode.minAVL .null (some old) = (false, some old)
    ∧ AVLNode.maxAVL .null (some old) = (false, some old) := by
  have least : ∀ (l : List Int) (m : Int) (rest : List Int), l.Pairwise (· ≤ ·) →
      l = m :: rest → ∀ x ∈ l, m ≤ x := by
    intro l m rest hs he x hx
    subst he
    rw [List.pairwise_cons] at hs
    rcases List.mem_cons.mp hx with rfl | hx
    · exact le_refl _
    · exact hs.1 x hx
  have greatest : ∀ (l : List Int) (m : Int) (front : List Int), l.Pairwise (· ≤ ·) →
      l = front ++ [m] → ∀ x ∈ l, x ≤ m := by
    intro l m front hs he x hx
    subst he
    rw [List.pairwise_append] at hs
    rcases List.mem_append.mp hx with hx | hx
    · exact hs.2.2 x hx m (by simp)
    · simp at hx
      exact le_of_eq hx
  refine ⟨?_, ?_, rfl, rfl, ?_, ?_, rfl, rfl⟩
  · cases b with
    | null => exact absurd rfl hb
    | node v l r =>
      obtain ⟨m, rest, h1, h2⟩ := BSTNode.minBST_node v old l r
      exact ⟨m, rest, h1, h2, least _ m rest hbs h1⟩
  · cases b with
    | null => exact absurd rfl hb
    | node v l r =>
      obtain ⟨m, front, h1, h2⟩ := BSTNode.maxBST_node v old l r
      exact ⟨m, front, h1, h2, greatest _ m front hbs h1⟩
  · cases a with
    | null => exact absurd rfl ha
    | node v l r bf =>
      obtain ⟨m, rest, h1, h2⟩ := AVLNode.minAVL_node v bf old l r
      exact ⟨m, rest, h1, h2, least _ m rest has h1⟩
  · cases a with
    | null => exact absurd rfl ha
    | node v l r bf =>
      obtain ⟨m, front, h1, h2⟩ := AVLNode.maxAVL_node v bf old l r
      exact ⟨m, front, h1, h2, greatest _ m front has h1⟩

/-- Witness of C16: the BST 8(3(1, ·), 12) and the AVL tree 8(3, 12), with the output holding 0
before the call. -/
theorem min_max_report_extremes_witness :
    (BSTNode.node 8 (.node 3 (.node 1 .null .null) .null) (.node 12 .null .null)) ≠ .null
    ∧ ((BSTNode.node 8 (.node 3 (.node 1 .null .null) .null)
        (.node 12 .null .null)).traverseBST).Pairwise (· ≤ ·)
    ∧ (BSTNode.node 8 (.node 3 (.node 1 .null .null) .null) (.node 12 .null .null)).minBST
        (some 0) = (true, some 1)
    ∧ (BSTNode.node 8 (.node 3 (.node 1 .null .null) .null) (.node 12 .null .null)).maxBST
        (some 0) = (true, some 12)
    ∧ ∃ m rest, (BSTNode.node 8 (.node 3 (.node 1 .null .null) .null)
        (.node 12 .null .null)).traverseBST = m :: rest
      ∧ (BSTNode.node 8 (.node 3 (.node 1 .null .null) .null) (.node 12 .null .null)).minBST
        (some 0) = (true, some m)
      ∧ ∀ x ∈ (BSTNode.node 8 (.node 3 (.node 1 .null .null) .null)
        (.node 12 .null .null)).traverseBST, m ≤ x :=
  ⟨by decide, by decide, by decide, by decide,
    (min_max_report_extremes
      (.node 8 (.node 3 (.node 1 .null .null) .null) (.node 12 .null .null))
      (.node 8 (.leaf 3) (.leaf 12) 0) 0 (by decide) (by decide) (by decide) (by decide)).1⟩

/-! ### Writing the in-order sequence into an array -/

theorem set_at_length (pre post : List Int) (x v : Int) :
    (pre ++ x :: post).set pre.length v = pre ++ v :: post := by
  rw [List.set_append_right _ _ (le_refl _)]
  simp

namespace BSTNode

theorem getBSTCount_eq_length (t : BSTNode) : getBSTCount t = (traverseBST t).length := by
  induction t with
  | null => rfl
  | node v l r ihl ihr =>
    simp [getBSTCount, traverseBST, ihl, ihr]
    omega

theorem traverseBSTInto_eq (t : BSTNode) (pre mid post : List Int)
    (h : mid.length = getBSTCount t) :
    traverseBSTInto t (pre ++ mid ++ post) pre.length
      = some (pre ++ traverseBST t ++ post, pre.length + getBSTCount t) := by
  induction t generalizing pre mid post with
  | null =>
    simp only [getBSTCount, List.length_eq_zero] at h
    subst h
    simp [traverseBSTInto, traverseBST, getBSTCount]
  | node v l r ihl ihr =>
    simp only [getBSTCount] at h
    obtain ⟨m1, rest, hm, h1⟩ : ∃ m1 rest, mid = m1 ++ rest ∧ m1.length = getBSTCount l :=
      ⟨mid.take (getBSTCount l), mid.drop (getBSTCount l), (List.take_append_drop _ _).symm,
        by rw [List.length_take]; omega⟩
    subst hm
    cases rest with
    | nil =>
      simp at h
      omega
    | cons x m2 =>
      have h2 : m2.length = getBSTCount r := by
        simp at h
        omega
      have e1 : pre ++ (m1 ++ x :: m2) ++ post = pre ++ m1 ++ (x :: m2 ++ post) := by simp
      have s1 := ihl pre m1 (x :: m2 ++ post) h1
      rw [traverseBSTInto, e1, s1]
      have hlen : (pre ++ traverseBST l).length = pre.length + getBSTCount l := by
        rw [List.length_append, getBSTCount_eq_length]
      have e2 : pre ++ traverseBST l ++ (x :: m2 ++ post)
          = (pre ++ traverseBST l) ++ x :: (m2 ++ post) := by simp
      have hlt : pre.length + getBSTCount l
          < (pre ++ traverseBST l ++ (x :: m2 ++ post)).length := by
        simp [← getBSTCount_eq_length]
      simp only [Option.some_bind, hlt, if_true]
      rw [e2, ← hlen, set_at_length]
      have e3 : (pre ++ traverseBST l) ++ v :: (m2 ++ post)
          = (pre ++ traverseBST l ++ [v]) ++ m2 ++ post := by simp
      have e4 : (pre ++ traverseBST l).length + 1 = (pre ++ traverseBST l ++ [v]).length := by
        simp only [List.length_append, List.length_singleton]
      rw [e3, e4, ihr _ m2 post h2]
      simp [traverseBST, getBSTCount, ← getBSTCount_eq_length]
      omega

theorem getBSTAsSortedArray_eq (malloc : Nat → Option (List Int)) (t : BSTNode)
    (hm : ∀ n, ∃ blk, malloc n = some blk ∧ blk.length = n) :
    getBSTAsSortedArray malloc t = some (if t = null then none else some (traverseBST t)) := by
  cases t with
  | null => rfl
  | node v l r =>
    obtain ⟨blk, hb, hl⟩ := hm (getBSTCount (node v l r))
    have := traverseBSTInto_eq (node v l r) [] blk [] hl
    simp only [List.nil_append, List.append_nil, List.length_nil] at this
    simp [getBSTAsSortedArray, hb, this]

/-! ### The values of a BST built by insertions -/

theorem pairwise_of_BSTOrdered (t : BSTNode) (h : BSTOrdered t) :
    (traverseBST t).Pairwise (· ≤ ·) := by
  induction t with
  | null => simp [traverseBST]
  | node v l r ihl ihr =>
    obtain ⟨hlx, hxr, hl, hr⟩ := h
    rw [sorted_traverseBST_node]
    exact ⟨ihl hl, ihr hr, hlx, fun b hb => le_of_lt (hxr b hb)⟩

theorem perm_traverseBST_addBSTNode (t : BSTNode) (v : Int) :
    (traverseBST (addBSTNode true t v).2).Perm (v :: traverseBST t) := by
  induction t with
  | null => simp [addBSTNode, traverseBST]
  | node x l r ihl ihr =>
    by_cases h : v ≤ x
    · simp only [addBSTNode, h, if_true, traverseBST]
      exact (List.Perm.append_right _ ihl).trans (by simp)
    · simp only [addBSTNode, h, if_false, traverseBST]
      have : (traverseBST l ++ x :: traverseBST (addBSTNode true r v).2).Perm
          (traverseBST l ++ x :: v :: traverseBST r) :=
        List.Perm.append_left _ (List.Perm.cons _ ihr)
      refine this.trans ?_
      have h2 : (traverseBST l ++ x :: v :: traverseBST r).Perm
          (v :: (traverseBST l ++ x :: traverseBST r)) := by
        have hm := @List.perm_middle Int v (traverseBST l ++ [x]) (traverseBST r)
        simpa using hm
      exact h2

theorem addBSTNodes_spec (vs : List Int) (t : BSTNode) (h : BSTOrdered t) :
    BSTOrdered (addBSTNodes t vs)
      ∧ (traverseBST (addBSTNodes t vs)).Perm (vs ++ traverseBST t) := by
  induction vs generalizing t with
  | nil => exact ⟨h, List.Perm.refl _⟩
  | cons v vs ih =>
    obtain ⟨h1, h2⟩ := ih (addBSTNode true t v).2 (addBSTNode_ordered t v h)
    refine ⟨h1, h2.trans ?_⟩
    have := List.Perm.append_left vs (perm_traverseBST_addBSTNode t v)
    exact this.trans (by simp)

end BSTNode
namespace AVLNode

theorem traverseAVLInto_eq (t : AVLNode) (pre mid post : List Int)
    (h : mid.length = getAVLCount t) :
    traverseAVLInto t (pre ++ mid ++ post) pre.length
      = some (pre ++ traverseAVL t ++ post, pre.length + getAVLCount t) := by
  induction t generalizing pre mid post with
  | null =>
    simp only [getAVLCount, List.length_eq_zero] at h
    subst h
    simp [traverseAVLInto, traverseAVL, getAVLCount]
  | node v l r bf ihl ihr =>
    simp only [getAVLCount] at h
    obtain ⟨m1, rest, hm, h1⟩ : ∃ m1 rest, mid = m1 ++ rest ∧ m1.length = getAVLCount l :=
      ⟨mid.take (getAVLCount l), mid.drop (getAVLCount l), (List.take_append_drop _ _).symm,
        by rw [List.length_take]; omega⟩
    subst hm
    cases rest with
    | nil =>
      simp at h
      omega
    | cons x m2 =>
      have h2 : m2.length = getAVLCount r := by
        simp at h
        omega
      have e1 : pre ++ (m1 ++ x :: m2) ++ post = pre ++ m1 ++ (x :: m2 ++ post) := by simp
      have s1 := ihl pre m1 (x :: m2 ++ post) h1
      rw [traverseAVLInto, e1, s1]
      have hlen : (pre ++ traverseAVL l).length = pre.length + getAVLCount l := by
        rw [List.length_append, getAVLCount_eq_length]
      have e2 : pre ++ traverseAVL l ++ (x :: m2 ++ post)
          = (pre ++ traverseAVL l) ++ x :: (m2 ++ post) := by simp
      have hlt : pre.length + getAVLCount l
          < (pre ++ traverseAVL l ++ (x :: m2 ++ post)).length := by
        simp [← getAVLCount_eq_length]
      simp only [Option.some_bind, hlt, if_true]
      rw [e2, ← hlen, set_at_length]
      have e3 : (pre ++ traverseAVL l) ++ v :: (m2 ++ post)
          = (pre ++ traverseAVL l ++ [v]) ++ m2 ++ post := by simp
      have e4 : (pre ++ traverseAVL l).length + 1 = (pre ++ traverseAVL l ++ [v]).length := by
        simp only [List.length_append, List.length_singleton]
      rw [e3, e4, ihr _ m2 post h2]
      simp [traverseAVL, getAVLCount, ← getAVLCount_eq_length]
      omega

theorem getAVLAsSortedArray_eq (malloc : Nat → Option (List Int)) (t : AVLNode)
    (hm : ∀ n, ∃ blk, malloc n = some blk ∧ blk.length = n) :
    getAVLAsSortedArray malloc t = some (if t = null then none else some (traverseAVL t)) := by
  cases t with
  | null => rfl
  | node v l r bf =>
    obtain ⟨blk, hb, hl⟩ := hm (getAVLCount (node v l r bf))
    have := traverseAVLInto_eq (node v l r bf) [] blk [] hl
    simp only [List.nil_append, List.append_nil, List.length_nil] at this
    simp [getAVLAsSortedArray, hb, this]

/-! ### The values of an AVL tree built by insertions -/

theorem addAVLNode_valid (t : AVLNode) (v : Int) (hb : Balanced t) (ho : StrictlyOrdered t) :
    ∃ b t', addAVLNode true t v = some (b, t') ∧ Balanced t' ∧ StrictlyOrdered t'
      ∧ (∀ x, x ∈ traverseAVL t' ↔ x = v ∨ x ∈ traverseAVL t)
      ∧ (b = true ↔ v ∉ traverseAVL t)
      ∧ getAVLCount t' = getAVLCount t + (if b then 1 else 0) := by
  by_cases hv : v ∈ traverseAVL t
  · have hnone := addAVLLeaf_eq_none_of_mem t v ho hv
    refine ⟨false, t, by simp [addAVLNode, hnone], hb, ho, ?_, by simp [hv], by simp⟩
    intro x
    constructor
    · exact fun h => Or.inr h
    · rintro (rfl | h)
      · exact hv
      · exact h
  · obtain ⟨t1, h1⟩ := addAVLLeaf_isSome_of_not_mem t v hv
    obtain ⟨t', ha, hb', ht⟩ := addAVLNode_of_addAVLLeaf t v t1 hb h1
    have ho1 := strictlyOrdered_addAVLLeaf t v t1 ho h1
    refine ⟨true, t', ha, hb', strictlyOrdered_of_traverse_eq t1 t' ht ho1, ?_, by simp [hv],
      ?_⟩
    · intro x
      rw [ht, traverseAVL_addAVLLeaf t v t1 ho h1, List.mem_orderedInsert]
    · rw [getAVLCount_of_traverse_eq t1 t' ht, getAVLCount_addAVLLeaf t v t1 h1]
      rfl

theorem addAVLNodes_valid (vs : List Int) (t : AVLNode) (hb : Balanced t)
    (ho : StrictlyOrdered t) :
    ∃ t', addAVLNodes t vs = some t' ∧ Balanced t' ∧ StrictlyOrdered t'
      ∧ ∀ x, x ∈ traverseAVL t' ↔ x ∈ vs ∨ x ∈ traverseAVL t := by
  induction vs generalizing t with
  | nil => exact ⟨t, rfl, hb, ho, by simp⟩
  | cons v vs ih =>
    obtain ⟨b, t1, h1, hb1, ho1, hm1, _, _⟩ := addAVLNode_valid t v hb ho
    obtain ⟨t', h2, hb2, ho2, hm2⟩ := ih t1 hb1 ho1
    refine ⟨t', by simp [addAVLNodes, h1, h2], hb2, ho2, ?_⟩
    intro x
    rw [hm2, hm1, List.mem_cons]
    tauto

end AVLNode

/-! ## Sorted arrays -/

/-- C15: for the BST built with `addBSTNode` from the values `vs`, with the allocation of the
array succeeding, `getBSTAsSortedArray` returns `NULL` when the tree is empty and otherwise an
array whose length is `getBSTCount`, that is non-decreasing and is a permutation of `vs`.  For
the AVL tree built with `addAVLNode` from `vs`, `getAVLAsSortedArray` returns a strictly
increasing array that holds exactly the values occurring in `vs`. -/
theorem sorted_array_holds_inserted_values (vs : List Int) (malloc : Nat → Option (List Int))
    (hm : ∀ n, ∃ blk, malloc n = some blk ∧ blk.length = n) :
    (vs = [] → BSTNode.getBSTAsSortedArray malloc (BSTNode.addBSTNodes .null vs) = some none)
    ∧ (vs ≠ [] → ∃ arr,
        BSTNode.getBSTAsSortedArray malloc (BSTNode.addBSTNodes .null vs) = some (some arr)
        ∧ arr.length = (BSTNode.addBSTNodes .null vs).getBSTCount
        ∧ arr.Pairwise (· ≤ ·) ∧ arr.Perm vs)
    ∧ (∃ t, AVLNode.addAVLNodes .null vs = some t
        ∧ (vs = [] → AVLNode.getAVLAsSortedArray malloc t = some none)
        ∧ (vs ≠ [] → ∃ arr, AVLNode.getAVLAsSortedArray malloc t = some (some arr)
            ∧ arr.length = t.getAVLCount
            ∧ arr.Pairwise (· < ·) ∧ ∀ x, x ∈ arr ↔ x ∈ vs)) := by
  obtain ⟨hord, hperm⟩ := BSTNode.addBSTNodes_spec vs .null trivial
  simp only [BSTNode.traverseBST, List.append_nil] at hperm
  refine ⟨?_, ?_, ?_⟩
  · intro h
    subst h
    rfl
  · intro h
    have hne : BSTNode.addBSTNodes .null vs ≠ .null := by
      intro hc
      rw [hc] at hperm
      exact h (List.Perm.nil_eq hperm).symm
    refine ⟨_, by rw [BSTNode.getBSTAsSortedArray_eq malloc _ hm, if_neg hne],
      (BSTNode.getBSTCount_eq_length _).symm, BSTNode.pairwise_of_BSTOrdered _ hord, hperm⟩
  · obtain ⟨t, ht, _, ho, hmem⟩ := AVLNode.addAVLNodes_valid vs .null trivial
      (by simp [AVLNode.StrictlyOrdered, AVLNode.traverseAVL])
    simp only [AVLNode.traverseAVL, List.not_mem_nil, or_false] at hmem
    refine ⟨t, ht, ?_, ?_⟩
    · intro h
      subst h
      simp only [AVLNode.addAVLNodes, Option.some.injEq] at ht
      subst ht
      rfl
    · intro h
      have hne : t ≠ .null := by
        intro hc
        subst hc
        obtain ⟨x, hx⟩ := List.exists_mem_of_ne_nil vs h
        exact absurd ((hmem x).mpr hx) (by simp [AVLNode.traverseAVL])
      exact ⟨_, by rw [AVLNode.getAVLAsSortedArray_eq malloc _ hm, if_neg hne],
        (AVLNode.getAVLCount_eq_length _).symm, ho, hmem⟩

/-- Witness of C15: the values 8, 3, 8 with an allocator that returns zero-filled blocks. -/
theorem sorted_array_holds_inserted_values_witness :
    (∀ n, ∃ blk, (fun k => some (List.replicate k (0 : Int))) n = some blk ∧ blk.length = n)
    ∧ BSTNode.getBSTAsSortedArray (fun k => some (List.replicate k 0))
        (BSTNode.addBSTNodes .null [8, 3, 8]) = some (some [3, 8, 8])
    ∧ ∃ arr, BSTNode.getBSTAsSortedArray (fun k => some (List.replicate k 0))
        (BSTNode.addBSTNodes .null [8, 3, 8]) = some (some arr)
        ∧ arr.length = (BSTNode.addBSTNodes .null [8, 3, 8]).getBSTCount
        ∧ arr.Pairwise (· ≤ ·) ∧ arr.Perm [8, 3, 8] :=
  ⟨fun n => ⟨_, rfl, by simp⟩, by decide,
    (sorted_array_holds_inserted_values [8, 3, 8] (fun k => some (List.replicate k 0))
      (fun n => ⟨_, rfl, by simp⟩)).2.1 (by decide)⟩

namespace BSTNode

/-! ### Counting nodes across requests -/

theorem getBSTCount_addBSTNode (t : BSTNode) (v : Int) :
    getBSTCount (addBSTNode true t v).2 = getBSTCount t + 1 := by
  rw [getBSTCount_eq_length, getBSTCount_eq_length,
    (perm_traverseBST_addBSTNode t v).length_eq]
  rfl

theorem deleteBSTNode_total (t : BSTNode) (v : Int) :
    ∃ b t', deleteBSTNode t v = some (b, t')
      ∧ getBSTCount t' + (if b then 1 else 0) = getBSTCount t := by
  induction t with
  | null => exact ⟨false, null, rfl, rfl⟩
  | node x l r ihl ihr =>
    by_cases hx : x = v
    · subst hx
      obtain ⟨s, hs1, hs2⟩ := deleteBSTRoot_traverse x l r
      refine ⟨true, s, by simp [deleteBSTNode, hs1], ?_⟩
      rw [getBSTCount_eq_length, hs2, getBSTCount_eq_length (node x l r)]
      simp only [traverseBST, List.length_append, List.length_cons, if_true]
      omega
    · by_cases hlt : v < x
      · obtain ⟨b, l', h1, h2⟩ := ihl
        refine ⟨b, node x l' r, by simp [deleteBSTNode, hx, hlt, h1], ?_⟩
        simp only [getBSTCount]
        omega
      · obtain ⟨b, r', h1, h2⟩ := ihr
        refine ⟨b, node x l r', by simp [deleteBSTNode, hx, hlt, h1], ?_⟩
        simp only [getBSTCount]
        omega

theorem tally_count (qs : List BSTRequest) (t : BSTNode) :
    ∃ t' a d, tally t qs = some (t', a, d)
      ∧ getBSTCount t' + d = getBSTCount t + a := by
  induction qs generalizing t with
  | nil => exact ⟨t, 0, 0, rfl, rfl⟩
  | cons q qs ih =>
    cases q with
    | add v =>
      obtain ⟨t', a, d, h1, h2⟩ := ih (addBSTNode true t v).2
      refine ⟨t', a + 1, d, by simp [tally, serve, h1, addBSTNode_fst], ?_⟩
      rw [getBSTCount_addBSTNode] at h2
      omega
    | delete v =>
      obtain ⟨b, t1, hd, hc⟩ := deleteBSTNode_total t v
      obtain ⟨t', a, d, h1, h2⟩ := ih t1
      refine ⟨t', a, d + (if b then 1 else 0), by simp [tally, serve, hd, h1], ?_⟩
      omega

end BSTNode
namespace AVLNode

theorem serve_count (t : AVLNode) (q : AVLRequest) (hc : getAVLCount t < 2 ^ 64) :
    ∃ b t', serve t q = some (b, t')
      ∧ ((∃ r v, q = AVLRequest.add r v)
          → getAVLCount t' = getAVLCount t + (if b then 1 else 0))
      ∧ ((∃ r v, q = AVLRequest.delete r v)
          → getAVLCount t' + (if b then 1 else 0) = getAVLCount t) := by
  cases q with
  | add recursive v =>
    cases h : addAVLLeaf t v with
    | none =>
      have h1 : addAVLNode true t v = some (false, t) := by simp [addAVLNode, h]
      have h2 := addAVLNodeRecursively_duplicate t v h
      refine ⟨false, t, ?_, fun _ => by simp, fun ⟨r, w, e⟩ => by simp at e⟩
      cases recursive
      · exact h1
      · exact h2
    | some t1 =>
      have hc1 := getAVLCount_addAVLLeaf t v t1 h
      obtain ⟨⟨ta, ha, hta⟩, ⟨tr, hr, htr⟩⟩ := add_of_leaf t v t1 (Or.inr hc) h
      cases recursive
      · exact ⟨true, ta, ha, fun _ => by
          rw [getAVLCount_of_traverse_eq t1 ta hta, hc1]; rfl, fun ⟨r, w, e⟩ => by simp at e⟩
      · exact ⟨true, tr, hr, fun _ => by
          rw [getAVLCount_of_traverse_eq t1 tr htr, hc1]; rfl, fun ⟨r, w, e⟩ => by simp at e⟩
  | delete recursive v =>
    obtain ⟨⟨b, t1, t', h1, h2, h3⟩, ⟨b', t1', t'', h1', h2', h3'⟩⟩ :=
      delete_of_loop t v (Or.inr hc)
    have cnt : ∀ (b : Bool) (s : AVLNode), deleteAVLLoop t v = some (b, s) →
        getAVLCount s + (if b then 1 else 0) = getAVLCount t := by
      intro b s hs
      obtain ⟨b0, s0, h0, hf, ht⟩ := deleteAVLLoop_total t v
      rw [hs] at h0
      simp only [Option.some.injEq, Prod.mk.injEq] at h0
      obtain ⟨rfl, rfl⟩ := h0
      cases b with
      | false => simp [hf rfl]
      | true =>
        obtain ⟨l1, l2, e1, e2⟩ := ht rfl
        rw [getAVLCount_eq_length, getAVLCount_eq_length, e1, e2]
        simp
        omega
    cases recursive
    · exact ⟨b, t', h2, fun ⟨r, w, e⟩ => by simp at e, fun _ => by
        rw [getAVLCount_of_traverse_eq t1 t' h3]; exact cnt b t1 h1⟩
    · exact ⟨b', t'', h2', fun ⟨r, w, e⟩ => by simp at e, fun _ => by
        rw [getAVLCount_of_traverse_eq t1' t'' h3']; exact cnt b' t1' h1'⟩

theorem tally_count_avl (qs : List AVLRequest) (t : AVLNode)
    (hc : getAVLCount t + qs.length ≤ 2 ^ 64) :
    ∃ t' a d, tally t qs = some (t', a, d)
      ∧ getAVLCount t' + d = getAVLCount t + a := by
  induction qs generalizing t with
  | nil => exact ⟨t, 0, 0, rfl, rfl⟩
  | cons q qs ih =>
    simp only [List.length_cons] at hc
    obtain ⟨b, t1, hs, hadd, hdel⟩ := serve_count t q (by omega)
    cases q with
    | add r v =>
      have h1 := hadd ⟨r, v, rfl⟩
      obtain ⟨t', a, d, h2, h3⟩ := ih t1 (by rw [h1]; split_ifs <;> omega)
      refine ⟨t', a + (if b then 1 else 0), d, by simp [tally, hs, h2], ?_⟩
      omega
    | delete r v =>
      have h1 := hdel ⟨r, v, rfl⟩
      obtain ⟨t', a, d, h2, h3⟩ := ih t1 (by omega)
      refine ⟨t', a, d + (if b then 1 else 0), by simp [tally, hs, h2], ?_⟩
      omega

end AVLNode

/-! ## Node count across requests -/

/-- C14: serving any list of add and delete requests from the empty tree, with `addBSTNode` and
`deleteBSTNode` on a BST, or with either variant of the AVL operations on an AVL tree (at most
`2^64` requests), the count of the tree left equals the number of adds that returned `true`
minus the number of deletes that returned `true`.  As the list is arbitrary, this holds after
every step of a longer list. -/
theorem count_is_adds_minus_deletes (bs : List BSTNode.BSTRequest)
    (qs : List AVLNode.AVLRequest) (hq : qs.length ≤ 2 ^ 64) :
    (∃ t a d, BSTNode.tally .null bs = some (t, a, d) ∧ t.getBSTCount + d = a)
    ∧ (∃ t a d, AVLNode.tally .null qs = some (t, a, d) ∧ t.getAVLCount + d = a) := by
  obtain ⟨t, a, d, h1, h2⟩ := BSTNode.tally_count bs .null
  obtain ⟨t', a', d', h1', h2'⟩ := AVLNode.tally_count_avl qs .null
    (by simpa [AVLNode.getAVLCount] using hq)
  exact ⟨⟨t, a, d, h1, by simpa [BSTNode.getBSTCount] using h2⟩,
    ⟨t', a', d', h1', by simpa [AVLNode.getAVLCount] using h2'⟩⟩

/-- Witness of C14: add 8, add 8, delete 8, delete 5 on both trees. -/
theorem count_is_adds_minus_deletes_witness :
    BSTNode.tally .null [.add 8, .add 8, .delete 8, .delete 5]
      = some (.node 8 .null .null, 2, 1)
    ∧ (∃ t a d, AVLNode.tally .null [.add false 8, .add true 8, .delete true 8,
        .delete false 5] = some (t, a, d) ∧ t.getAVLCount + d = a) :=
  ⟨by decide,
    (count_is_adds_minus_deletes [.add 8, .add 8, .delete 8, .delete 5]
      [.add false 8, .add true 8, .delete true 8, .delete false 5] (by simp)).2⟩

namespace AVLNode

/-! ### Stored factors do not influence `balance` -/

theorem getAVLHeight_clearFactors (t : AVLNode) :
    getAVLHeight (clearFactors t) = getAVLHeight t := by
  induction t with
  | null => rfl
  | node v l r bf ihl ihr => simp [clearFactors, getAVLHeight, ihl, ihr]

theorem updateBalanceFactors_clearFactors (t : AVLNode) :
    updateBalanceFactors (clearFactors t) = updateBalanceFactors t := by
  induction t with
  | null => rfl
  | node v l r bf ihl ihr =>
    simp [clearFactors, updateBalanceFactors, ihl, ihr, getAVLHeight_clearFactors]

theorem clearFactors_updateBalanceFactors (t : AVLNode) :
    clearFactors (updateBalanceFactors t).1 = clearFactors t := by
  induction t with
  | null => rfl
  | node v l r bf ihl ihr => simp [updateBalanceFactors_node, clearFactors, ihl, ihr]

theorem updateBalanceFactors_congr (a b : AVLNode) (h : clearFactors a = clearFactors b) :
    updateBalanceFactors a = updateBalanceFactors b := by
  rw [← updateBalanceFactors_clearFactors a, h, updateBalanceFactors_clearFactors]

end AVLNode

/-! ## Iterative against recursive insertion in the AVL tree -/

theorem intercalate_go_append (s p q : String) (l : List String) :
    String.intercalate.go (p ++ q) s l = p ++ String.intercalate.go q s l := by
  induction l generalizing q with
  | nil => rfl
  | cons a l ih =>
    simp only [String.intercalate.go]
    rw [String.append_assoc, String.append_assoc, ih, String.append_assoc]

theorem intercalate_cons_cons (s a b : String) (l : List String) :
    s.intercalate (a :: b :: l) = a ++ (s ++ s.intercalate (b :: l)) := by
  simp only [String.intercalate, String.intercalate.go]
  rw [String.append_assoc, intercalate_go_append, intercalate_go_append]

theorem foldl_pieces_append_last (init : List Int) (last : Int) (acc : String) :
    init.foldl (fun str x => str ++ (formatInt x ++ " | ")) acc ++ formatInt last
      = acc ++ " | ".intercalate ((init ++ [last]).map formatInt) := by
  induction init generalizing acc with
  | nil => simp [String.intercalate, String.intercalate.go]
  | cons x init ih =>
    rw [List.foldl_cons, ih]
    cases init with
    | nil =>
      simp only [List.nil_append, List.map_cons, List.map_nil, List.cons_append]
      rw [intercalate_cons_cons, String.append_assoc, String.append_assoc]
    | cons y init =>
      simp only [List.cons_append, List.map_cons]
      rw [intercalate_cons_cons (" | ") (formatInt x), String.append_assoc, String.append_assoc]

theorem length_foldl_pieces_ge (todo : List Int) (acc : String) :
    acc.length ≤ (todo.foldl (fun str x => str ++ (formatInt x ++ " | ")) acc).length := by
  induction todo generalizing acc with
  | nil => exact le_refl _
  | cons x todo ih =>
    rw [List.foldl_cons]
    refine le_trans ?_ (ih _)
    rw [String.length_append]
    omega

theorem renderLoop_eq (numChars : Nat) (todo : List Int) :
    ∀ (done rest : List Int) (str : String), str.length + 1 ≤ numChars →
      renderLoop numChars (done ++ todo ++ rest) todo.length done.length str
        = if (todo.foldl (fun str x => str ++ (formatInt x ++ " | ")) str).length + 1 ≤ numChars
          then some (todo.foldl (fun str x => str ++ (formatInt x ++ " | ")) str) else none := by
  induction todo with
  | nil => intro done rest str h; simp [renderLoop, h]
  | cons x todo ih =>
    intro done rest str h
    have hx : (done ++ x :: todo ++ rest)[done.length]? = some x := by
      rw [List.append_assoc, List.getElem?_append_right (le_refl _)]
      simp
    have ih1 := ih (done ++ [x]) rest (str ++ (formatInt x ++ " | "))
    rw [List.append_assoc done [x] todo, List.singleton_append, List.length_append,
      List.length_singleton] at ih1
    rw [List.length_cons, renderLoop, hx, List.foldl_cons]
    simp only [appendText]
    by_cases hfit : str.length + (formatInt x ++ " | ").length + 1 ≤ numChars
    · rw [if_pos hfit]
      simp only [Option.some_bind, Option.bind_eq_bind]
      exact ih1 (by rw [String.length_append]; exact hfit)
    · rw [if_neg hfit]
      have := length_foldl_pieces_ge todo (str ++ (formatInt x ++ " | "))
      rw [String.length_append] at this
      rw [if_neg (by omega)]
      rfl

theorem renderSorted_eq (numChars : Nat) (init : List Int) (last : Int) :
    renderSorted numChars (init ++ [last]).length (init ++ [last])
      = if (joinedText (init ++ [last])).length + 1 ≤ numChars
        then some (joinedText (init ++ [last])) else none := by
  have hlen : (init ++ [last]).length - 1 = init.length := by simp
  have hlast : (init ++ [last])[init.length]? = some last := by
    rw [List.getElem?_append_right (le_refl _)]
    simp
  have hjoin := foldl_pieces_append_last init last "< "
  have hge := length_foldl_pieces_ge init "< "
  have e2 : ("< " : String).length = 2 := rfl
  have e3 : ("" : String) ++ "< " = "< " := rfl
  have e4 : ("" : String).length = 0 := rfl
  have e5 : (" >" : String).length = 2 := rfl
  have htext : joinedText (init ++ [last])
      = init.foldl (fun str x => str ++ (formatInt x ++ " | ")) "< "
          ++ (formatInt last ++ " >") := by
    rw [joinedText, ← hjoin, String.append_assoc]
  have hloop := renderLoop_eq numChars init [] [last] "< "
  simp only [List.nil_append, List.length_nil] at hloop
  rw [htext, renderSorted, hlen, hlast]
  simp only [appendText, e2, e3, e4]
  rw [e2] at hge hloop
  simp only [String.length_append, e5] at *
  by_cases h0 : 0 + 2 + 1 ≤ numChars
  · rw [if_pos h0]
    simp only [Option.some_bind, Option.bind_eq_bind]
    rw [hloop (by omega)]
    by_cases h1 : (init.foldl (fun str x => str ++ (formatInt x ++ " | ")) "< ").length + 1
        ≤ numChars
    · rw [if_pos h1]
      simp only [Option.some_bind, Option.bind_eq_bind]
    · rw [if_neg h1, if_neg (by omega)]
      rfl
  · rw [if_neg h0, if_neg (by omega)]
    rfl

namespace BSTNode

/-! ### The text of a BST -/

theorem bstToStr_eq (malloc : Nat → Option (List Int))
    (hm : ∀ n, ∃ blk, malloc n = some blk ∧ blk.length = n) (t : BSTNode) (ht : t ≠ null) :
    bstToStr malloc true t
      = if (joinedText (traverseBST t)).length + 1
            ≤ getBSTCount t * getMaxNumberOfDigitsNeeded (((minBST t (some 0)).2).getD 0)
                (((maxBST t (some 0)).2).getD 0) + 3 * (getBSTCount t - 1) + 5
        then some (some (joinedText (traverseBST t))) else none := by
  cases t with
  | null => exact absurd rfl ht
  | node v l r =>
    obtain ⟨blk, hb, hl⟩ := hm (getBSTCount (node v l r))
    have hinto := traverseBSTInto_eq (node v l r) [] blk [] hl
    simp only [List.nil_append, List.append_nil, List.length_nil] at hinto
    have hne : traverseBST (node v l r) ≠ [] := by simp [traverseBST]
    obtain ⟨init, last, hv⟩ : ∃ init last, traverseBST (node v l r) = init ++ [last] :=
      ⟨_, _, (List.dropLast_append_getLast hne).symm⟩
    have hr := renderSorted_eq
      (getBSTCount (node v l r) * getMaxNumberOfDigitsNeeded
          (((minBST (node v l r) (some 0)).2).getD 0)
          (((maxBST (node v l r) (some 0)).2).getD 0)
        + 3 * (getBSTCount (node v l r) - 1) + 5) init last
    rw [← hv, ← getBSTCount_eq_length] at hr
    simp only [bstToStr, hb, hinto, Option.some_bind, Option.bind_eq_bind, if_true, hr]
    split_ifs <;> rfl

end BSTNode

namespace AVLNode

/-! ### The text of an AVL tree -/

theorem avlTreeToStr_eq (malloc : Nat → Option (List Int))
    (hm : ∀ n, ∃ blk, malloc n = some blk ∧ blk.length = n) (t : AVLNode) (ht : t ≠ null) :
    avlTreeToStr malloc true t
      = if (joinedText (traverseAVL t)).length + 1
            ≤ getAVLCount t * getMaxNumberOfDigitsNeeded (((minAVL t (some 0)).2).getD 0)
                (((maxAVL t (some 0)).2).getD 0) + 3 * (getAVLCount t - 1) + 5
        then some (some (joinedText (traverseAVL t))) else none := by
  cases t with
  | null => exact absurd rfl ht
  | node v l r bf =>
    obtain ⟨blk, hb, hl⟩ := hm (getAVLCount (node v l r bf))
    have hinto := traverseAVLInto_eq (node v l r bf) [] blk [] hl
    simp only [List.nil_append, List.append_nil, List.length_nil] at hinto
    have hne : traverseAVL (node v l r bf) ≠ [] := by simp [traverseAVL]
    obtain ⟨init, last, hv⟩ : ∃ init last, traverseAVL (node v l r bf) = init ++ [last] :=
      ⟨_, _, (List.dropLast_append_getLast hne).symm⟩
    have hr := renderSorted_eq
      (getAVLCount (node v l r bf) * getMaxNumberOfDigitsNeeded
          (((minAVL (node v l r bf) (some 0)).2).getD 0)
          (((maxAVL (node v l r bf) (some 0)).2).getD 0)
        + 3 * (getAVLCount (node v l r bf) - 1) + 5) init last
    rw [← hv, ← getAVLCount_eq_length] at hr
    simp only [avlTreeToStr, hb, hinto, Option.some_bind, Option.bind_eq_bind, if_true, hr]
    split_ifs <;> rfl

end AVLNode

/-! ## The text of a tree -/

/-- C17 (code defect).  `bstToStr` and `avlTreeToStr` render the empty tree as `"< >"` and the
trees of the repository's test as the claim says, but not every non-empty tree: the buffer is
sized from `getMaxNumberOfDigitsNeeded`, which returns the length of the text of the greatest
value in both branches of its conditional.  For the tree holding `0` and `-1` it answers `1`, the
buffer has `10` chars, and the text `"< -1 | 0 >"` with its terminator needs `11`: the last
`sprintf` writes outside the buffer. -/
theorem toStr_overflows_when_least_value_is_longer :
    BSTNode.bstToStr zeroBlocks true .null = some (some "< >") ∧
    AVLNode.avlTreeToStr zeroBlocks true .null = some (some "< >") ∧
    BSTNode.bstToStr zeroBlocks true (BSTNode.addBSTNodes .null [8]) = some (some "< 8 >") ∧
    BSTNode.bstToStr zeroBlocks true (BSTNode.addBSTNodes .null [8, 3, 5, 1, 7, 9, 2, 6, 8, 5])
      = some (some "< 1 | 2 | 3 | 5 | 5 | 6 | 7 | 8 | 8 | 9 >") ∧
    (AVLNode.addAVLNodes .null [8, 3, 5, 1, 7, 9, 2, 6, 8, 5]).map
        (AVLNode.avlTreeToStr zeroBlocks true)
      = some (some (some "< 1 | 2 | 3 | 5 | 6 | 7 | 8 | 9 >")) ∧
    BSTNode.addBSTNodes .null [0, -1] = .node 0 (.node (-1) .null .null) .null ∧
    AVLNode.addAVLNodes .null [0, -1] = some (.node 0 (.node (-1) .null .null 0) .null (-1)) ∧
    getMaxNumberOfDigitsNeeded (-1) 0 = 1 ∧
    BSTNode.bstToStr zeroBlocks true (.node 0 (.node (-1) .null .null) .null) = none ∧
    AVLNode.avlTreeToStr zeroBlocks true (.node 0 (.node (-1) .null .null 0) .null (-1)) = none := by
  decide

namespace Level

/-! ### Writing into an array -/

theorem writeAt_append {α : Type} (A C : List α) (x y : α) :
    writeAt (A ++ x :: C) A.length y = some (A ++ y :: C) := by
  simp [writeAt]

theorem writeAt_append_of_eq {α : Type} (A C : List α) (x y : α) (i : Nat) (hi : i = A.length) :
    writeAt (A ++ x :: C) i y = some (A ++ y :: C) := by
  subst hi; exact writeAt_append A C x y

theorem lookup_append_of_eq {α : Type} (A C : List α) (x : α) (i : Nat) (hi : i = A.length) :
    (A ++ x :: C)[i]? = some x := by
  subst hi
  rw [List.getElem?_append_right (le_refl _)]
  simp

/-! ### Rows and their children -/

theorem childrenRow_append {α : Type} (children : α → Option (α × α)) (null : α)
    (xs ys : List α) :
    childrenRow children null (xs ++ ys)
      = childrenRow children null xs ++ childrenRow children null ys := by
  induction xs with
  | nil => rfl
  | cons x xs ih => simp [childrenRow, ih]

theorem length_childrenRow {α : Type} (children : α → Option (α × α)) (null : α)
    (xs : List α) : (childrenRow children null xs).length = 2 * xs.length := by
  induction xs with
  | nil => rfl
  | cons x xs ih => simp [childrenRow, ih]; omega

theorem follow_append {α : Type} (children : α → Option (α × α)) (null : α)
    (bs : List Bool) (b : Bool) (n : α) :
    follow children null (bs ++ [b]) n = childOf children null b (follow children null bs n) := by
  induction bs generalizing n with
  | nil => rfl
  | cons c bs ih => simp [follow, ih]

theorem childrenRow_map_range {α : Type} (children : α → Option (α × α)) (null : α)
    (f : Nat → α) (n : Nat) :
    childrenRow children null ((List.range n).map f)
      = (List.range (2 * n)).map fun j => childOf children null (decide (j % 2 = 1)) (f (j / 2)) := by
  induction n with
  | zero => rfl
  | succ n ih =>
    have e : 2 * (n + 1) = 2 * n + 1 + 1 := by ring
    rw [List.range_succ, List.map_append, childrenRow_append, ih, e, List.range_succ,
      List.range_succ]
    have h1 : (2 * n) % 2 = 0 := by omega
    have h2 : (2 * n + 1) % 2 = 1 := by omega
    have h3 : (2 * n) / 2 = n := by omega
    have h4 : (2 * n + 1) / 2 = n := by omega
    simp [childrenRow, h1, h2, h3, h4]

theorem childrenRow_levelRow {α : Type} (children : α → Option (α × α)) (null : α) (root : α)
    (level : Nat) :
    childrenRow children null (levelRow children null root level)
      = levelRow children null root (level + 1) := by
  unfold levelRow
  rw [childrenRow_map_range, pow_succ, Nat.mul_comm]
  apply List.map_congr_left
  intro j _
  simp [binaryExpansion, follow_append]

theorem levelRow_zero {α : Type} (children : α → Option (α × α)) (null : α) (root : α) :
    levelRow children null root 0 = [root] := by
  simp [levelRow, binaryExpansion, follow]

theorem length_levelRow {α : Type} (children : α → Option (α × α)) (null : α) (root : α)
    (level : Nat) : (levelRow children null root level).length = 2 ^ level := by
  simp [levelRow]

theorem lookup_levelRow {α : Type} (children : α → Option (α × α)) (null : α) (root : α)
    (level j : Nat) (hj : j < 2 ^ level) :
    (levelRow children null root level)[j]?
      = some (follow children null (binaryExpansion level j) root) := by
  simp [levelRow, hj]

end Level

namespace Level

/-! ### The loop over the previous row -/

theorem replicate_two_mul_succ_add {α : Type} (null : α) (n extra : Nat) :
    List.replicate (2 * (n + 1) + extra) null
      = null :: null :: List.replicate (2 * n + extra) null := by
  have e : 2 * (n + 1) + extra = (2 * n + extra) + 1 + 1 := by ring
  rw [e, List.replicate_succ, List.replicate_succ]

theorem childrenRow_snoc {α : Type} (children : α → Option (α × α)) (null : α)
    (xs : List α) (p : α) :
    childrenRow children null (xs ++ [p])
      = childrenRow children null xs
          ++ [childOf children null false p, childOf children null true p] := by
  rw [childrenRow_append]; rfl

theorem prefeedLoop_eq {α : Type} (children : α → Option (α × α)) (null : α)
    (todo : List α) :
    ∀ (done : List α) (extra : Nat),
      prefeedLoop children (done ++ todo) todo.length done.length (2 * done.length)
          (childrenRow children null done ++ List.replicate (2 * todo.length + extra) null)
        = some (childrenRow children null (done ++ todo) ++ List.replicate extra null) := by
  induction todo with
  | nil => intro done extra; simp [prefeedLoop]
  | cons p rest ih =>
    intro done extra
    have ih1 := ih (done ++ [p]) extra
    rw [List.append_assoc, List.singleton_append, List.length_append, List.length_singleton,
      childrenRow_snoc] at ih1
    have e2 : 2 * (done.length + 1) = 2 * done.length + 2 := by ring
    rw [e2] at ih1
    rw [List.length_cons, prefeedLoop, lookup_append_of_eq done rest p done.length rfl,
      replicate_two_mul_succ_add]
    cases hc : children p with
    | none =>
      have hl : childOf children null false p = null := by simp [childOf, hc]
      have hr : childOf children null true p = null := by simp [childOf, hc]
      rw [hl, hr] at ih1
      simp only [List.append_assoc, List.cons_append, List.nil_append] at ih1
      simp only [hc]
      exact ih1
    | some lr =>
      obtain ⟨l, r⟩ := lr
      have hl : childOf children null false p = l := by simp [childOf, hc]
      have hr : childOf children null true p = r := by simp [childOf, hc]
      rw [hl, hr] at ih1
      simp only [List.append_assoc, List.cons_append, List.nil_append] at ih1
      have w1 := writeAt_append_of_eq (childrenRow children null done)
        (null :: List.replicate (2 * rest.length + extra) null) null l (2 * done.length)
        (length_childrenRow children null done).symm
      have w2 := writeAt_append_of_eq (childrenRow children null done ++ [l])
        (List.replicate (2 * rest.length + extra) null) null r (2 * done.length + 1)
        (by simp [length_childrenRow])
      simp only [List.append_assoc, List.cons_append, List.nil_append] at w2
      simp only [hc, w1, w2, Option.some_bind, Option.bind_eq_bind]
      exact ih1

end Level

namespace Level

/-! ### The expansion in place -/

theorem spread_append {α : Type} (null : α) (offset : Nat) (xs ys : List α) :
    spread null offset (xs ++ ys) = spread null offset xs ++ spread null offset ys := by
  induction xs with
  | nil => rfl
  | cons x xs ih => simp [spread, ih]

theorem length_spread {α : Type} (null : α) (offset : Nat) (hpos : 0 < offset) (xs : List α) :
    (spread null offset xs).length = offset * xs.length := by
  induction xs with
  | nil => rfl
  | cons x xs ih =>
    simp only [spread, List.length_cons, List.length_append, List.length_replicate, ih,
      Nat.mul_succ]
    omega

theorem spread_one {α : Type} (null : α) (xs : List α) : spread null 1 xs = xs := by
  induction xs with
  | nil => rfl
  | cons x xs ih => simp [spread, ih]

theorem replicate_two_mul_pred {α : Type} (null : α) (h : Nat) (hpos : 0 < h) :
    List.replicate (2 * h - 1) null
      = List.replicate (h - 1) null ++ null :: List.replicate (h - 1) null := by
  have e : 2 * h - 1 = (h - 1) + ((h - 1) + 1) := by omega
  rw [e, List.replicate_add, List.replicate_succ]

theorem expandLoop_eq {α : Type} (children : α → Option (α × α)) (null : α)
    (hnull : ∀ n, children n = none → n = null) (h : Nat) (hpos : 0 < h) (todo : List α) :
    ∀ done : List α,
      expandLoop children (2 * h) h todo.length done.length
          (spread null h (childrenRow children null done) ++ spread null (2 * h) todo)
        = some (spread null h (childrenRow children null (done ++ todo))) := by
  induction todo with
  | nil => intro done; simp [expandLoop, spread]
  | cons n rest ih =>
    intro done
    have ih1 := ih (done ++ [n])
    have hA : (spread null h (childrenRow children null done)).length
        = done.length * (2 * h) := by
      rw [length_spread null h hpos, length_childrenRow]; ring
    rw [List.append_assoc, List.singleton_append, List.length_append, List.length_singleton,
      childrenRow_append, spread_append] at ih1
    simp only [childrenRow, spread, List.append_nil, List.append_assoc, List.cons_append,
      List.nil_append] at ih1
    rw [List.length_cons, expandLoop]
    simp only [spread]
    rw [lookup_append_of_eq _ _ n _ hA.symm, replicate_two_mul_pred null h hpos]
    cases hc : children n with
    | none =>
      have hn : n = null := hnull n hc
      have hl : childOf children null false n = null := by simp [childOf, hc]
      have hr : childOf children null true n = null := by simp [childOf, hc]
      rw [hl, hr] at ih1
      simp only [hc, List.append_assoc, List.cons_append, List.nil_append]
      rw [hn] at ih1 ⊢
      exact ih1
    | some lr =>
      obtain ⟨l, r⟩ := lr
      have hl : childOf children null false n = l := by simp [childOf, hc]
      have hr : childOf children null true n = r := by simp [childOf, hc]
      rw [hl, hr] at ih1
      have w1 := writeAt_append_of_eq (spread null h (childrenRow children null done))
        ((List.replicate (h - 1) null ++ null :: List.replicate (h - 1) null)
          ++ spread null (2 * h) rest) n l (2 * h * done.length)
        (by rw [hA]; ring)
      have w2 := writeAt_append_of_eq
        (spread null h (childrenRow children null done) ++ l :: List.replicate (h - 1) null)
        (List.replicate (h - 1) null ++ spread null (2 * h) rest) null r
        (2 * h * done.length + h)
        (by rw [List.length_append, hA, List.length_cons, List.length_replicate]; 
            have : h - 1 + 1 = h := by omega
            rw [this]; ring)
      simp only [List.append_assoc, List.cons_append, List.nil_append] at w1 w2 ⊢
      simp only [hc, w1, w2, Option.some_bind, Option.bind_eq_bind]
      exact ih1

end Level

namespace Level

/-! ### The level functions on levels up to 30 -/

theorem shiftLeftOne_of_le {n : Nat} (h : n ≤ 30) : shiftLeftOne n = some (2 ^ n) := by
  have : n < 31 := by omega
  simp [shiftLeftOne, this]

theorem shiftLeftOne_of_gt {n : Nat} (h : 30 < n) : shiftLeftOne n = none := by
  have : ¬ n < 31 := by omega
  simp [shiftLeftOne, this]

theorem writeAt_replicate_zero {α : Type} (null root : α) (n : Nat) (hn : 0 < n) :
    writeAt (List.replicate n null) 0 root = some (spread null n [root]) := by
  obtain ⟨m, rfl⟩ : ∃ m, n = m + 1 := ⟨n - 1, by omega⟩
  simp [writeAt, spread, List.replicate_succ]

theorem levelLoop_eq {α : Type} (children : α → Option (α × α)) (null : α)
    (hnull : ∀ n, children n = none → n = null) (root : α) :
    ∀ remaining c : Nat, c + remaining ≤ 30 →
      levelLoop children remaining c (2 ^ c) (2 ^ remaining)
          (spread null (2 ^ remaining) (levelRow children null root c))
        = some (levelRow children null root (c + remaining)) := by
  intro remaining
  induction remaining with
  | zero => intro c _; simp [levelLoop, spread_one]
  | succ r ih =>
    intro c hc
    have hpos : 0 < 2 ^ r := Nat.pos_pow_of_pos _ (by decide)
    have e1 : (2 : Nat) ^ (r + 1) = 2 * 2 ^ r := by rw [pow_succ]; ring
    have e2 : 2 * 2 ^ r / 2 = 2 ^ r := by omega
    have hx := expandLoop_eq children null hnull (2 ^ r) hpos (levelRow children null root c) []
    rw [length_levelRow] at hx
    simp only [List.length_nil, childrenRow, spread, List.nil_append, childrenRow_levelRow] at hx
    rw [levelLoop, e1]
    simp only [e2, hx, Option.some_bind, Option.bind_eq_bind,
      shiftLeftOne_of_le (show c + 1 ≤ 30 by omega)]
    have := ih (c + 1) (by omega)
    rw [this]
    congr 2
    omega

theorem getLevelNodes_eq {α : Type} (children : α → Option (α × α)) (null : α)
    (hnull : ∀ n, children n = none → n = null) (root : α) (height level : Nat)
    (hroot : (children root).isSome) (hh : level < height) (hl : level ≤ 30) :
    getLevelNodes children null true root height level
      = some (some (levelRow children null root level)) := by
  have hpos : 0 < 2 ^ level := Nat.pos_pow_of_pos _ (by decide)
  have hloop := levelLoop_eq children null hnull root level 0 (by omega)
  rw [levelRow_zero] at hloop
  simp only [pow_zero, Nat.zero_add] at hloop
  simp [getLevelNodes, shiftLeftOne_of_le hl, hroot, hh, writeAt_replicate_zero null root _ hpos,
    shiftLeftOne_of_le (show 0 ≤ 30 by omega), hloop]

theorem getLevelNodes_null {α : Type} (children : α → Option (α × α)) (null : α)
    (callocOk : Bool) (root : α) (height level : Nat) (hl : level ≤ 30)
    (h : children root = none ∨ height ≤ level) :
    getLevelNodes children null callocOk root height level = some none := by
  have : ¬ ((children root).isSome = true ∧ level < height) := by
    rintro ⟨h1, h2⟩
    rcases h with h | h
    · simp [h] at h1
    · omega
  simp [getLevelNodes, shiftLeftOne_of_le hl, this]

theorem getLevelNodes_fault {α : Type} (children : α → Option (α × α)) (null : α)
    (callocOk : Bool) (root : α) (height level : Nat) (hl : 30 < level) :
    getLevelNodes children null callocOk root height level = none := by
  simp [getLevelNodes, shiftLeftOne_of_gt hl]

theorem getLevelNodesWithPrefeed_fault {α : Type} (children : α → Option (α × α)) (null : α)
    (callocOk : Bool) (root : α) (height level : Nat) (previousLevelNodes : List α)
    (hl : 30 < level) :
    getLevelNodesWithPrefeed children null callocOk root height level previousLevelNodes
      = none := by
  simp [getLevelNodesWithPrefeed, shiftLeftOne_of_gt hl]

theorem getLevelNodesWithPrefeed_zero {α : Type} (children : α → Option (α × α)) (null : α)
    (root : α) (height : Nat) (previousLevelNodes : List α)
    (hroot : (children root).isSome) (hh : 0 < height) :
    getLevelNodesWithPrefeed children null true root height 0 previousLevelNodes
      = some (some [root]) := by
  simp [getLevelNodesWithPrefeed, shiftLeftOne, hroot, hh, writeAt]

theorem getLevelNodesWithPrefeed_succ {α : Type} (children : α → Option (α × α)) (null : α)
    (root : α) (height level : Nat)
    (hroot : (children root).isSome) (hh : level + 1 < height) (hl : level + 1 ≤ 30) :
    getLevelNodesWithPrefeed children null true root height (level + 1)
        (levelRow children null root level)
      = some (some (levelRow children null root (level + 1))) := by
  have hx := prefeedLoop_eq children null (levelRow children null root level) [] 0
  rw [length_levelRow] at hx
  have e1 : 2 * 2 ^ level + 0 = 2 ^ (level + 1) := by rw [pow_succ]; ring
  simp only [List.length_nil, childrenRow, List.nil_append, childrenRow_levelRow,
    List.replicate_zero, List.append_nil, Nat.mul_zero, e1] at hx
  simp [getLevelNodesWithPrefeed, shiftLeftOne_of_le hl, hroot, hh,
    shiftLeftOne_of_le (show level ≤ 30 by omega), hx]

end Level

namespace BSTNode

/-! ### The level functions of the BST -/

theorem children_eq_none (n : BSTNode) (h : children n = none) : n = null := by
  cases n with
  | null => rfl
  | node v l r => simp [children] at h

theorem children_isSome (n : BSTNode) (h : n ≠ null) : (children n).isSome := by
  cases n with
  | null => exact absurd rfl h
  | node v l r => rfl

theorem getBSTHeight_pos (n : BSTNode) (h : n ≠ null) : 0 < getBSTHeight n := by
  cases n with
  | null => exact absurd rfl h
  | node v l r => simp only [getBSTHeight]; omega

end BSTNode

namespace AVLNode

/-! ### The level functions of the AVL tree -/

theorem children_eq_none_avl (n : AVLNode) (h : children n = none) : n = null := by
  cases n with
  | null => rfl
  | node v l r bf => simp [children] at h

theorem children_isSome_avl (n : AVLNode) (h : n ≠ null) : (children n).isSome := by
  cases n with
  | null => exact absurd rfl h
  | node v l r bf => rfl

theorem getAVLHeight_pos (n : AVLNode) (h : n ≠ null) : 0 < getAVLHeight n := by
  cases n with
  | null => exact absurd rfl h
  | node v l r bf => simp only [getAVLHeight]; omega

end AVLNode

/-! ## Level rows -/

/-- C18, as stated, fails at level 31: for the chain of 32 nodes (height 32) the expression
`1 << 31` is undefined in `int`, and neither function returns a sequence, whatever the previous
row. -/
theorem level_functions_fault_at_level_31 :
    BSTNode.chain32 ≠ .null ∧ BSTNode.chain32.getBSTHeight = 32 ∧
    BSTNode.getBSTLevelNodes true BSTNode.chain32 BSTNode.chain32.getBSTHeight 31 = none ∧
    ∀ previousLevelNodes,
      BSTNode.getBSTLevelNodesWithPrefeed true BSTNode.chain32 BSTNode.chain32.getBSTHeight 31
        previousLevelNodes = none := by
  refine ⟨by decide, by decide, ?_, ?_⟩
  · exact Level.getLevelNodes_fault _ _ _ _ _ _ (by decide)
  · intro p
    exact Level.getLevelNodesWithPrefeed_fault _ _ _ _ _ _ _ (by decide)

/-- C18 (amended: levels up to 30).  For a non-empty tree of height `h`, both level functions
return the one-entry row of the root at level 0, and for every level `L = level + 1` with
`L < h` and `L ≤ 30`, `getBSTLevelNodesWithPrefeed` called with the row that `getBSTLevelNodes`
returns for level `L - 1` returns the same row of `2 ^ L` entries as `getBSTLevelNodes` for
level `L`.  The same holds for the AVL pair.  Allocation succeeds. -/
theorem level_functions_agree (b : BSTNode) (a : AVLNode) (hb : b ≠ .null) (ha : a ≠ .null) :
    (BSTNode.getBSTLevelNodes true b b.getBSTHeight 0 = some (some [b]) ∧
      (∀ prev, BSTNode.getBSTLevelNodesWithPrefeed true b b.getBSTHeight 0 prev
        = some (some [b])) ∧
      ∀ level prev, level + 1 < b.getBSTHeight → level + 1 ≤ 30 →
        BSTNode.getBSTLevelNodes true b b.getBSTHeight level = some (some prev) →
        ∃ row, row.length = 2 ^ (level + 1) ∧
          BSTNode.getBSTLevelNodesWithPrefeed true b b.getBSTHeight (level + 1) prev
            = some (some row) ∧
          BSTNode.getBSTLevelNodes true b b.getBSTHeight (level + 1) = some (some row)) ∧
    (AVLNode.getAVLLevelNodes true a a.getAVLHeight 0 = some (some [a]) ∧
      (∀ prev, AVLNode.getAVLLevelNodesWithPrefeed true a a.getAVLHeight 0 prev
        = some (some [a])) ∧
      ∀ level prev, level + 1 < a.getAVLHeight → level + 1 ≤ 30 →
        AVLNode.getAVLLevelNodes true a a.getAVLHeight level = some (some prev) →
        ∃ row, row.length = 2 ^ (level + 1) ∧
          AVLNode.getAVLLevelNodesWithPrefeed true a a.getAVLHeight (level + 1) prev
            = some (some row) ∧
          AVLNode.getAVLLevelNodes true a a.getAVLHeight (level + 1) = some (some row)) := by
  have hbs := BSTNode.children_isSome b hb
  have has := AVLNode.children_isSome_avl a ha
  have hbh := BSTNode.getBSTHeight_pos b hb
  have hah := AVLNode.getAVLHeight_pos a ha
  refine ⟨⟨?_, ?_, ?_⟩, ⟨?_, ?_, ?_⟩⟩
  · have := Level.getLevelNodes_eq BSTNode.children .null BSTNode.children_eq_none b
      b.getBSTHeight 0 hbs hbh (by omega)
    rw [Level.levelRow_zero] at this
    exact this
  · intro prev
    exact Level.getLevelNodesWithPrefeed_zero BSTNode.children .null b _ prev hbs hbh
  · intro level prev hh hl hp
    have h0 := Level.getLevelNodes_eq BSTNode.children .null BSTNode.children_eq_none b
      b.getBSTHeight level hbs (by omega) (by omega)
    have h1 := Level.getLevelNodes_eq BSTNode.children .null BSTNode.children_eq_none b
      b.getBSTHeight (level + 1) hbs hh hl
    have h2 := Level.getLevelNodesWithPrefeed_succ BSTNode.children .null b
      b.getBSTHeight level hbs hh hl
    have e : prev = Level.levelRow BSTNode.children .null b level := by
      have := hp.symm.trans h0
      simpa using this
    subst e
    exact ⟨_, Level.length_levelRow _ _ _ _, h2, h1⟩
  · have := Level.getLevelNodes_eq AVLNode.children .null AVLNode.children_eq_none_avl a
      a.getAVLHeight 0 has hah (by omega)
    rw [Level.levelRow_zero] at this
    exact this
  · intro prev
    exact Level.getLevelNodesWithPrefeed_zero AVLNode.children .null a _ prev has hah
  · intro level prev hh hl hp
    have h0 := Level.getLevelNodes_eq AVLNode.children .null AVLNode.children_eq_none_avl a
      a.getAVLHeight level has (by omega) (by omega)
    have h1 := Level.getLevelNodes_eq AVLNode.children .null AVLNode.children_eq_none_avl a
      a.getAVLHeight (level + 1) has hh hl
    have h2 := Level.getLevelNodesWithPrefeed_succ AVLNode.children .null a
      a.getAVLHeight level has hh hl
    have e : prev = Level.levelRow AVLNode.children .null a level := by
      have := hp.symm.trans h0
      simpa using this
    subst e
    exact ⟨_, Level.length_levelRow _ _ _ _, h2, h1⟩

/-- Witness of C18 on the BST built from 8, 3, 10, 5, 1, 12, 7, 9, 2, 6 (levels 2 and 3) and on
the AVL tree built from twelve insertions. -/
theorem level_functions_agree_witness :
    BSTNode.levelFixture ≠ .null ∧ AVLNode.fib12 ≠ .null ∧
    BSTNode.levelFixture.getBSTHeight = 5 ∧
    (BSTNode.getBSTLevelNodes true BSTNode.levelFixture 5 2).map
        (Option.map (List.map BSTNode.entryValue))
      = some (some [some 1, some 5, some 9, some 12]) ∧
    ∃ row, row.length = 2 ^ (2 + 1) ∧
      BSTNode.getBSTLevelNodesWithPrefeed true BSTNode.levelFixture
          BSTNode.levelFixture.getBSTHeight (2 + 1)
          (Level.levelRow BSTNode.children .null BSTNode.levelFixture 2) = some (some row) ∧
      BSTNode.getBSTLevelNodes true BSTNode.levelFixture
          BSTNode.levelFixture.getBSTHeight (2 + 1) = some (some row) :=
  ⟨by decide, by decide, by decide, by decide,
    (level_functions_agree BSTNode.levelFixture AVLNode.fib12 (by decide) (by decide)).1.2.2 2
      (Level.levelRow BSTNode.children .null BSTNode.levelFixture 2)
      (by decide) (by decide) (by decide)⟩

/-- C19, as stated, fails at level 31: for the chain of 32 nodes (height 32) level 31 is below
the height, but `1 << 31` is undefined in `int` and no row of `2 ^ 31` entries is returned;
with an absent root the shift is evaluated all the same, before the test of the root. -/
theorem getBSTLevelNodes_faults_at_level_31 :
    BSTNode.chain32 ≠ .null ∧ 31 < BSTNode.chain32.getBSTHeight ∧
    BSTNode.getBSTLevelNodes true BSTNode.chain32 BSTNode.chain32.getBSTHeight 31 = none ∧
    BSTNode.getBSTLevelNodes true .null 0 31 = none := by
  refine ⟨by decide, by decide, ?_, ?_⟩
  · exact Level.getLevelNodes_fault _ _ _ _ _ _ (by decide)
  · exact Level.getLevelNodes_fault _ _ _ _ _ _ (by decide)

/-- C19 (amended: levels up to 30).  For a level `L ≤ 30`: when the root is present and
`L < height`, `getBSTLevelNodes` returns a row of exactly `2 ^ L` entries whose entry `j` is the
node reached from the root by the `L`-bit binary expansion of `j`, most significant bit first
(`NULL` once the path has left the tree); when the root is absent or `L ≥ height` it returns
`NULL`.  Allocation succeeds in the first case. -/
theorem getBSTLevelNodes_follows_binary_expansion (root : BSTNode) (height level : Nat)
    (hl : level ≤ 30) :
    (root ≠ .null → level < height →
      ∃ row, BSTNode.getBSTLevelNodes true root height level = some (some row) ∧
        row.length = 2 ^ level ∧
        ∀ j, j < 2 ^ level →
          row[j]? = some (Level.follow BSTNode.children .null
            (Level.binaryExpansion level j) root)) ∧
    (root = .null ∨ height ≤ level →
      ∀ callocOk, BSTNode.getBSTLevelNodes callocOk root height level = some none) := by
  constructor
  · intro hr hh
    refine ⟨_, Level.getLevelNodes_eq BSTNode.children .null BSTNode.children_eq_none root
      height level (BSTNode.children_isSome root hr) hh hl, Level.length_levelRow _ _ _ _, ?_⟩
    intro j hj
    exact Level.lookup_levelRow _ _ _ _ _ hj
  · intro h callocOk
    refine Level.getLevelNodes_null _ _ _ _ _ _ hl ?_
    rcases h with h | h
    · left; subst h; rfl
    · right; exact h

/-- Witness of C19: the five rows of the BST built from 8, 3, 10, 5, 1, 12, 7, 9, 2, 6, and the
general statement at its level 3. -/
theorem getBSTLevelNodes_follows_binary_expansion_witness :
    (3 : Nat) ≤ 30 ∧
    (List.range 5).map (fun L =>
        (BSTNode.getBSTLevelNodes true BSTNode.levelFixture 5 L).map
          (Option.map (List.map BSTNode.entryValue)))
      = [some (some [some 8]),
         some (some [some 3, some 10]),
         some (some [some 1, some 5, some 9, some 12]),
         some (some [none, some 2, none, some 7, none, none, none, none]),
         some (some [none, none, none, none, none, none, some 6, none,
                     none, none, none, none, none, none, none, none])] ∧
    BSTNode.getBSTLevelNodes true BSTNode.levelFixture 5 5 = some none ∧
    ((BSTNode.levelFixture ≠ .null → 3 < 5 →
      ∃ row, BSTNode.getBSTLevelNodes true BSTNode.levelFixture 5 3 = some (some row) ∧
        row.length = 2 ^ 3 ∧
        ∀ j, j < 2 ^ 3 →
          row[j]? = some (Level.follow BSTNode.children .null
            (Level.binaryExpansion 3 j) BSTNode.levelFixture)) ∧
    (BSTNode.levelFixture = .null ∨ 5 ≤ 3 →
      ∀ callocOk, BSTNode.getBSTLevelNodes callocOk BSTNode.levelFixture 5 3 = some none)) :=
  ⟨by decide, by decide, by decide,
    getBSTLevelNodes_follows_binary_expansion BSTNode.levelFixture 5 3 (by decide)⟩

namespace BSTNode

/-! ### Insertion when the allocation fails -/

theorem addBSTNode_malloc_fails (t : BSTNode) (v : Int) : addBSTNode false t v = (false, t) := by
  induction t with
  | null => rfl
  | node x l r ihl ihr =>
    by_cases h : v ≤ x
    · simp [addBSTNode, h, ihl]
    · simp [addBSTNode, h, ihr]

theorem addBSTNodeRecursively_malloc_fails (t : BSTNode) (v : Int) :
    addBSTNodeRecursively false t v = none := by
  induction t with
  | null => rfl
  | node x l r ihl ihr =>
    by_cases h : v ≤ x
    · simp [addBSTNodeRecursively, h, ihl]
    · simp [addBSTNodeRecursively, h, ihr]

end BSTNode

namespace AVLNode

theorem addAVLNode_malloc_fails (t : AVLNode) (v : Int) :
    addAVLNode false t v = some (false, t) := by
  unfold addAVLNode
  cases addAVLLeaf t v <;> simp

theorem addAVLNodeRecursively_malloc_fails (t : AVLNode) (v : Int) (h : v ∉ traverseAVL t) :
    addAVLNodeRecursively false t v = none := by
  induction t with
  | null => rfl
  | node x l r bf ihl ihr =>
    simp only [traverseAVL, List.mem_append, List.mem_cons, not_or] at h
    obtain ⟨h1, h2, h3⟩ := h
    by_cases hlt : v < x
    · simp [addAVLNodeRecursively, h2, hlt, ihl h1]
    · simp [addAVLNodeRecursively, h2, hlt, ihr h3]

end AVLNode

/-! ## The greatest rendered length -/

/-- C23 (code defect).  `getMaxNumberOfDigitsNeeded` returns the rendered length of `maxValue`
whatever `minValue` is, as both branches of its conditional yield `numMax`.  For `(-1, 0)` it
returns 1 although `-1` renders to two characters; the other three inputs of the tests give 1, 3
and 7. -/
theorem getMaxNumberOfDigitsNeeded_ignores_minValue :
    (∀ minValue maxValue : Int,
      getMaxNumberOfDigitsNeeded minValue maxValue = (formatInt maxValue).length) ∧
    getMaxNumberOfDigitsNeeded (-1) 0 = 1 ∧
    (formatInt (-1)).length = 2 ∧ (formatInt 0).length = 1 ∧
    getMaxNumberOfDigitsNeeded 0 0 = 1 ∧
    getMaxNumberOfDigitsNeeded (-1) 100 = 3 ∧
    getMaxNumberOfDigitsNeeded (-1225) 1254575 = 7 := by
  refine ⟨?_, by decide, by decide, by decide, by decide, by decide, by decide⟩
  intro lo hi
  simp [getMaxNumberOfDigitsNeeded]

/-! ## Insertion when the allocation fails -/

/-- C24 (code defect).  When `malloc` fails, `addBSTNode` and `addAVLNode` return `false` and
leave the tree as it was, but the recursive variants write the fields of the new node through the
unchecked result of `malloc`: `addBSTNodeRecursively` faults on every tree, and
`addAVLNodeRecursively` on every tree that does not hold the value, the empty tree included. -/
theorem recursive_add_faults_when_malloc_fails :
    BSTNode.addBSTNodeRecursively false .null 5 = none ∧
    AVLNode.addAVLNodeRecursively false .null 5 = none ∧
    (∀ t v, BSTNode.addBSTNodeRecursively false t v = none) ∧
    (∀ t v, v ∉ AVLNode.traverseAVL t → AVLNode.addAVLNodeRecursively false t v = none) ∧
    (∀ t v, BSTNode.addBSTNode false t v = (false, t)) ∧
    (∀ t v, AVLNode.addAVLNode false t v = some (false, t)) :=
  ⟨rfl, rfl, BSTNode.addBSTNodeRecursively_malloc_fails,
    AVLNode.addAVLNodeRecursively_malloc_fails, BSTNode.addBSTNode_malloc_fails,
    AVLNode.addAVLNode_malloc_fails⟩

/-! ## Padding and spacing of a printed level -/

theorem wrapSize_small (x : Nat) (hx : x < 18446744073709551616) : wrapSize (x : Int) = x := by
  unfold wrapSize
  have : ((x : Int) % 18446744073709551616) = (x : Int) := by
    apply Int.emod_eq_of_lt <;> omega
  rw [this]
  simp

theorem two_pow_le_of_le_thirty (k : Nat) (hk : k ≤ 30) : 2 ^ k ≤ 1073741824 := by
  have := Nat.pow_le_pow_right (show 0 < 2 by decide) hk
  simpa using this

theorem setPaddingAndInterSpacingAux_eq (padding0 spacing0 : Nat) :
    ∀ d fuel height level : Nat, level + d + 1 = height → height ≤ 30 → d ≤ fuel →
      setPaddingAndInterSpacingAux fuel height level (some padding0) (some spacing0)
        = some (true, some (2 ^ d - 1), some (if level = 0 then 0 else 2 ^ (d + 1) - 1)) := by
  intro d
  induction d with
  | zero =>
    intro fuel height level hh _ _
    have h1 : level < height := by omega
    have h2 : level = height - 1 := by omega
    unfold setPaddingAndInterSpacingAux
    have h3 : ¬ height = 0 := by omega
    by_cases h0 : level = 0
    · simp [h1, ← h2, h0, h3]
    · simp [h1, ← h2, h0]
  | succ d ih =>
    intro fuel height level hh h30 hf
    obtain ⟨f, rfl⟩ : ∃ f, fuel = f + 1 := ⟨fuel - 1, by omega⟩
    have h1 : level < height := by omega
    have h2 : ¬ level = height - 1 := by omega
    have hrec := ih f height (level + 1) (by omega) h30 (by omega)
    simp only [Nat.succ_ne_zero, if_false] at hrec
    have hA : 1 ≤ 2 ^ d := Nat.one_le_two_pow
    have hB : 1 ≤ 2 ^ level := Nat.one_le_two_pow
    have eA1 : 2 ^ (d + 1) = 2 * 2 ^ d := by rw [pow_succ]; ring
    have eA2 : 2 ^ (d + 1 + 1) = 4 * 2 ^ d := by rw [pow_succ, pow_succ]; ring
    have eH : 2 ^ height = 4 * 2 ^ d * 2 ^ level := by
      rw [← hh, pow_add, pow_add, pow_add]; ring
    have bH := two_pow_le_of_le_thirty height h30
    have bd := two_pow_le_of_le_thirty d (by omega)
    have bl := two_pow_le_of_le_thirty level (by omega)
    have e1 : wrapSize (((2 ^ (d + 1) - 1 : Nat) : Int) - 1) = 2 * 2 ^ d - 2 := by
      have : (((2 ^ (d + 1) - 1 : Nat) : Int) - 1) = ((2 * 2 ^ d - 2 : Nat) : Int) := by
        rw [eA1]; omega
      rw [this, wrapSize_small _ (by omega)]
    have e2 : wrapSize (1 + ((2 * 2 ^ d - 2 : Nat) : Int) / 2) = 2 ^ d := by
      have : (1 + ((2 * 2 ^ d - 2 : Nat) : Int) / 2) = ((2 ^ d : Nat) : Int) := by
        omega
      rw [this, wrapSize_small _ (by omega)]
    have e3 : wrapSize (((2 ^ d - 1 : Nat) : Int) + ((2 ^ d : Nat) : Int)) = 2 * 2 ^ d - 1 := by
      have : (((2 ^ d - 1 : Nat) : Int) + ((2 ^ d : Nat) : Int))
          = ((2 * 2 ^ d - 1 : Nat) : Int) := by omega
      rw [this, wrapSize_small _ (by omega)]
    unfold setPaddingAndInterSpacingAux
    simp only [h1, h2, Option.isSome_some, and_self, if_true, if_false, hrec]
    by_cases h0 : level = 0
    · simp only [h0, if_true]
      rw [e1, e2, e3, eA1]
    · simp only [h0, if_false]
      rw [e1, e2, e3, Level.shiftLeftOne_of_le h30,
        Level.shiftLeftOne_of_le (show level ≤ 30 by omega)]
      simp only [Option.some_bind, Option.bind_eq_bind]
      obtain ⟨a, ha⟩ : ∃ a, 2 ^ d = a + 1 := ⟨2 ^ d - 1, by omega⟩
      have hB2 : 2 ≤ 2 ^ level := by
        have := Nat.pow_le_pow_right (show 0 < 2 by decide) (show 1 ≤ level by omega)
        simpa using this
      obtain ⟨b, hb⟩ : ∃ b, 2 ^ level = b + 2 := ⟨2 ^ level - 2, by omega⟩
      have hc : 4 * (a + 1) * (b + 2) = 4 * (a * b) + 8 * a + 4 * b + 8 := by ring
      have hc2 : (b + 1) * (4 * a + 3) = 4 * (a * b) + 4 * a + 3 * b + 3 := by ring
      rw [eH, ha, hb] at bH
      rw [ha] at bd
      rw [hb] at bl
      rw [hc] at bH
      have e4 : wrapSize (((2 ^ height : Nat) : Int) - ((2 ^ level : Nat) : Int))
          = 4 * (a * b) + 8 * a + 3 * b + 6 := by
        have : (((2 ^ height : Nat) : Int) - ((2 ^ level : Nat) : Int))
            = ((4 * (a * b) + 8 * a + 3 * b + 6 : Nat) : Int) := by
          rw [eH, ha, hb, hc]; omega
        rw [this, wrapSize_small _ (by omega)]
      have e5 : wrapSize (2 * ((2 * 2 ^ d - 1 : Nat) : Int) + 1) = 4 * a + 3 := by
        have : (2 * ((2 * 2 ^ d - 1 : Nat) : Int) + 1) = ((4 * a + 3 : Nat) : Int) := by
          rw [ha]; omega
        rw [this, wrapSize_small _ (by omega)]
      have e6 : wrapSize (((4 * (a * b) + 8 * a + 3 * b + 6 : Nat) : Int)
          - ((4 * a + 3 : Nat) : Int)) = (b + 1) * (4 * a + 3) := by
        have : (((4 * (a * b) + 8 * a + 3 * b + 6 : Nat) : Int) - ((4 * a + 3 : Nat) : Int))
            = (((b + 1) * (4 * a + 3) : Nat) : Int) := by
          rw [hc2]; omega
        rw [this, wrapSize_small _ (by rw [hc2]; omega)]
      rw [e4, e5, e6, eA1, eA2, hb, ha]
      have e7 : b + 2 - 1 = b + 1 := by omega
      rw [e7, Nat.mul_div_cancel_left _ (by omega : 0 < b + 1)]
      congr 3

/-- C25: for `height ≤ 30` (so that `1 << height` is defined in `int`) and `level < height`,
with valid out-parameters, `setPaddingAndInterSpacing` succeeds with
`padding = 2 ^ (height - 1 - level) - 1` and `spacing = 2 ^ (height - level) - 1` (0 at level 0).
Hence the row spans `2 ^ height - 1` blocks, the deepest level has padding 0 and spacing 1 iff it
is not level 0, and the padding of a shallower level is that of the next level plus
`(spacing - 1) / 2 + 1` for the spacing of the next level. -/
theorem setPaddingAndInterSpacing_closed_form (height level padding0 spacing0 : Nat)
    (hh : height ≤ 30) (hl : level < height) :
    ∃ padding spacing,
      setPaddingAndInterSpacing height level (some padding0) (some spacing0)
        = some (true, some padding, some spacing)
      ∧ padding = 2 ^ (height - 1 - level) - 1
      ∧ spacing = (if level = 0 then 0 else 2 ^ (height - level) - 1)
      ∧ 2 * padding + (2 ^ level - 1) * spacing + 2 ^ level = 2 ^ height - 1
      ∧ (level = height - 1 → padding = 0 ∧ (spacing = 1 ↔ 0 < level))
      ∧ (level + 1 < height → ∃ padding1 spacing1,
          setPaddingAndInterSpacing height (level + 1) (some padding0) (some spacing0)
            = some (true, some padding1, some spacing1)
          ∧ padding = padding1 + (spacing1 - 1) / 2 + 1) := by
  obtain ⟨d, hd⟩ : ∃ d, level + d + 1 = height := ⟨height - 1 - level, by omega⟩
  have main := setPaddingAndInterSpacingAux_eq padding0 spacing0 d height height level hd hh
    (by omega)
  have e1 : height - 1 - level = d := by omega
  have e2 : height - level = d + 1 := by omega
  have hA : 1 ≤ 2 ^ d := Nat.one_le_two_pow
  have hB : 1 ≤ 2 ^ level := Nat.one_le_two_pow
  have eA1 : 2 ^ (d + 1) = 2 * 2 ^ d := by rw [pow_succ]; ring
  have eH : 2 ^ height = 2 * 2 ^ d * 2 ^ level := by
    rw [← hd, pow_add, pow_add]; ring
  refine ⟨2 ^ d - 1, if level = 0 then 0 else 2 ^ (d + 1) - 1, main, by rw [e1], by rw [e2],
    ?_, ?_, ?_⟩
  · by_cases h0 : level = 0
    · subst h0
      simp only [if_true, pow_zero] at *
      omega
    · simp only [h0, if_false]
      obtain ⟨a, ha⟩ : ∃ a, 2 ^ d = a + 1 := ⟨2 ^ d - 1, by omega⟩
      obtain ⟨b, hb⟩ : ∃ b, 2 ^ level = b + 1 := ⟨2 ^ level - 1, by omega⟩
      rw [eH, eA1, ha, hb]
      have hc : 2 * (a + 1) * (b + 1) = 2 * (a * b) + 2 * a + 2 * b + 2 := by ring
      have hc2 : (b + 1 - 1) * (2 * (a + 1) - 1) = 2 * (a * b) + b := by
        have : b + 1 - 1 = b := by omega
        have h2 : 2 * (a + 1) - 1 = 2 * a + 1 := by omega
        rw [this, h2]; ring
      rw [hc, hc2]
      omega
  · intro hlast
    have hd0 : d = 0 := by omega
    subst hd0
    refine ⟨by simp, ?_⟩
    by_cases h0 : level = 0
    · simp [h0]
    · simp [h0]; omega
  · intro hnext
    obtain ⟨d1, rfl⟩ : ∃ d1, d = d1 + 1 := ⟨d - 1, by omega⟩
    have next := setPaddingAndInterSpacingAux_eq padding0 spacing0 d1 height height (level + 1)
      (by omega) hh (by omega)
    simp only [Nat.succ_ne_zero, if_false] at next
    refine ⟨_, _, next, ?_⟩
    have hA1 : 1 ≤ 2 ^ d1 := Nat.one_le_two_pow
    have e : 2 ^ (d1 + 1) = 2 * 2 ^ d1 := by rw [pow_succ]; ring
    rw [e]
    omega

/-- Witness of C25: height 5, level 2 gives padding 3 and spacing 7. -/
theorem setPaddingAndInterSpacing_closed_form_witness :
    (5 : Nat) ≤ 30 ∧ (2 : Nat) < 5 ∧
    setPaddingAndInterSpacing 5 2 (some 0) (some 0) = some (true, some 3, some 7) ∧
    ∃ padding spacing,
      setPaddingAndInterSpacing 5 2 (some 0) (some 0) = some (true, some padding, some spacing)
      ∧ padding = 2 ^ (5 - 1 - 2) - 1
      ∧ spacing = (if 2 = 0 then 0 else 2 ^ (5 - 2) - 1)
      ∧ 2 * padding + (2 ^ 2 - 1) * spacing + 2 ^ 2 = 2 ^ 5 - 1
      ∧ (2 = 5 - 1 → padding = 0 ∧ (spacing = 1 ↔ 0 < 2))
      ∧ (2 + 1 < 5 → ∃ padding1 spacing1,
          setPaddingAndInterSpacing 5 (2 + 1) (some 0) (some 0)
            = some (true, some padding1, some spacing1)
          ∧ padding = padding1 + (spacing1 - 1) / 2 + 1) :=
  ⟨by decide, by decide, by decide,
    setPaddingAndInterSpacing_closed_form 5 2 0 0 (by decide) (by decide)⟩

namespace BSTNode

/-! ### Inserting a list and deleting it again -/

theorem traverseBST_eq_nil (t : BSTNode) (h : traverseBST t = []) : t = null := by
  cases t with
  | null => rfl
  | node v l r => simp [traverseBST] at h

theorem tally_adds (vs : List Int) (qs : List BSTRequest) (t : BSTNode) :
    tally t (vs.map BSTRequest.add ++ qs)
      = (tally (addBSTNodes t vs) qs).map fun fin => (fin.1, fin.2.1 + vs.length, fin.2.2) := by
  induction vs generalizing t with
  | nil =>
    simp only [List.map_nil, List.nil_append, addBSTNodes, List.length_nil, Nat.add_zero]
    cases tally t qs <;> rfl
  | cons v vs ih =>
    simp only [List.map_cons, List.cons_append, tally, serve, Option.some_bind, addBSTNodes,
      ih, addBSTNode_fst, if_true, List.length_cons, Option.map_map]
    rw [List.append_eq, ih, Option.map_map]
    congr 1

theorem tally_deletes (ws : List Int) :
    ∀ t : BSTNode, (traverseBST t).Pairwise (· ≤ ·) → (traverseBST t).Perm ws →
      tally t (ws.map BSTRequest.delete) = some (null, 0, ws.length) := by
  induction ws with
  | nil =>
    intro t _ hp
    have := traverseBST_eq_nil t (List.Perm.eq_nil hp)
    subst this
    rfl
  | cons v ws ih =>
    intro t hs hp
    have hv : v ∈ traverseBST t := hp.symm.subset (List.mem_cons_self v ws)
    obtain ⟨t', hd, ⟨l1, l2, e1, e2⟩, _⟩ := deleteBSTNode_present t v hs hv
    have hs' : (traverseBST t').Pairwise (· ≤ ·) := by
      rw [e2]
      rw [e1] at hs
      exact hs.sublist
        (List.Sublist.append (List.Sublist.refl l1) (List.sublist_cons_self v l2))
    have hp' : (traverseBST t').Perm ws := by
      rw [e2]
      rw [e1] at hp
      exact List.Perm.cons_inv ((List.perm_middle).symm.trans hp)
    simp only [List.map_cons, tally, serve, hd, Option.some_bind, Option.bind_eq_bind,
      ih t' hs' hp', Option.map_some', if_true, List.length_cons]

end BSTNode

namespace AVLNode

/-! ### Inserting a list of distinct values and deleting it again -/

theorem traverseAVL_eq_nil (t : AVLNode) (h : traverseAVL t = []) : t = null := by
  cases t with
  | null => rfl
  | node v l r bf => simp [traverseAVL] at h

theorem serve_add_absent (t : AVLNode) (r : Bool) (v : Int) (ho : StrictlyOrdered t)
    (hc : getAVLCount t < 2 ^ 64) (hv : v ∉ traverseAVL t) :
    ∃ t', serve t (AVLRequest.add r v) = some (true, t')
      ∧ traverseAVL t' = List.orderedInsert (· ≤ ·) v (traverseAVL t) := by
  obtain ⟨t1, h1⟩ := addAVLLeaf_isSome_of_not_mem t v hv
  have ht := traverseAVL_addAVLLeaf t v t1 ho h1
  obtain ⟨⟨t', ha, hta⟩, ⟨t'', hb, htb⟩⟩ := add_of_leaf t v t1 (Or.inr hc) h1
  cases r
  · exact ⟨t', ha, hta.trans ht⟩
  · exact ⟨t'', hb, htb.trans ht⟩

theorem serve_delete_present (t : AVLNode) (r : Bool) (v : Int) (ho : StrictlyOrdered t)
    (hc : getAVLCount t < 2 ^ 64) (hv : v ∈ traverseAVL t) :
    ∃ t', serve t (AVLRequest.delete r v) = some (true, t')
      ∧ ∃ l1 l2, traverseAVL t = l1 ++ v :: l2 ∧ traverseAVL t' = l1 ++ l2 := by
  obtain ⟨⟨t', ha, hta⟩, ⟨t'', hb, htb⟩⟩ := deleteAVLNode_present t v ho (Or.inr hc) hv
  cases r
  · exact ⟨t', ha, hta⟩
  · exact ⟨t'', hb, htb⟩

theorem tally_adds_avl (r : Bool) (qs : List AVLRequest) (vs : List Int) :
    ∀ t : AVLNode, StrictlyOrdered t → getAVLCount t + vs.length ≤ 2 ^ 64 → vs.Nodup →
      (∀ v ∈ vs, v ∉ traverseAVL t) →
      ∃ t', tally t (vs.map (AVLRequest.add r) ++ qs)
          = (tally t' qs).map (fun fin => (fin.1, fin.2.1 + vs.length, fin.2.2))
        ∧ StrictlyOrdered t' ∧ (traverseAVL t').Perm (vs ++ traverseAVL t) := by
  induction vs with
  | nil =>
    intro t ho _ _ _
    refine ⟨t, ?_, ho, List.Perm.refl _⟩
    simp only [List.map_nil, List.nil_append, List.length_nil, Nat.add_zero]
    cases tally t qs <;> rfl
  | cons v vs ih =>
    intro t ho hc hn hd
    simp only [List.length_cons] at hc
    obtain ⟨t1, hs, ht⟩ := serve_add_absent t r v ho (by omega) (hd v (List.mem_cons_self _ _))
    have hp1 : (traverseAVL t1).Perm (v :: traverseAVL t) := by
      rw [ht]; exact List.perm_orderedInsert _ _ _
    have ho1 : StrictlyOrdered t1 := by
      unfold StrictlyOrdered
      rw [ht]
      exact pairwise_lt_orderedInsert v _ ho (hd v (List.mem_cons_self _ _))
    have hc1 : getAVLCount t1 = getAVLCount t + 1 := by
      rw [getAVLCount_eq_length, getAVLCount_eq_length, hp1.length_eq, List.length_cons]
    obtain ⟨hv, hn'⟩ := List.nodup_cons.mp hn
    obtain ⟨t', h1, h2, h3⟩ := ih t1 ho1 (by omega) hn' (by
      intro x hx hmem
      rcases List.mem_cons.mp (hp1.subset hmem) with e | e
      · exact hv (e ▸ hx)
      · exact hd x (List.mem_cons_of_mem _ hx) e)
    refine ⟨t', ?_, h2, ?_⟩
    · simp only [List.map_cons, List.cons_append, tally, hs, Option.some_bind,
        Option.bind_eq_bind, if_true, List.length_cons]
      rw [List.append_eq, h1, Option.map_map]
      congr 1
    · refine h3.trans ?_
      refine (List.Perm.append_left vs hp1).trans ?_
      exact (@List.perm_middle Int v vs (traverseAVL t)).trans (by simp)

theorem tally_deletes_avl (r : Bool) (ws : List Int) :
    ∀ t : AVLNode, StrictlyOrdered t → getAVLCount t < 2 ^ 64 → (traverseAVL t).Perm ws →
      tally t (ws.map (AVLRequest.delete r)) = some (null, 0, ws.length) := by
  induction ws with
  | nil =>
    intro t _ _ hp
    have := traverseAVL_eq_nil t (List.Perm.eq_nil hp)
    subst this
    rfl
  | cons v ws ih =>
    intro t ho hc hp
    have hv : v ∈ traverseAVL t := hp.symm.subset (List.mem_cons_self v ws)
    obtain ⟨t', hd, l1, l2, e1, e2⟩ := serve_delete_present t r v ho hc hv
    have ho' : StrictlyOrdered t' := by
      unfold StrictlyOrdered at ho ⊢
      rw [e2]
      rw [e1] at ho
      exact ho.sublist
        (List.Sublist.append (List.Sublist.refl l1) (List.sublist_cons_self v l2))
    have hp' : (traverseAVL t').Perm ws := by
      rw [e2]
      rw [e1] at hp
      exact List.Perm.cons_inv ((List.perm_middle).symm.trans hp)
    have hc' : getAVLCount t' < 2 ^ 64 := by
      rw [getAVLCount_eq_length] at hc ⊢
      rw [e2]
      rw [e1] at hc
      simp only [List.length_append, List.length_cons] at hc ⊢
      omega
    simp only [List.map_cons, tally, hd, Option.some_bind, Option.bind_eq_bind,
      ih t' ho' hc' hp', Option.map_some', if_true, List.length_cons]

end AVLNode

/-! ## Inserting values and deleting them again -/

/-- C21: inserting the values `vs` into the empty BST with `addBSTNode` and then deleting each of
them with `deleteBSTNode`, in insertion order, makes every delete return `true` (the tally of
deletes that returned `true` is the number of deletes) and leaves the empty tree.  The same holds
for the AVL tree with the iterative pair (`recursive = false`) and with the recursive pair
(`recursive = true`), for pairwise distinct values `ws` (fewer than `2^64` of them). -/
theorem insert_then_delete_leaves_empty_tree (vs ws : List Int) (recursive : Bool)
    (hn : ws.Nodup) (hc : ws.length < 2 ^ 64) :
    BSTNode.tally .null (vs.map BSTNode.BSTRequest.add ++ vs.map BSTNode.BSTRequest.delete)
      = some (.null, vs.length, vs.length)
    ∧ AVLNode.tally .null
        (ws.map (AVLNode.AVLRequest.add recursive) ++ ws.map (AVLNode.AVLRequest.delete recursive))
      = some (.null, ws.length, ws.length) := by
  constructor
  · obtain ⟨hord, hperm⟩ := BSTNode.addBSTNodes_spec vs .null trivial
    simp only [BSTNode.traverseBST, List.append_nil] at hperm
    rw [BSTNode.tally_adds,
      BSTNode.tally_deletes vs _ (BSTNode.pairwise_of_BSTOrdered _ hord) hperm]
    simp
  · obtain ⟨t', h1, h2, h3⟩ := AVLNode.tally_adds_avl recursive
      (ws.map (AVLNode.AVLRequest.delete recursive)) ws .null List.Pairwise.nil
      (by simp only [AVLNode.getAVLCount]; omega) hn (by intro v _; simp [AVLNode.traverseAVL])
    simp only [AVLNode.traverseAVL, List.append_nil] at h3
    have hc' : AVLNode.getAVLCount t' < 2 ^ 64 := by
      rw [AVLNode.getAVLCount_eq_length, h3.length_eq]; exact hc
    rw [h1, AVLNode.tally_deletes_avl recursive ws t' h2 hc' h3]
    simp

/-- Witness of C21: the values 8, 3, 8, 5 on the BST and 8, 3, 13, 1, 5 on the AVL tree, with
the recursive pair. -/
theorem insert_then_delete_leaves_empty_tree_witness :
    ([8, 3, 13, 1, 5] : List Int).Nodup ∧ ([8, 3, 13, 1, 5] : List Int).length < 2 ^ 64 ∧
    BSTNode.tally .null (([8, 3, 8, 5] : List Int).map BSTNode.BSTRequest.add
        ++ ([8, 3, 8, 5] : List Int).map BSTNode.BSTRequest.delete)
      = some (.null, ([8, 3, 8, 5] : List Int).length, ([8, 3, 8, 5] : List Int).length)
    ∧ AVLNode.tally .null
        (([8, 3, 13, 1, 5] : List Int).map (AVLNode.AVLRequest.add true)
          ++ ([8, 3, 13, 1, 5] : List Int).map (AVLNode.AVLRequest.delete true))
      = some (.null, ([8, 3, 13, 1, 5] : List Int).length,
          ([8, 3, 13, 1, 5] : List Int).length) :=
  ⟨by decide, by decide,
    insert_then_delete_leaves_empty_tree [8, 3, 8, 5] [8, 3, 13, 1, 5] true (by decide)
      (by decide)⟩

namespace AVLNode

/-! ### What `updateBalanceFactors` stores and reports -/

theorem diffsFit_of_height (t : AVLNode) (h : getAVLHeight t < 2 ^ 31) : DiffsFit t := by
  induction t with
  | null => trivial
  | node v l r bf ihl ihr =>
    rw [getAVLHeight_node] at h
    exact ⟨by omega, ihl (by omega), ihr (by omega)⟩

theorem diffsFit_of_balanced (t : AVLNode) (h : Balanced t) : DiffsFit t := by
  induction t with
  | null => trivial
  | node v l r bf ihl ihr =>
    obtain ⟨h1, h2, h3⟩ := h
    exact ⟨by omega, ihl h2, ihr h3⟩

theorem diffsFit_of_oneImbalance (t : AVLNode) (h : OneImbalance t) : DiffsFit t := by
  induction t with
  | null => exact absurd h id
  | node v l r bf ihl ihr =>
    rcases h with ⟨h1, h2, h3⟩ | ⟨h1, h2, h3⟩ | ⟨h1, h2, h3⟩
    · exact ⟨by omega, diffsFit_of_balanced l h2, diffsFit_of_balanced r h3⟩
    · exact ⟨by omega, ihl h2, diffsFit_of_balanced r h3⟩
    · exact ⟨by omega, diffsFit_of_balanced l h2, ihr h3⟩

theorem wrapInt32_of_natAbs_lt (d : Int) (h : d.natAbs < 2 ^ 31) : wrapInt32 d = d :=
  wrapInt32_small d (by omega) (by omega)

theorem factorsAccurate_of_diffsFit (t : AVLNode) (h : DiffsFit t) :
    FactorsAccurate (updateBalanceFactors t).1 := by
  induction t with
  | null => trivial
  | node v l r bf ihl ihr =>
    obtain ⟨h1, h2, h3⟩ := h
    rw [updateBalanceFactors_node]
    refine ⟨?_, ihl h2, ihr h3⟩
    rw [getAVLHeight_updateBalanceFactors, getAVLHeight_updateBalanceFactors]
    exact wrapInt32_of_natAbs_lt _ h1

theorem snd_eq_none_iff_of_diffsFit (t : AVLNode) (h : DiffsFit t) :
    (updateBalanceFactors t).2 = none ↔ Balanced t := by
  constructor
  · intro hn
    induction t with
    | null => trivial
    | node v l r bf ihl ihr =>
      obtain ⟨d1, d2, d3⟩ := h
      obtain ⟨h1, h2, h3⟩ := updateBalanceFactors_snd_eq_none_node v bf l r hn
      rw [wrapInt32_of_natAbs_lt _ d1] at h3
      exact ⟨h3, ihl d2 h1, ihr d3 h2⟩
  · exact updateBalanceFactors_snd_of_balanced t

theorem reported_of_diffsFit (t : AVLNode) (h : DiffsFit t) :
    ∀ p, (updateBalanceFactors t).2 = some p →
      ∃ v l r bf, subtreeAt p (updateBalanceFactors t).1 = some (node v l r bf)
        ∧ bf.natAbs > 1 ∧ Balanced l ∧ Balanced r := by
  induction t with
  | null => intro p hp; simp [updateBalanceFactors] at hp
  | node v l r bf ihl ihr =>
    intro p hp
    obtain ⟨_, hl, hr⟩ := h
    rw [updateBalanceFactors_node]
    cases hL : (updateBalanceFactors l).2 with
    | some q =>
      rw [updateBalanceFactors_snd_left v bf l r q hL] at hp
      cases hp
      exact ihl hl q hL
    | none =>
      cases hR : (updateBalanceFactors r).2 with
      | some q =>
        rw [updateBalanceFactors_snd_right v bf l r q hL hR] at hp
        cases hp
        exact ihr hr q hR
      | none =>
        rw [updateBalanceFactors_snd_root v bf l r hL hR] at hp
        split_ifs at hp with hd
        cases hp
        refine ⟨_, _, _, _, rfl, hd, ?_, ?_⟩
        · exact (balanced_updateBalanceFactors l).mpr
            ((snd_eq_none_iff_of_diffsFit l hl).mp hL)
        · exact (balanced_updateBalanceFactors r).mpr
            ((snd_eq_none_iff_of_diffsFit r hr).mp hR)

theorem updateBalanceFactors_prefers_left (v bf : Int) (l r : AVLNode)
    (hl : DiffsFit l) (hnl : ¬ Balanced l) :
    ∃ p, (updateBalanceFactors (node v l r bf)).2 = some (Side.left :: p) := by
  cases hL : (updateBalanceFactors l).2 with
  | some q => exact ⟨q, updateBalanceFactors_snd_left v bf l r q hL⟩
  | none => exact absurd ((snd_eq_none_iff_of_diffsFit l hl).mp hL) hnl

/-! ### Chains -/

theorem getAVLHeight_rightChainFrom (n : Nat) : ∀ v, getAVLHeight (rightChainFrom v n) = n := by
  induction n with
  | zero => intro v; rfl
  | succ n ih =>
    intro v
    rw [rightChainFrom, getAVLHeight_node, ih, getAVLHeight_null]
    omega

theorem getAVLCount_rightChainFrom (n : Nat) : ∀ v, getAVLCount (rightChainFrom v n) = n := by
  induction n with
  | zero => intro v; rfl
  | succ n ih =>
    intro v
    simp only [rightChainFrom, getAVLCount, ih]
    omega

theorem mem_traverseAVL_rightChainFrom (n : Nat) :
    ∀ v x, x ∈ traverseAVL (rightChainFrom v n) → v ≤ x ∧ x < v + n := by
  induction n with
  | zero => intro v x hx; simp [rightChainFrom, traverseAVL] at hx
  | succ n ih =>
    intro v x hx
    simp only [rightChainFrom, traverseAVL, List.nil_append, List.mem_cons] at hx
    rcases hx with e | e
    · subst e
      push_cast
      omega
    · have := ih (v + 1) x e
      push_cast
      omega

theorem strictlyOrdered_rightChainFrom (n : Nat) :
    ∀ v, StrictlyOrdered (rightChainFrom v n) := by
  induction n with
  | zero => intro v; exact List.Pairwise.nil
  | succ n ih =>
    intro v
    rw [rightChainFrom, strictlyOrdered_node]
    refine ⟨List.Pairwise.nil, ih (v + 1), ?_, ?_⟩
    · intro a ha
      simp [traverseAVL] at ha
    · intro b hb
      have := mem_traverseAVL_rightChainFrom n (v + 1) b hb
      omega

theorem diffsFit_rightChainFrom (n : Nat) (hn : n ≤ 2 ^ 31) :
    ∀ v, DiffsFit (rightChainFrom v n) := by
  induction n with
  | zero => intro v; trivial
  | succ n ih =>
    intro v
    rw [rightChainFrom]
    refine ⟨?_, trivial, ih (by omega) (v + 1)⟩
    rw [getAVLHeight_rightChainFrom, getAVLHeight_null]
    norm_num at hn ⊢
    omega

theorem getAVLHeight_longChain : getAVLHeight longChain = 2147483648 :=
  getAVLHeight_rightChainFrom _ _

/-- The tree `deepTree` is one that a program can hold: fewer than `2^32` nodes, every value an
`int`, the values in strictly increasing order; and inside its right subtree every difference of
heights fits the `int` field. -/
theorem deepTree_representable :
    getAVLCount deepTree = 2147483652
    ∧ (∀ x ∈ traverseAVL deepTree, -2147483648 ≤ x ∧ x ≤ 2147483647)
    ∧ StrictlyOrdered deepTree
    ∧ DiffsFit
        (node (-2147483644) (node (-2147483645) (leaf (-2147483646)) null 0) longChain 0) := by
  have hmem : ∀ x ∈ traverseAVL longChain, -2147483643 ≤ x ∧ x < 5 := by
    intro x hx
    have := mem_traverseAVL_rightChainFrom _ _ x hx
    norm_num at this
    exact this
  have hcount : getAVLCount longChain = 2147483648 := getAVLCount_rightChainFrom _ _
  have hn : ∀ v l r bf, getAVLCount (node v l r bf) = 1 + getAVLCount l + getAVLCount r :=
    fun _ _ _ _ => rfl
  have h0 : getAVLCount null = 0 := rfl
  have hnil : ∀ x, x ∈ traverseAVL null ↔ False := fun x => by simp [traverseAVL]
  have hsmall : ∀ x ∈ traverseAVL (node (-2147483645) (leaf (-2147483646)) null 0),
      x = -2147483646 ∨ x = -2147483645 := by
    intro x hx
    simpa [leaf, traverseAVL] using hx
  refine ⟨?_, ?_, ?_, ?_⟩
  · rw [deepTree, leaf]
    simp only [hn, h0, hcount]
  · intro x hx
    rw [deepTree, mem_traverseAVL_node, mem_traverseAVL_node, hnil] at hx
    rcases hx with e | e | e | e | e
    · exact absurd e id
    · omega
    · rcases hsmall x e with e' | e' <;> omega
    · omega
    · have := hmem x e
      omega
  · rw [deepTree, strictlyOrdered_node, strictlyOrdered_node]
    refine ⟨List.Pairwise.nil, ⟨by decide, strictlyOrdered_rightChainFrom _ _, ?_, ?_⟩, ?_, ?_⟩
    · intro a ha
      rcases hsmall a ha with e | e <;> omega
    · intro b hb
      have := hmem b hb
      omega
    · intro a ha
      exact absurd ((hnil a).mp ha) id
    · intro b hb
      rw [mem_traverseAVL_node] at hb
      rcases hb with e | e | e
      · rcases hsmall b e with e' | e' <;> omega
      · omega
      · have := hmem b e
        omega
  · refine ⟨?_, ⟨by decide, ⟨by decide, trivial, trivial⟩, trivial⟩,
      diffsFit_rightChainFrom _ (le_refl _) _⟩
    rw [getAVLHeight_longChain]
    have : getAVLHeight (node (-2147483645) (leaf (-2147483646)) null 0) = 2 := by decide
    rw [this]
    decide

end AVLNode

/-! ## The pass that recomputes the balance factors -/

/-- C29, as stated for every tree, fails on `deepTree`, a search tree of `2^31 + 4` nodes whose
values are all `int` values: the root has no left child and a right subtree of height
`2^31 + 1`, the difference `2^31 + 1` does not fit the `int` field, and the root receives
`-(2^31 - 1)`.  No other difference in the tree reaches `2^31` in absolute value, so `abs` is
defined at every node. -/
theorem updateBalanceFactors_wraps_on_deepTree :
    AVLNode.getAVLCount AVLNode.deepTree = 2147483652
    ∧ (∀ x ∈ AVLNode.traverseAVL AVLNode.deepTree, -2147483648 ≤ x ∧ x ≤ 2147483647)
    ∧ AVLNode.StrictlyOrdered AVLNode.deepTree
    ∧ AVLNode.DiffsFit (.node (-2147483644)
        (.node (-2147483645) (AVLNode.leaf (-2147483646)) .null 0) AVLNode.longChain 0)
    ∧ (∃ v l r, (AVLNode.updateBalanceFactors AVLNode.deepTree).1 = .node v l r (-2147483647)
      ∧ (AVLNode.getAVLHeight r : Int) - (AVLNode.getAVLHeight l : Int) = 2147483649)
    ∧ ¬ AVLNode.FactorsAccurate (AVLNode.updateBalanceFactors AVLNode.deepTree).1 := by
  obtain ⟨r1, r2, r3, r4⟩ := AVLNode.deepTree_representable
  have hN : AVLNode.getAVLHeight (AVLNode.node (-2147483644)
      (.node (-2147483645) (AVLNode.leaf (-2147483646)) .null 0) AVLNode.longChain 0)
      = 2147483649 := by
    rw [AVLNode.getAVLHeight_node, AVLNode.getAVLHeight_longChain]
    have : AVLNode.getAVLHeight (.node (-2147483645) (AVLNode.leaf (-2147483646)) .null 0)
        = 2 := by decide
    rw [this]
    decide
  have hw : wrapInt32 (((2147483649 : Nat) : Int) - ((0 : Nat) : Int)) = -2147483647 := by
    decide
  have e : (AVLNode.updateBalanceFactors AVLNode.deepTree).1
      = .node (-2147483648) (AVLNode.updateBalanceFactors .null).1
          (AVLNode.updateBalanceFactors (.node (-2147483644)
            (.node (-2147483645) (AVLNode.leaf (-2147483646)) .null 0)
            AVLNode.longChain 0)).1 (-2147483647) := by
    rw [AVLNode.deepTree, AVLNode.updateBalanceFactors_node, hN, AVLNode.getAVLHeight_null, hw]
  have hd : (AVLNode.getAVLHeight (AVLNode.updateBalanceFactors (.node (-2147483644)
        (.node (-2147483645) (AVLNode.leaf (-2147483646)) .null 0)
        AVLNode.longChain 0)).1 : Int)
      - (AVLNode.getAVLHeight (AVLNode.updateBalanceFactors .null).1 : Int)
      = 2147483649 := by
    rw [AVLNode.getAVLHeight_updateBalanceFactors, AVLNode.getAVLHeight_updateBalanceFactors,
      hN, AVLNode.getAVLHeight_null]
    omega
  refine ⟨r1, r2, r3, r4, ⟨_, _, _, e, hd⟩, ?_⟩
  rw [e]
  intro hf
  have := hf.1
  rw [hd] at this
  omega

/-- C29 (amended: trees of height below `2^31`).  `updateBalanceFactors` stores in every node
the difference `height(right) - height(left)` and changes nothing else; it reports no node
exactly when every node is balanced; a reported node has a stored factor above one in absolute
value and balanced subtrees, so that none of its proper descendants is imbalanced; and when
both subtrees of the root hold an imbalanced node the report comes from the left subtree (as
the tree is arbitrary, this holds for the call on every node). -/
theorem updateBalanceFactors_stores_and_reports (t : AVLNode)
    (h : AVLNode.getAVLHeight t < 2 ^ 31) :
    AVLNode.FactorsAccurate (AVLNode.updateBalanceFactors t).1
    ∧ AVLNode.clearFactors (AVLNode.updateBalanceFactors t).1 = AVLNode.clearFactors t
    ∧ ((AVLNode.updateBalanceFactors t).2 = none ↔ AVLNode.Balanced t)
    ∧ (∀ p, (AVLNode.updateBalanceFactors t).2 = some p →
        ∃ v l r bf, AVLNode.subtreeAt p (AVLNode.updateBalanceFactors t).1 = some (.node v l r bf)
          ∧ bf.natAbs > 1 ∧ AVLNode.Balanced l ∧ AVLNode.Balanced r)
    ∧ (∀ v l r bf, t = .node v l r bf → ¬ AVLNode.Balanced l → ¬ AVLNode.Balanced r →
        ∃ p, (AVLNode.updateBalanceFactors t).2 = some (Side.left :: p)) := by
  have hd := AVLNode.diffsFit_of_height t h
  refine ⟨AVLNode.factorsAccurate_of_diffsFit t hd,
    AVLNode.clearFactors_updateBalanceFactors t,
    AVLNode.snd_eq_none_iff_of_diffsFit t hd,
    AVLNode.reported_of_diffsFit t hd, ?_⟩
  intro v l r bf e hl _
  subst e
  exact AVLNode.updateBalanceFactors_prefers_left v bf l r hd.2.1 hl

/-- Witness of C29: the node holding 5 over the chains 3, 2, 1 and 8, 9, 10; both subtrees are
imbalanced and the node holding 3 is reported. -/
theorem updateBalanceFactors_stores_and_reports_witness :
    AVLNode.getAVLHeight (.node 5 (.node 3 (.node 2 (AVLNode.leaf 1) .null 0) .null 0)
      (.node 8 .null (.node 9 .null (AVLNode.leaf 10) 0) 0) 0) < 2 ^ 31
    ∧ (AVLNode.updateBalanceFactors (.node 5 (.node 3 (.node 2 (AVLNode.leaf 1) .null 0) .null 0)
      (.node 8 .null (.node 9 .null (AVLNode.leaf 10) 0) 0) 0)).2 = some [Side.left]
    ∧ AVLNode.FactorsAccurate (AVLNode.updateBalanceFactors
        (.node 5 (.node 3 (.node 2 (AVLNode.leaf 1) .null 0) .null 0)
          (.node 8 .null (.node 9 .null (AVLNode.leaf 10) 0) 0) 0)).1 :=
  ⟨by decide, by decide,
    (updateBalanceFactors_stores_and_reports
      (.node 5 (.node 3 (.node 2 (AVLNode.leaf 1) .null 0) .null 0)
        (.node 8 .null (.node 9 .null (AVLNode.leaf 10) 0) 0) 0) (by decide)).1⟩

namespace AVLNode

/-! ### One raw insertion or removal in a balanced tree -/

theorem onOnePath_of_balanced (t : AVLNode) (h : Balanced t) : OnOnePath t := by
  induction t with
  | null => trivial
  | node v l r bf ihl ihr => exact Or.inl ⟨h.2.1, ihr h.2.2⟩

theorem diffsFit_addAVLLeaf (t : AVLNode) (v : Int) (t1 : AVLNode) (hb : Balanced t)
    (h : addAVLLeaf t v = some t1) :
    DiffsFit t1 ∧ OnOnePath t1 ∧ getAVLHeight t ≤ getAVLHeight t1
      ∧ getAVLHeight t1 ≤ getAVLHeight t + 1 := by
  induction t generalizing t1 with
  | null =>
    simp only [addAVLLeaf, Option.some.injEq] at h
    subst h
    refine ⟨⟨?_, trivial, trivial⟩, Or.inl ⟨trivial, trivial⟩, ?_, ?_⟩ <;>
      simp [getAVLHeight]
  | node x l r bf ihl ihr =>
    obtain ⟨hd, hl, hr⟩ := hb
    simp only [addAVLLeaf] at h
    split_ifs at h with h1 h2
    · cases hl1 : addAVLLeaf l v with
      | none => simp [hl1] at h
      | some l1 =>
        simp only [hl1, Option.map_some', Option.some.injEq] at h
        subst h
        obtain ⟨a, b, c, d⟩ := ihl l1 hl hl1
        rw [getAVLHeight_node, getAVLHeight_node]
        exact ⟨⟨by omega, a, diffsFit_of_balanced r hr⟩, Or.inr ⟨hr, b⟩, by omega, by omega⟩
    · cases hr1 : addAVLLeaf r v with
      | none => simp [hr1] at h
      | some r1 =>
        simp only [hr1, Option.map_some', Option.some.injEq] at h
        subst h
        obtain ⟨a, b, c, d⟩ := ihr r1 hr hr1
        rw [getAVLHeight_node, getAVLHeight_node]
        exact ⟨⟨by omega, diffsFit_of_balanced l hl, a⟩, Or.inl ⟨hl, b⟩, by omega, by omega⟩

theorem onOnePath_unlinkLeftmost (s : AVLNode) (res : Int × Int × AVLNode) (hb : Balanced s)
    (h : unlinkLeftmost s = some res) : OnOnePath res.2.2 := by
  induction s generalizing res with
  | null => simp [unlinkLeftmost] at h
  | node sv sl sr sbf ihl _ =>
    cases sl with
    | null => simp [unlinkLeftmost] at h
    | node mv ml mr mbf =>
      cases ml with
      | null =>
        simp only [unlinkLeftmost, Option.some.injEq] at h
        subst h
        exact Or.inr ⟨hb.2.2, onOnePath_of_balanced mr hb.2.1.2.2⟩
      | node av al ar abf =>
        simp only [unlinkLeftmost] at h
        cases hrec : unlinkLeftmost (node mv (node av al ar abf) mr mbf) with
        | none => simp [hrec] at h
        | some res1 =>
          simp only [hrec, Option.map_some', Option.some.injEq] at h
          subst h
          exact Or.inr ⟨hb.2.2, ihl res1 hb.2.1 hrec⟩

theorem onOnePath_deleteAVLRoot (v bf : Int) (l r : AVLNode) (hb : Balanced (node v l r bf))
    (s : AVLNode) (h : deleteAVLRoot (node v l r bf) = some s) : OnOnePath s := by
  obtain ⟨_, hl, hr⟩ := hb
  simp only [deleteAVLRoot] at h
  split_ifs at h with h1 h2
  · simp only [deleteAVLNodeWithNoChildren, Option.some.injEq] at h
    subst h
    trivial
  · simp only [deleteAVLNodeWithSingleChild] at h
    split_ifs at h with h3
    · cases h; exact onOnePath_of_balanced _ hl
    · cases h; exact onOnePath_of_balanced _ hr
  · cases r with
    | null => simp [deleteAVLNodeWithTwoChildren] at h
    | node rv rl rr rbf =>
      simp only [deleteAVLNodeWithTwoChildren] at h
      cases hu : unlinkLeftmost (node rv rl rr rbf) with
      | none =>
        simp only [hu, Option.some.injEq] at h
        subst h
        exact Or.inl ⟨hl, onOnePath_of_balanced _ hr.2.2⟩
      | some res =>
        obtain ⟨mv, mbf, r'⟩ := res
        simp only [hu, Option.some.injEq] at h
        subst h
        exact Or.inl ⟨hl, onOnePath_unlinkLeftmost _ _ hr hu⟩

theorem onOnePath_deleteAVLLoop (t : AVLNode) (v : Int) (t1 : AVLNode) (hb : Balanced t)
    (h : deleteAVLLoop t v = some (true, t1)) : OnOnePath t1 := by
  induction t generalizing t1 with
  | null => simp [deleteAVLLoop] at h
  | node x l r bf ihl ihr =>
    simp only [deleteAVLLoop] at h
    split_ifs at h with h1 h2
    · cases hs : deleteAVLRoot (node x l r bf) with
      | none => simp [hs] at h
      | some s =>
        simp only [hs, Option.map_some', Option.some.injEq, Prod.mk.injEq, true_and] at h
        subst h
        exact onOnePath_deleteAVLRoot x bf l r hb s hs
    · cases hl1 : deleteAVLLoop l v with
      | none => simp [hl1] at h
      | some res =>
        obtain ⟨b, l1⟩ := res
        simp only [hl1, Option.map_some', Option.some.injEq, Prod.mk.injEq] at h
        obtain ⟨hb1, ht⟩ := h
        subst hb1 ht
        exact Or.inr ⟨hb.2.2, ihl l1 hb.2.1 hl1⟩
    · cases hr1 : deleteAVLLoop r v with
      | none => simp [hr1] at h
      | some res =>
        obtain ⟨b, r1⟩ := res
        simp only [hr1, Option.map_some', Option.some.injEq, Prod.mk.injEq] at h
        obtain ⟨hb1, ht⟩ := h
        subst hb1 ht
        exact Or.inl ⟨hb.2.1, ihr r1 hb.2.2 hr1⟩

theorem diffsFit_deleteAVLLoop (t : AVLNode) (v : Int) (t1 : AVLNode) (hb : Balanced t)
    (h : deleteAVLLoop t v = some (true, t1)) : DiffsFit t1 := by
  rcases nearBalanced_deleteAVLLoop t v t1 hb h with ⟨h1, _⟩ | ⟨h1, _⟩
  · exact diffsFit_of_balanced t1 h1
  · exact diffsFit_of_oneImbalance t1 h1

theorem neverBothReport_of_onOnePath (t : AVLNode) (h : OnOnePath t) : NeverBothReport t := by
  induction t with
  | null => trivial
  | node v l r bf ihl ihr =>
    rcases h with ⟨h1, h2⟩ | ⟨h1, h2⟩
    · exact ⟨Or.inl (updateBalanceFactors_snd_of_balanced l h1),
        ihl (onOnePath_of_balanced l h1), ihr h2⟩
    · exact ⟨Or.inr (updateBalanceFactors_snd_of_balanced r h1), ihl h2,
        ihr (onOnePath_of_balanced r h1)⟩

theorem balanced_subtreeAt (t : AVLNode) (hb : Balanced t) :
    ∀ q x l r bf, subtreeAt q t = some (node x l r bf) →
      ((getAVLHeight r : Int) - (getAVLHeight l : Int)).natAbs ≤ 1 := by
  induction t with
  | null =>
    intro q x l r bf h
    cases q <;> simp [subtreeAt] at h
  | node v tl tr tbf ihl ihr =>
    intro q x l r bf h
    cases q with
    | nil =>
      simp only [subtreeAt, Option.some.injEq, node.injEq] at h
      obtain ⟨_, e1, e2, _⟩ := h
      subst e1 e2
      exact hb.1
    | cons s q =>
      cases s with
      | left => exact ihl hb.2.1 q x l r bf h
      | right => exact ihr hb.2.2 q x l r bf h

theorem reported_is_deepest (t : AVLNode) (hp : OnOnePath t) (hd : DiffsFit t) :
    ∀ p, (updateBalanceFactors t).2 = some p →
      (∃ x l r bf, subtreeAt p t = some (node x l r bf)
        ∧ ((getAVLHeight r : Int) - (getAVLHeight l : Int)).natAbs > 1
        ∧ Balanced l ∧ Balanced r)
      ∧ ∀ q x l r bf, subtreeAt q t = some (node x l r bf) →
          ((getAVLHeight r : Int) - (getAVLHeight l : Int)).natAbs > 1 → q <+: p := by
  induction t with
  | null => intro p h; simp [updateBalanceFactors] at h
  | node v tl tr tbf ihl ihr =>
    intro p h
    obtain ⟨d1, d2, d3⟩ := hd
    have hl : OnOnePath tl := by
      rcases hp with ⟨a, _⟩ | ⟨_, b⟩
      · exact onOnePath_of_balanced tl a
      · exact b
    have hr : OnOnePath tr := by
      rcases hp with ⟨_, b⟩ | ⟨a, _⟩
      · exact b
      · exact onOnePath_of_balanced tr a
    have hbal : Balanced tl ∨ Balanced tr := by
      rcases hp with ⟨a, _⟩ | ⟨a, _⟩
      · exact Or.inl a
      · exact Or.inr a
    cases hL : (updateBalanceFactors tl).2 with
    | some pl =>
      rw [updateBalanceFactors_snd_left v tbf tl tr pl hL] at h
      cases h
      have hbr : Balanced tr := by
        rcases hbal with a | a
        · rw [updateBalanceFactors_snd_of_balanced tl a] at hL
          cases hL
        · exact a
      obtain ⟨i1, i2⟩ := ihl hl d2 pl hL
      refine ⟨i1, ?_⟩
      intro q x l r bf hq himb
      cases q with
      | nil => exact List.nil_prefix
      | cons s q =>
        cases s with
        | left =>
          have := i2 q x l r bf hq himb
          exact (List.prefix_cons_inj _).mpr this
        | right =>
          have := balanced_subtreeAt tr hbr q x l r bf hq
          omega
    | none =>
      have hbl : Balanced tl := (snd_eq_none_iff_of_diffsFit tl d2).mp hL
      cases hR : (updateBalanceFactors tr).2 with
      | some pr =>
        rw [updateBalanceFactors_snd_right v tbf tl tr pr hL hR] at h
        cases h
        obtain ⟨i1, i2⟩ := ihr hr d3 pr hR
        refine ⟨i1, ?_⟩
        intro q x l r bf hq himb
        cases q with
        | nil => exact List.nil_prefix
        | cons s q =>
          cases s with
          | left =>
            have := balanced_subtreeAt tl hbl q x l r bf hq
            omega
          | right =>
            have := i2 q x l r bf hq himb
            exact (List.prefix_cons_inj _).mpr this
      | none =>
        have hbr : Balanced tr := (snd_eq_none_iff_of_diffsFit tr d3).mp hR
        rw [updateBalanceFactors_snd_root v tbf tl tr hL hR] at h
        split_ifs at h with himb0
        cases h
        rw [wrapInt32_of_natAbs_lt _ d1] at himb0
        refine ⟨⟨v, tl, tr, tbf, rfl, himb0, hbl, hbr⟩, ?_⟩
        intro q x l r bf hq himb
        cases q with
        | nil => exact List.nil_prefix
        | cons s q =>
          cases s with
          | left =>
            have := balanced_subtreeAt tl hbl q x l r bf hq
            omega
          | right =>
            have := balanced_subtreeAt tr hbr q x l r bf hq
            omega

end AVLNode

/-! ## Imbalances after one raw insertion or removal -/

/-- C30: let `t` be balanced at every node and `t1` the tree left by the raw leaf insertion of
`v` (`addAVLLeaf`) or by the raw removal of the node holding `v` (`deleteAVLLoop` returning
`true`), before any rotation.  Then all imbalanced nodes of `t1` lie on one path from the root;
at no node do the two recursive calls of `updateBalanceFactors` both report; and the node that
`updateBalanceFactors` reports is imbalanced, has balanced subtrees, and lies below every other
imbalanced node of `t1` (the slot of each is a prefix of the reported slot). -/
theorem single_mutation_keeps_imbalances_on_one_path (t : AVLNode) (v : Int) (t1 : AVLNode)
    (hb : AVLNode.Balanced t)
    (h : AVLNode.addAVLLeaf t v = some t1 ∨ AVLNode.deleteAVLLoop t v = some (true, t1)) :
    AVLNode.OnOnePath t1 ∧ AVLNode.NeverBothReport t1
    ∧ ∀ p, (AVLNode.updateBalanceFactors t1).2 = some p →
      (∃ x l r bf, AVLNode.subtreeAt p t1 = some (.node x l r bf)
        ∧ ((AVLNode.getAVLHeight r : Int) - (AVLNode.getAVLHeight l : Int)).natAbs > 1
        ∧ AVLNode.Balanced l ∧ AVLNode.Balanced r)
      ∧ ∀ q x l r bf, AVLNode.subtreeAt q t1 = some (.node x l r bf) →
          ((AVLNode.getAVLHeight r : Int) - (AVLNode.getAVLHeight l : Int)).natAbs > 1 →
          q <+: p := by
  have hp : AVLNode.OnOnePath t1 := by
    rcases h with h | h
    · exact (AVLNode.diffsFit_addAVLLeaf t v t1 hb h).2.1
    · exact AVLNode.onOnePath_deleteAVLLoop t v t1 hb h
  have hd : AVLNode.DiffsFit t1 := by
    rcases h with h | h
    · exact (AVLNode.diffsFit_addAVLLeaf t v t1 hb h).1
    · exact AVLNode.diffsFit_deleteAVLLoop t v t1 hb h
  exact ⟨hp, AVLNode.neverBothReport_of_onOnePath t1 hp, AVLNode.reported_is_deepest t1 hp hd⟩

/-- Witness of C30: the raw removal of 1 from the 12-node tree `fib12` leaves the node holding 2
imbalanced; it is the node reported. -/
theorem single_mutation_keeps_imbalances_on_one_path_witness :
    AVLNode.Balanced AVLNode.fib12
    ∧ AVLNode.deleteAVLLoop AVLNode.fib12 1
        = some (true, .node 5 (.node 2 .null (.node 3 .null (AVLNode.leaf 4) 1) 1)
            (.node 8 (.node 6 .null (AVLNode.leaf 7) 1)
              (.node 10 (AVLNode.leaf 9) (.node 11 .null (AVLNode.leaf 12) 1) 1) 1) 1)
    ∧ (AVLNode.updateBalanceFactors (.node 5 (.node 2 .null (.node 3 .null (AVLNode.leaf 4) 1) 1)
            (.node 8 (.node 6 .null (AVLNode.leaf 7) 1)
              (.node 10 (AVLNode.leaf 9) (.node 11 .null (AVLNode.leaf 12) 1) 1) 1) 1)).2
        = some [Side.left]
    ∧ AVLNode.OnOnePath (.node 5 (.node 2 .null (.node 3 .null (AVLNode.leaf 4) 1) 1)
            (.node 8 (.node 6 .null (AVLNode.leaf 7) 1)
              (.node 10 (AVLNode.leaf 9) (.node 11 .null (AVLNode.leaf 12) 1) 1) 1) 1)
    ∧ AVLNode.NeverBothReport (.node 5 (.node 2 .null (.node 3 .null (AVLNode.leaf 4) 1) 1)
            (.node 8 (.node 6 .null (AVLNode.leaf 7) 1)
              (.node 10 (AVLNode.leaf 9) (.node 11 .null (AVLNode.leaf 12) 1) 1) 1) 1) :=
  ⟨by decide, by decide, by decide,
    (single_mutation_keeps_imbalances_on_one_path AVLNode.fib12 1 _ (by decide)
      (Or.inr (by decide))).1,
    (single_mutation_keeps_imbalances_on_one_path AVLNode.fib12 1 _ (by decide)
      (Or.inr (by decide))).2.1⟩

namespace AVLNode

/-! ### Stored factors after a mutation -/

end AVLNode

namespace AVLNode

end AVLNode

/-! ## Stored balance factors after a mutation -/

namespace AVLNode

/-! ### The repair of the reported node -/

theorem subtreeAt_updateBalanceFactors (p : List Side) :
    ∀ t, subtreeAt p (updateBalanceFactors t).1
      = (subtreeAt p t).map fun s => (updateBalanceFactors s).1 := by
  induction p with
  | nil => intro t; rfl
  | cons s p ih =>
    intro t
    cases t with
    | null => cases s <;> rfl
    | node v l r bf =>
      rw [updateBalanceFactors_node]
      cases s with
      | left => exact ih l
      | right => exact ih r

theorem atSlot_of_subtreeAt (f : AVLNode → Option AVLNode) (p : List Side) :
    ∀ T Y, subtreeAt p T = some Y →
      atSlot f p T = (f Y).bind fun s => atSlot (fun _ => some s) p T := by
  induction p with
  | nil =>
    intro T Y h
    simp only [subtreeAt, Option.some.injEq] at h
    subst h
    cases hf : f T <;> simp [atSlot, hf]
  | cons s p ih =>
    intro T Y h
    cases T with
    | null => simp [subtreeAt] at h
    | node v l r bf =>
      cases s with
      | left =>
        simp only [subtreeAt] at h
        simp only [atSlot, ih l Y h]
        cases f Y <;> simp
      | right =>
        simp only [subtreeAt] at h
        simp only [atSlot, ih r Y h]
        cases f Y <;> simp

theorem atSlot_const_isSome (s : AVLNode) (p : List Side) :
    ∀ T Y, subtreeAt p T = some Y → ∃ T', atSlot (fun _ => some s) p T = some T' := by
  induction p with
  | nil => intro T Y _; exact ⟨s, rfl⟩
  | cons d p ih =>
    intro T Y h
    cases T with
    | null => simp [subtreeAt] at h
    | node v l r bf =>
      cases d with
      | left =>
        obtain ⟨l', hl⟩ := ih l Y h
        exact ⟨node v l' r bf, by simp [atSlot, hl]⟩
      | right =>
        obtain ⟨r', hr⟩ := ih r Y h
        exact ⟨node v l r' bf, by simp [atSlot, hr]⟩

theorem clearFactors_atSlot_const (s s' : AVLNode) (hs : clearFactors s' = clearFactors s)
    (p : List Side) :
    ∀ T1 T2, clearFactors T1 = clearFactors T2 →
      (atSlot (fun _ => some s') p T1).map clearFactors
        = (atSlot (fun _ => some s) p T2).map clearFactors := by
  induction p with
  | nil => intro T1 T2 _; simp [atSlot, hs]
  | cons d p ih =>
    intro T1 T2 h
    cases T1 with
    | null =>
      cases T2 with
      | null => cases d <;> rfl
      | node v l r bf => simp [clearFactors] at h
    | node v1 l1 r1 bf1 =>
      cases T2 with
      | null => simp [clearFactors] at h
      | node v2 l2 r2 bf2 =>
        simp only [clearFactors, node.injEq, and_true] at h
        obtain ⟨hv, hl, hr⟩ := h
        subst hv
        cases d with
        | left =>
          have := ih l1 l2 hl
          simp only [atSlot]
          cases h1 : atSlot (fun _ => some s') p l1 <;>
            cases h2 : atSlot (fun _ => some s) p l2 <;>
            simp [h1, h2, clearFactors] at this ⊢
          exact ⟨this, hr⟩
        | right =>
          have := ih r1 r2 hr
          simp only [atSlot]
          cases h1 : atSlot (fun _ => some s') p r1 <;>
            cases h2 : atSlot (fun _ => some s) p r2 <;>
            simp [h1, h2, clearFactors] at this ⊢
          exact ⟨hl, this⟩

theorem balanced_clearFactors (t : AVLNode) : Balanced (clearFactors t) ↔ Balanced t := by
  induction t with
  | null => rfl
  | node v l r bf ihl ihr =>
    simp only [clearFactors, Balanced, getAVLHeight_clearFactors, ihl, ihr]

theorem traverseAVL_clearFactors (t : AVLNode) : traverseAVL (clearFactors t) = traverseAVL t := by
  induction t with
  | null => rfl
  | node v l r bf ihl ihr => simp only [clearFactors, traverseAVL, ihl, ihr]

theorem rootDiff_updateBalanceFactors_eq (t : AVLNode) :
    rootDiff (updateBalanceFactors t).1 = rootDiff t := by
  cases t with
  | null => rfl
  | node v l r bf =>
    rw [updateBalanceFactors_node]
    simp only [rootDiff, getAVLHeight_updateBalanceFactors]

end AVLNode

namespace AVLNode

theorem rotateImbalanced_eq_repair (v bf : Int) (l r : AVLNode)
    (hd : ((getAVLHeight r : Int) - (getAVLHeight l : Int)).natAbs = 2)
    (hl : Balanced l) (hr : Balanced r) :
    ∃ s, repair (node v l r bf) = some s
      ∧ (rotateImbalanced (updateBalanceFactors (node v l r bf)).1).map clearFactors
          = some (clearFactors s) := by
  have hcase : getAVLHeight r = getAVLHeight l + 2 ∨ getAVLHeight l = getAVLHeight r + 2 := by
    omega
  rcases hcase with hc | hc
  · -- right-heavy
    cases r with
    | null => simp [getAVLHeight] at hc
    | node rv rl rr rbf =>
      obtain ⟨hdr, hrl, hrr⟩ := hr
      have hw2 : wrapInt32 ((getAVLHeight (node rv rl rr rbf) : Int) - (getAVLHeight l : Int))
          = 2 := by
        rw [hc]; push_cast; ring_nf; decide
      have hwr : wrapInt32 ((getAVLHeight rr : Int) - (getAVLHeight rl : Int))
          = (getAVLHeight rr : Int) - (getAVLHeight rl : Int) :=
        wrapInt32_small _ (by omega) (by omega)
      have hgt : getAVLHeight (node rv rl rr rbf) > getAVLHeight l := by omega
      rw [updateBalanceFactors_node, updateBalanceFactors_node, hw2, hwr]
      by_cases hneg : (getAVLHeight rr : Int) - (getAVLHeight rl : Int) < 0
      · cases rl with
        | null => simp [getAVLHeight] at hneg; omega
        | node a al ar abf =>
          rw [updateBalanceFactors_node]
          refine ⟨node a (node v l al bf) (node rv ar rr rbf) abf, ?_, ?_⟩
          · simp [repair, hgt, rootDiff, hneg, rotateRight, rotateLeft]
          · simp [rotateImbalanced, hneg, rotateRight, rotateLeft, clearFactors,
              clearFactors_updateBalanceFactors]
      · refine ⟨node rv (node v l rl bf) rr rbf, ?_, ?_⟩
        · simp [repair, hgt, rootDiff, hneg, rotateLeft]
        · simp [rotateImbalanced, hneg, rotateLeft, clearFactors,
            clearFactors_updateBalanceFactors]
  · -- left-heavy
    cases l with
    | null => simp [getAVLHeight] at hc
    | node lv ll lr lbf =>
      obtain ⟨hdl, hll, hlr⟩ := hl
      have hw2 : wrapInt32 ((getAVLHeight r : Int) - (getAVLHeight (node lv ll lr lbf) : Int))
          = -2 := by
        rw [hc]; push_cast; ring_nf; decide
      have hwl : wrapInt32 ((getAVLHeight lr : Int) - (getAVLHeight ll : Int))
          = (getAVLHeight lr : Int) - (getAVLHeight ll : Int) :=
        wrapInt32_small _ (by omega) (by omega)
      have hgt : ¬ getAVLHeight r > getAVLHeight (node lv ll lr lbf) := by omega
      rw [updateBalanceFactors_node, updateBalanceFactors_node, hw2, hwl]
      by_cases hpos : (getAVLHeight lr : Int) - (getAVLHeight ll : Int) > 0
      · cases lr with
        | null => simp [getAVLHeight] at hpos; omega
        | node a al ar abf =>
          rw [updateBalanceFactors_node]
          refine ⟨node a (node lv ll al lbf) (node v ar r bf) abf, ?_, ?_⟩
          · simp [repair, hgt, rootDiff, hpos, rotateRight, rotateLeft]
          · simp [rotateImbalanced, hpos, rotateRight, rotateLeft, clearFactors,
              clearFactors_updateBalanceFactors]
      · refine ⟨node lv ll (node v lr r bf) lbf, ?_, ?_⟩
        · simp [repair, hgt, rootDiff, hpos, rotateRight]
        · simp [rotateImbalanced, hpos, rotateRight, clearFactors,
            clearFactors_updateBalanceFactors]

end AVLNode

namespace AVLNode

theorem repair_spec (v bf : Int) (l r : AVLNode)
    (hd : ((getAVLHeight r : Int) - (getAVLHeight l : Int)).natAbs = 2)
    (hl : Balanced l) (hr : Balanced r) :
    ∃ s s', repair (node v l r bf) = some s
      ∧ rotateImbalanced (updateBalanceFactors (node v l r bf)).1 = some s'
      ∧ clearFactors s' = clearFactors s
      ∧ Balanced s ∧ traverseAVL s = traverseAVL (node v l r bf)
      ∧ (getAVLHeight s = getAVLHeight (node v l r bf)
          ∨ getAVLHeight s + 1 = getAVLHeight (node v l r bf)) := by
  obtain ⟨s, hs, hmap⟩ := rotateImbalanced_eq_repair v bf l r hd hl hr
  cases hri : rotateImbalanced (updateBalanceFactors (node v l r bf)).1 with
  | none => simp [hri] at hmap
  | some s' =>
    simp only [hri, Option.map_some', Option.some.injEq] at hmap
    have hrep : (updateBalanceFactors (node v l r bf)).2 = some [] := by
      rw [updateBalanceFactors_snd_root v bf l r (updateBalanceFactors_snd_of_balanced l hl)
        (updateBalanceFactors_snd_of_balanced r hr)]
      rw [wrapInt32_small _ (by omega) (by omega)]
      simp [hd]
    have hrd : rotateDeepest (node v l r bf) = some s' := by
      simp only [rotateDeepest, hrep, atSlot]
      exact hri
    obtain ⟨t', h1, h2, h3, _, h5, h6⟩ :=
      rotateDeepest_of_balanced_children v bf l r hl hr (by omega)
    rw [hrd] at h1
    simp only [Option.some.injEq] at h1
    subst h1
    have hbs : Balanced s := by
      rw [← balanced_clearFactors, ← hmap, balanced_clearFactors]; exact h2
    have hts : traverseAVL s = traverseAVL (node v l r bf) := by
      rw [← traverseAVL_clearFactors, ← hmap, traverseAVL_clearFactors]; exact h3
    have hhs : getAVLHeight s = getAVLHeight s' := by
      rw [← getAVLHeight_clearFactors, ← hmap, getAVLHeight_clearFactors]
    refine ⟨s, s', hs, rfl, hmap, hbs, hts, ?_⟩
    rw [hhs, getAVLHeight_node]
    have hcase : getAVLHeight r = getAVLHeight l + 2 ∨ getAVLHeight l = getAVLHeight r + 2 := by
      omega
    rcases hcase with hc | hc
    · have := h5 hc
      split_ifs at this <;> omega
    · have := h6 hc
      split_ifs at this <;> omega

end AVLNode

/-! ## The repair of the reported node -/

/-- C28: let `updateBalanceFactors` report the slot `p` of a tree `t`, holding a node `X` whose
subtree heights differ by two and whose subtrees are balanced.  Then `balance` leaves `t` with
the subtree at `p` replaced by `repair X` and the factors recomputed, nothing else being
restructured; `repair X` (a left rotation for a right-heavy `X`, preceded by a right rotation of
its right child when that child is left-heavy, and the mirror image) is balanced at every node,
has the in-order sequence of `X`, and has the height of `X` or one less. -/
theorem balance_repairs_reported_node (t : AVLNode) (p : List Side) (v bf : Int)
    (l r : AVLNode)
    (hrep : (AVLNode.updateBalanceFactors t).2 = some p)
    (hX : AVLNode.subtreeAt p t = some (.node v l r bf))
    (hd : ((AVLNode.getAVLHeight r : Int) - (AVLNode.getAVLHeight l : Int)).natAbs = 2)
    (hl : AVLNode.Balanced l) (hr : AVLNode.Balanced r) :
    ∃ s T', AVLNode.repair (.node v l r bf) = some s
      ∧ AVLNode.Balanced s
      ∧ AVLNode.traverseAVL s = AVLNode.traverseAVL (.node v l r bf)
      ∧ (AVLNode.getAVLHeight s = AVLNode.getAVLHeight (.node v l r bf)
          ∨ AVLNode.getAVLHeight s + 1 = AVLNode.getAVLHeight (.node v l r bf))
      ∧ AVLNode.atSlot (fun _ => some s) p t = some T'
      ∧ AVLNode.balance t = some (AVLNode.updateBalanceFactors T').1 := by
  obtain ⟨s, s', h1, h2, h3, h4, h5, h6⟩ := AVLNode.repair_spec v bf l r hd hl hr
  obtain ⟨T', hT'⟩ := AVLNode.atSlot_const_isSome s p t _ hX
  refine ⟨s, T', h1, h4, h5, h6, hT', ?_⟩
  have hsub : AVLNode.subtreeAt p (AVLNode.updateBalanceFactors t).1
      = some (AVLNode.updateBalanceFactors (.node v l r bf)).1 := by
    rw [AVLNode.subtreeAt_updateBalanceFactors, hX]
    rfl
  have hat := AVLNode.atSlot_of_subtreeAt AVLNode.rotateImbalanced p _ _ hsub
  rw [h2] at hat
  simp only [Option.some_bind, Option.bind_eq_bind] at hat
  have hcl := AVLNode.clearFactors_atSlot_const s s' h3 p (AVLNode.updateBalanceFactors t).1 t
    (AVLNode.clearFactors_updateBalanceFactors t)
  rw [hT'] at hcl
  cases hT2 : AVLNode.atSlot (fun _ => some s') p (AVLNode.updateBalanceFactors t).1 with
  | none => simp [hT2] at hcl
  | some T2 =>
    simp only [hT2, Option.map_some', Option.some.injEq] at hcl
    simp only [AVLNode.balance, hrep, hat, hT2, Option.map_some']
    rw [AVLNode.updateBalanceFactors_congr T2 T' hcl]

/-- Witness of C28: the tree left by the raw removal of 1 from `fib12`; the node holding 2 is
reported, it is right-heavy with a right child that does not lean to the left, and one left
rotation puts 3 over 2 and 4. -/
theorem balance_repairs_reported_node_witness :
    (AVLNode.updateBalanceFactors (.node 5 (.node 2 .null (.node 3 .null (AVLNode.leaf 4) 1) 1)
        (.node 8 (.node 6 .null (AVLNode.leaf 7) 1)
          (.node 10 (AVLNode.leaf 9) (.node 11 .null (AVLNode.leaf 12) 1) 1) 1) 1)).2
      = some [Side.left]
    ∧ AVLNode.repair (.node 2 .null (.node 3 .null (AVLNode.leaf 4) 1) 1)
      = some (.node 3 (.node 2 .null .null 1) (AVLNode.leaf 4) 1)
    ∧ AVLNode.balance (.node 5 (.node 2 .null (.node 3 .null (AVLNode.leaf 4) 1) 1)
        (.node 8 (.node 6 .null (AVLNode.leaf 7) 1)
          (.node 10 (AVLNode.leaf 9) (.node 11 .null (AVLNode.leaf 12) 1) 1) 1) 1)
      = some AVLNode.fib12Without1
    ∧ ∃ s T', AVLNode.repair (.node 2 .null (.node 3 .null (AVLNode.leaf 4) 1) 1) = some s
      ∧ AVLNode.Balanced s
      ∧ AVLNode.traverseAVL s
        = AVLNode.traverseAVL (.node 2 .null (.node 3 .null (AVLNode.leaf 4) 1) 1)
      ∧ (AVLNode.getAVLHeight s
          = AVLNode.getAVLHeight (.node 2 .null (.node 3 .null (AVLNode.leaf 4) 1) 1)
          ∨ AVLNode.getAVLHeight s + 1
            = AVLNode.getAVLHeight (.node 2 .null (.node 3 .null (AVLNode.leaf 4) 1) 1))
      ∧ AVLNode.atSlot (fun _ => some s) [Side.left]
          (.node 5 (.node 2 .null (.node 3 .null (AVLNode.leaf 4) 1) 1)
            (.node 8 (.node 6 .null (AVLNode.leaf 7) 1)
              (.node 10 (AVLNode.leaf 9) (.node 11 .null (AVLNode.leaf 12) 1) 1) 1) 1) = some T'
      ∧ AVLNode.balance (.node 5 (.node 2 .null (.node 3 .null (AVLNode.leaf 4) 1) 1)
          (.node 8 (.node 6 .null (AVLNode.leaf 7) 1)
            (.node 10 (AVLNode.leaf 9) (.node 11 .null (AVLNode.leaf 12) 1) 1) 1) 1)
        = some (AVLNode.updateBalanceFactors T').1 :=
  ⟨by decide, by decide, by decide,
    balance_repairs_reported_node
      (.node 5 (.node 2 .null (.node 3 .null (AVLNode.leaf 4) 1) 1)
        (.node 8 (.node 6 .null (AVLNode.leaf 7) 1)
          (.node 10 (AVLNode.leaf 9) (.node 11 .null (AVLNode.leaf 12) 1) 1) 1) 1)
      [Side.left] 2 1 .null (.node 3 .null (AVLNode.leaf 4) 1)
      (by decide) (by decide) (by decide) (by decide) (by decide)⟩

/-! ## Rotations -/

/-- C31: on a tree whose root `x` has a right child `y`, `rotateLeft` returns the tree with `y`
at the root, `x` as its left child and the former left subtree of `y` as the right subtree of
`x`; the subtrees and the stored balance factors of `x` and `y` are the same objects as before,
and the in-order sequence and the node count are unchanged.  `rotateRight` is the mirror image on
a tree whose root has a left child. -/
theorem rotations_keep_inorder_and_factors (xv xbf yv ybf : Int) (a b c : AVLNode) :
    (AVLNode.rotateLeft (.node xv a (.node yv b c ybf) xbf)
        = some (.node yv (.node xv a b xbf) c ybf)
      ∧ AVLNode.traverseAVL (.node yv (.node xv a b xbf) c ybf)
        = AVLNode.traverseAVL (.node xv a (.node yv b c ybf) xbf)
      ∧ AVLNode.getAVLCount (.node yv (.node xv a b xbf) c ybf)
        = AVLNode.getAVLCount (.node xv a (.node yv b c ybf) xbf))
    ∧ (AVLNode.rotateRight (.node xv (.node yv a b ybf) c xbf)
        = some (.node yv a (.node xv b c xbf) ybf)
      ∧ AVLNode.traverseAVL (.node yv a (.node xv b c xbf) ybf)
        = AVLNode.traverseAVL (.node xv (.node yv a b ybf) c xbf)
      ∧ AVLNode.getAVLCount (.node yv a (.node xv b c xbf) ybf)
        = AVLNode.getAVLCount (.node xv (.node yv a b ybf) c xbf)) := by
  refine ⟨⟨rfl, ?_, ?_⟩, ⟨rfl, ?_, ?_⟩⟩
  · simp [AVLNode.traverseAVL]
  · simp only [AVLNode.getAVLCount]; omega
  · simp [AVLNode.traverseAVL]
  · simp only [AVLNode.getAVLCount]; omega

/-- C37: on a tree whose root has a right child, `rotateRight` after `rotateLeft` gives back the
tree, stored balance factors included; on a tree whose root has a left child, so does
`rotateLeft` after `rotateRight`. -/
theorem rotateRight_undoes_rotateLeft (xv xbf yv ybf : Int) (a b c : AVLNode) :
    (AVLNode.rotateLeft (.node xv a (.node yv b c ybf) xbf)).bind AVLNode.rotateRight
        = some (.node xv a (.node yv b c ybf) xbf)
    ∧ (AVLNode.rotateRight (.node xv (.node yv a b ybf) c xbf)).bind AVLNode.rotateLeft
        = some (.node xv (.node yv a b ybf) c xbf) :=
  ⟨rfl, rfl⟩

namespace BSTNode

/-! ### The leftmost node of the right subtree -/

theorem unlinkLeftmost_eq (sv : Int) (sl sr : BSTNode) (m : Int) (ml mr : BSTNode)
    (h : sl = node m ml mr) :
    ∃ x, leftmostValue (node sv sl sr) = some x
      ∧ unlinkLeftmost (node sv sl sr) = some (x, removeLeftmost (node sv sl sr)) := by
  induction sl generalizing sv sr m ml mr with
  | null => cases h
  | node lv ll lr ihl _ =>
    cases ll with
    | null => exact ⟨lv, rfl, rfl⟩
    | node av al ar =>
      obtain ⟨x, h1, h2⟩ := ihl lv lr av al ar rfl
      refine ⟨x, ?_, ?_⟩
      · simpa [leftmostValue] using h1
      · simp only [unlinkLeftmost, h2, Option.map_some', removeLeftmost]

theorem deleteBSTNodeWithTwoChildren_eq (v : Int) (l : BSTNode) (rv : Int) (rl rr : BSTNode) :
    ∃ x, leftmostValue (node rv rl rr) = some x
      ∧ deleteBSTNodeWithTwoChildren (node v l (node rv rl rr))
        = some (node x l (removeLeftmost (node rv rl rr))) := by
  cases rl with
  | null => exact ⟨rv, rfl, rfl⟩
  | node m ml mr =>
    obtain ⟨x, h1, h2⟩ := unlinkLeftmost_eq rv (node m ml mr) rr m ml mr rfl
    exact ⟨x, h1, by simp only [deleteBSTNodeWithTwoChildren, h2]⟩

theorem leftmostValue_le (t : BSTNode) (x : Int) (h : leftmostValue t = some x)
    (hs : (traverseBST t).Pairwise (· ≤ ·)) : ∀ y ∈ traverseBST t, x ≤ y := by
  induction t with
  | null => simp [leftmostValue] at h
  | node v l r ihl _ =>
    cases l with
    | null =>
      simp only [leftmostValue, Option.some.injEq] at h
      subst h
      simp only [traverseBST, List.nil_append, List.pairwise_cons] at hs ⊢
      intro y hy
      rcases List.mem_cons.mp hy with e | e
      · exact e ▸ le_refl _
      · exact hs.1 y e
    | node lv ll lr =>
      simp only [leftmostValue] at h
      simp only [traverseBST] at hs ⊢
      rw [List.pairwise_append] at hs
      obtain ⟨h1, h2, h3⟩ := hs
      have hin := ihl h h1
      have hx : x ∈ traverseBST (node lv ll lr) := by
        clear hin h1 h3 ihl
        revert h
        generalize node lv ll lr = t
        intro h
        induction t with
        | null => simp [leftmostValue] at h
        | node a al ar iha _ =>
          cases al with
          | null =>
            simp only [leftmostValue, Option.some.injEq] at h
            subst h
            simp [traverseBST]
          | node b bl br =>
            simp only [leftmostValue] at h
            have := iha h
            simp only [traverseBST] at this ⊢
            exact List.mem_append_left _ this
      intro y hy
      rcases List.mem_append.mp hy with e | e
      · exact hin y (by simpa [traverseBST] using e)
      · exact h3 x (by simpa [traverseBST] using hx) y e

end BSTNode

namespace AVLNode

/-! ### The leftmost node of the right subtree, in the AVL tree -/

theorem unlinkLeftmostAVL_eq (sv sbf : Int) (sl sr : AVLNode) (m mbf : Int) (ml mr : AVLNode)
    (h : sl = node m ml mr mbf) :
    ∃ x, leftmostNode (node sv sl sr sbf) = some x
      ∧ unlinkLeftmost (node sv sl sr sbf)
        = some (x.1, x.2, removeLeftmost (node sv sl sr sbf)) := by
  induction sl generalizing sv sbf sr m mbf ml mr with
  | null => cases h
  | node lv ll lr lbf ihl _ =>
    cases ll with
    | null => exact ⟨(lv, lbf), rfl, rfl⟩
    | node av al ar abf =>
      obtain ⟨x, h1, h2⟩ := ihl lv lbf lr av abf al ar rfl
      refine ⟨x, ?_, ?_⟩
      · simpa [leftmostNode] using h1
      · simp only [unlinkLeftmost, h2, Option.map_some', removeLeftmost]

theorem deleteAVLNodeWithTwoChildren_eq (v bf : Int) (l : AVLNode) (rv rbf : Int)
    (rl rr : AVLNode) :
    ∃ x, leftmostNode (node rv rl rr rbf) = some x
      ∧ deleteAVLNodeWithTwoChildren (node v l (node rv rl rr rbf) bf)
        = some (node x.1 l (removeLeftmost (node rv rl rr rbf)) x.2) := by
  cases rl with
  | null => exact ⟨(rv, rbf), rfl, rfl⟩
  | node m ml mr mbf =>
    obtain ⟨x, h1, h2⟩ := unlinkLeftmostAVL_eq rv rbf (node m ml mr mbf) rr m mbf ml mr rfl
    exact ⟨x, h1, by simp only [deleteAVLNodeWithTwoChildren, h2]⟩

theorem leftmostNode_le (t : AVLNode) (x : Int × Int) (h : leftmostNode t = some x)
    (hs : (traverseAVL t).Pairwise (· ≤ ·)) : ∀ y ∈ traverseAVL t, x.1 ≤ y := by
  induction t with
  | null => simp [leftmostNode] at h
  | node v l r bf ihl _ =>
    cases l with
    | null =>
      simp only [leftmostNode, Option.some.injEq] at h
      subst h
      simp only [traverseAVL, List.nil_append, List.pairwise_cons] at hs ⊢
      intro y hy
      rcases List.mem_cons.mp hy with e | e
      · exact e ▸ le_refl _
      · exact hs.1 y e
    | node lv ll lr lbf =>
      simp only [leftmostNode] at h
      simp only [traverseAVL] at hs ⊢
      rw [List.pairwise_append] at hs
      obtain ⟨h1, h2, h3⟩ := hs
      have hin := ihl h h1
      have hx : x.1 ∈ traverseAVL (node lv ll lr lbf) := by
        clear hin h1 h3 ihl
        revert h
        generalize node lv ll lr lbf = t
        intro h
        induction t with
        | null => simp [leftmostNode] at h
        | node a al ar abf iha _ =>
          cases al with
          | null =>
            simp only [leftmostNode, Option.some.injEq] at h
            subst h
            simp [traverseAVL]
          | node b bl br bbf =>
            simp only [leftmostNode] at h
            have := iha h
            simp only [traverseAVL] at this ⊢
            exact List.mem_append_left _ this
      intro y hy
      rcases List.mem_append.mp hy with e | e
      · exact hin y (by simpa [traverseAVL] using e)
      · exact h3 x.1 (by simpa [traverseAVL] using hx) y e

end AVLNode

/-! ## Deleting a node with two children -/

/-- C32: on a node `n` with a right child, `deleteBSTNodeWithTwoChildren` returns the node that
holds the value of the leftmost node `s` of the right subtree of `n`, over the left subtree of
`n` unchanged and the right subtree of `n` without `s`, the right child of `s` spliced into its
place (`removeLeftmost`; when `s` is the right child itself this is the right subtree of `s`).
That value is the least of the right subtree when the in-order sequence of the right subtree is
non-decreasing.  `deleteAVLNodeWithTwoChildren` does the same; the new node has the stored
balance factor of `s`. -/
theorem two_children_deletion_promotes_successor (v : Int) (l r : BSTNode) (av abf : Int)
    (al ar : AVLNode) (hr : r ≠ .null) (har : ar ≠ .null) :
    (∃ x, BSTNode.leftmostValue r = some x
      ∧ BSTNode.deleteBSTNodeWithTwoChildren (.node v l r)
        = some (.node x l (BSTNode.removeLeftmost r))
      ∧ ((BSTNode.traverseBST r).Pairwise (· ≤ ·) → ∀ y ∈ BSTNode.traverseBST r, x ≤ y))
    ∧ (∃ x xbf, AVLNode.leftmostNode ar = some (x, xbf)
      ∧ AVLNode.deleteAVLNodeWithTwoChildren (.node av al ar abf)
        = some (.node x al (AVLNode.removeLeftmost ar) xbf)
      ∧ ((AVLNode.traverseAVL ar).Pairwise (· ≤ ·) → ∀ y ∈ AVLNode.traverseAVL ar, x ≤ y))
    ∧ (∀ sv sr, BSTNode.removeLeftmost (.node sv .null sr) = sr)
    ∧ (∀ sv sr sbf, AVLNode.removeLeftmost (.node sv .null sr sbf) = sr) := by
  refine ⟨?_, ?_, fun _ _ => rfl, fun _ _ _ => rfl⟩
  · cases r with
    | null => exact absurd rfl hr
    | node rv rl rr =>
      obtain ⟨x, h1, h2⟩ := BSTNode.deleteBSTNodeWithTwoChildren_eq v l rv rl rr
      exact ⟨x, h1, h2, BSTNode.leftmostValue_le _ x h1⟩
  · cases ar with
    | null => exact absurd rfl har
    | node rv rl rr rbf =>
      obtain ⟨x, h1, h2⟩ := AVLNode.deleteAVLNodeWithTwoChildren_eq av abf al rv rbf rl rr
      exact ⟨x.1, x.2, h1, h2, AVLNode.leftmostNode_le _ x h1⟩

/-- Witness of C32: deleting the root 5 of 5(3, 9(7(6, 8), 10)) promotes 6. -/
theorem two_children_deletion_promotes_successor_witness :
    BSTNode.node 9 (.node 7 (.node 6 .null .null) (.node 8 .null .null)) (.node 10 .null .null)
      ≠ .null
    ∧ AVLNode.node 9 (.node 7 (AVLNode.leaf 6) (AVLNode.leaf 8) 0) (AVLNode.leaf 10) (-1)
      ≠ .null
    ∧ BSTNode.deleteBSTNodeWithTwoChildren (.node 5 (.node 3 .null .null)
        (.node 9 (.node 7 (.node 6 .null .null) (.node 8 .null .null)) (.node 10 .null .null)))
      = some (.node 6 (.node 3 .null .null)
          (.node 9 (.node 7 .null (.node 8 .null .null)) (.node 10 .null .null)))
    ∧ ∃ x, BSTNode.leftmostValue
          (.node 9 (.node 7 (.node 6 .null .null) (.node 8 .null .null)) (.node 10 .null .null))
        = some x
      ∧ BSTNode.deleteBSTNodeWithTwoChildren (.node 5 (.node 3 .null .null)
          (.node 9 (.node 7 (.node 6 .null .null) (.node 8 .null .null)) (.node 10 .null .null)))
        = some (.node x (.node 3 .null .null) (BSTNode.removeLeftmost
            (.node 9 (.node 7 (.node 6 .null .null) (.node 8 .null .null))
              (.node 10 .null .null))))
      ∧ ((BSTNode.traverseBST
            (.node 9 (.node 7 (.node 6 .null .null) (.node 8 .null .null))
              (.node 10 .null .null))).Pairwise (· ≤ ·) →
          ∀ y ∈ BSTNode.traverseBST
            (.node 9 (.node 7 (.node 6 .null .null) (.node 8 .null .null))
              (.node 10 .null .null)), x ≤ y) :=
  ⟨by decide, by decide, by decide,
    (two_children_deletion_promotes_successor 5 (.node 3 .null .null)
      (.node 9 (.node 7 (.node 6 .null .null) (.node 8 .null .null)) (.node 10 .null .null))
      5 0 (AVLNode.leaf 3)
      (.node 9 (.node 7 (AVLNode.leaf 6) (AVLNode.leaf 8) 0) (AVLNode.leaf 10) (-1))
      (by decide) (by decide)).1⟩

namespace BSTNode

/-! ### The in-order sequence stays non-decreasing -/

theorem weaklyOrdered_iff_pairwise (t : BSTNode) :
    WeaklyOrdered t ↔ (traverseBST t).Pairwise (· ≤ ·) := by
  induction t with
  | null => simp [WeaklyOrdered, traverseBST]
  | node v l r ihl ihr =>
    simp only [WeaklyOrdered, traverseBST, List.pairwise_append, List.pairwise_cons, ihl, ihr,
      List.mem_cons]
    constructor
    · rintro ⟨h1, h2, h3, h4⟩
      refine ⟨h3, ⟨h2, h4⟩, ?_⟩
      intro a ha b hb
      rcases hb with e | e
      · exact e ▸ h1 a ha
      · exact le_trans (h1 a ha) (h2 b e)
    · rintro ⟨h3, ⟨h2, h4⟩, h5⟩
      exact ⟨fun a ha => h5 a ha v (Or.inl rfl), h2, h3, h4⟩

theorem pairwise_addBSTNode (t : BSTNode) (v : Int) (hs : (traverseBST t).Pairwise (· ≤ ·)) :
    (traverseBST (addBSTNode true t v).2).Pairwise (· ≤ ·) := by
  induction t with
  | null => simp [addBSTNode, traverseBST]
  | node x l r ihl ihr =>
    simp only [traverseBST, List.pairwise_append, List.pairwise_cons, List.mem_cons] at hs
    obtain ⟨h1, ⟨h2, h3⟩, h4⟩ := hs
    by_cases hv : v ≤ x
    · simp only [addBSTNode, hv, if_true, traverseBST, List.pairwise_append, List.pairwise_cons,
        List.mem_cons]
      refine ⟨ihl h1, ⟨h2, h3⟩, ?_⟩
      intro a ha b hb
      have ha' := (perm_traverseBST_addBSTNode l v).subset ha
      rcases List.mem_cons.mp ha' with e | e
      · subst e
        rcases hb with e | e
        · exact e ▸ hv
        · exact le_trans hv (h2 b e)
      · exact h4 a e b hb
    · simp only [addBSTNode, hv, if_false, traverseBST, List.pairwise_append,
        List.pairwise_cons, List.mem_cons]
      have hx : x ≤ v := le_of_lt (not_le.mp hv)
      refine ⟨h1, ⟨?_, ihr h3⟩, ?_⟩
      · intro b hb
        have hb' := (perm_traverseBST_addBSTNode r v).subset hb
        rcases List.mem_cons.mp hb' with e | e
        · exact e ▸ hx
        · exact h2 b e
      · intro a ha b hb
        rcases hb with e | e
        · exact h4 a ha b (Or.inl e)
        · have hb' := (perm_traverseBST_addBSTNode r v).subset e
          rcases List.mem_cons.mp hb' with e' | e'
          · exact e' ▸ le_trans (h4 a ha x (Or.inl rfl)) hx
          · exact h4 a ha b (Or.inr e')

theorem pairwise_deleteBSTNode (t : BSTNode) (v : Int)
    (hs : (traverseBST t).Pairwise (· ≤ ·)) :
    ∃ b t', deleteBSTNode t v = some (b, t') ∧ (traverseBST t').Pairwise (· ≤ ·) := by
  by_cases hv : v ∈ traverseBST t
  · obtain ⟨t', h1, ⟨l1, l2, e1, e2⟩, _⟩ := deleteBSTNode_present t v hs hv
    refine ⟨true, t', h1, ?_⟩
    rw [e2]
    rw [e1] at hs
    exact hs.sublist (List.Sublist.append (List.Sublist.refl l1) (List.sublist_cons_self v l2))
  · exact ⟨false, t, deleteBSTNode_absent t v hv, hs⟩

theorem tally_pairwise (qs : List BSTRequest) :
    ∀ t : BSTNode, (traverseBST t).Pairwise (· ≤ ·) →
      ∃ t' a d, tally t qs = some (t', a, d) ∧ (traverseBST t').Pairwise (· ≤ ·) := by
  induction qs with
  | nil => intro t hs; exact ⟨t, 0, 0, rfl, hs⟩
  | cons q qs ih =>
    intro t hs
    cases q with
    | add v =>
      obtain ⟨t', a, d, h1, h2⟩ := ih (addBSTNode true t v).2 (pairwise_addBSTNode t v hs)
      have e : tally t (.add v :: qs)
          = some (t', a + (if (addBSTNode true t v).1 = true then 1 else 0), d) := by
        simp only [tally, serve, Option.some_bind, h1, Option.map_some']
      exact ⟨t', _, _, e, h2⟩
    | delete v =>
      obtain ⟨b, t1, hd, hs1⟩ := pairwise_deleteBSTNode t v hs
      obtain ⟨t', a, d, h1, h2⟩ := ih t1 hs1
      have e : tally t (.delete v :: qs)
          = some (t', a, d + (if b = true then 1 else 0)) := by
        simp only [tally, serve, hd, Option.some_bind, Option.bind_eq_bind, h1,
          Option.map_some']
      exact ⟨t', _, _, e, h2⟩

end BSTNode

/-! ## Sortedness in the BST -/

/-- C33: after any list of `addBSTNode` and `deleteBSTNode` calls served from the empty tree
(duplicates allowed, allocation succeeding) the in-order sequence of the tree is
non-decreasing, that is, at every node the values of the left subtree are at most the node's
value and those of the right subtree at least the node's value.  As the list is arbitrary, this
holds after every step of a longer list. -/
theorem bst_requests_keep_inorder_sorted (qs : List BSTNode.BSTRequest) :
    ∃ t a d, BSTNode.tally .null qs = some (t, a, d)
      ∧ (BSTNode.traverseBST t).Pairwise (· ≤ ·) ∧ BSTNode.WeaklyOrdered t := by
  obtain ⟨t, a, d, h1, h2⟩ := BSTNode.tally_pairwise qs .null List.Pairwise.nil
  exact ⟨t, a, d, h1, h2, (BSTNode.weaklyOrdered_iff_pairwise t).mpr h2⟩

/-! ## The size of the text buffer -/

/-- C34 (code defect, the one of C17 and C23).  The buffer of `bstToStr` and `avlTreeToStr` is
not always large enough.  For the tree built by inserting `5` and then `-10` the count is 2, the
least value is `-10` and the greatest `5`; `getMaxNumberOfDigitsNeeded (-10) 5` is 1 although
`-10` renders to three characters, so the bound of the claim is `2 * 1 + 3 * 1 + 4 = 9` while
the text `"< -10 | 5 >"` has 11 characters, and both functions write outside the buffer. -/
theorem toStr_buffer_too_small_for_negative_least_value :
    BSTNode.addBSTNodes .null [5, -10] = .node 5 (.node (-10) .null .null) .null ∧
    AVLNode.addAVLNodes .null [5, -10] = some (.node 5 (.node (-10) .null .null 0) .null (-1)) ∧
    BSTNode.getBSTCount (.node 5 (.node (-10) .null .null) .null) = 2 ∧
    (BSTNode.minBST (.node 5 (.node (-10) .null .null) .null) (some 0)).2 = some (-10) ∧
    (BSTNode.maxBST (.node 5 (.node (-10) .null .null) .null) (some 0)).2 = some 5 ∧
    BSTNode.traverseBST (.node 5 (.node (-10) .null .null) .null) = [-10, 5] ∧
    getMaxNumberOfDigitsNeeded (-10) 5 = 1 ∧
    (formatInt (-10)).length = 3 ∧
    joinedText [-10, 5] = "< -10 | 5 >" ∧
    (joinedText [-10, 5]).length = 11 ∧
    2 * getMaxNumberOfDigitsNeeded (-10) 5 + 3 * (2 - 1) + 4 = 9 ∧
    BSTNode.bstToStr zeroBlocks true (.node 5 (.node (-10) .null .null) .null) = none ∧
    AVLNode.avlTreeToStr zeroBlocks true (.node 5 (.node (-10) .null .null 0) .null (-1))
      = none := by
  decide

namespace AVLNode

/-! ### The node that `updateBalanceFactors` reports -/

theorem reported_subtree (t : AVLNode) :
    ∀ p, (updateBalanceFactors t).2 = some p →
      ∃ v l r bf, subtreeAt p t = some (node v l r bf)
        ∧ (updateBalanceFactors l).2 = none ∧ (updateBalanceFactors r).2 = none
        ∧ (wrapInt32 ((getAVLHeight r : Int) - (getAVLHeight l : Int))).natAbs > 1
        ∧ getAVLCount (node v l r bf) ≤ getAVLCount t := by
  induction t with
  | null => intro p hp; simp [updateBalanceFactors] at hp
  | node v l r bf ihl ihr =>
    intro p hp
    cases hL : (updateBalanceFactors l).2 with
    | some q =>
      rw [updateBalanceFactors_snd_left v bf l r q hL] at hp
      obtain ⟨x, a, b, xbf, h1, h2, h3, h4, h5⟩ := ihl q hL
      have e : p = Side.left :: q := (Option.some.inj hp).symm
      subst e
      refine ⟨x, a, b, xbf, h1, h2, h3, h4, ?_⟩
      have : getAVLCount (node v l r bf) = 1 + getAVLCount l + getAVLCount r := rfl
      omega
    | none =>
      cases hR : (updateBalanceFactors r).2 with
      | some q =>
        rw [updateBalanceFactors_snd_right v bf l r q hL hR] at hp
        obtain ⟨x, a, b, xbf, h1, h2, h3, h4, h5⟩ := ihr q hR
        have e : p = Side.right :: q := (Option.some.inj hp).symm
        subst e
        refine ⟨x, a, b, xbf, h1, h2, h3, h4, ?_⟩
        have : getAVLCount (node v l r bf) = 1 + getAVLCount l + getAVLCount r := rfl
        omega
      | none =>
        rw [updateBalanceFactors_snd_root v bf l r hL hR] at hp
        by_cases hd : (wrapInt32 ((getAVLHeight r : Int) - (getAVLHeight l : Int))).natAbs > 1
        · rw [if_pos hd] at hp
          have e : p = [] := (Option.some.inj hp).symm
          subst e
          exact ⟨v, l, r, bf, rfl, hL, hR, hd, le_refl _⟩
        · rw [if_neg hd] at hp
          exact absurd hp (by simp)

theorem updateBalanceFactors_fst_ne_null (t : AVLNode) (h : t ≠ null) :
    (updateBalanceFactors t).1 ≠ null := by
  cases t with
  | null => exact absurd rfl h
  | node v l r bf => rw [updateBalanceFactors_node]; simp

end AVLNode

/-! ## The child that a rotation promotes -/

/-- C35: for every tree that fits in memory (at most `2^64` nodes; no AVL precondition), when
`updateBalanceFactors` reports a slot, the node X in that slot of the updated tree has a stored
factor above 1 or below -1; if it is above 1, X has a right child, and if that child's stored
factor is negative the child has a left child; if it is below -1, X has a left child, and if
that child's stored factor is positive the child has a right child.  So the rotations that
`balance` runs on the reported slot all find the child they promote: `rotateImbalanced` returns
a tree. -/
theorem restore_step_promotes_present_child (t : AVLNode) (p : List Side)
    (hc : AVLNode.getAVLCount t ≤ 2 ^ 64)
    (hp : (AVLNode.updateBalanceFactors t).2 = some p) :
    ∃ v l r bf, AVLNode.subtreeAt p (AVLNode.updateBalanceFactors t).1 = some (.node v l r bf)
      ∧ (bf > 1 ∨ bf < -1)
      ∧ (bf > 1 → ∃ rv rl rr rbf, r = .node rv rl rr rbf ∧ (rbf < 0 → rl ≠ .null))
      ∧ (bf < -1 → ∃ lv ll lr lbf, l = .node lv ll lr lbf ∧ (lbf > 0 → lr ≠ .null))
      ∧ (∃ s, AVLNode.rotateImbalanced (.node v l r bf) = some s)
      ∧ ∃ t', AVLNode.atSlot AVLNode.rotateImbalanced p (AVLNode.updateBalanceFactors t).1
          = some t' := by
  obtain ⟨v, l, r, bf0, h1, hl, hr, hd, hcnt⟩ := AVLNode.reported_subtree t p hp
  have hcl : AVLNode.getAVLCount l ≤ 2 ^ 64 := by
    simp only [AVLNode.getAVLCount] at hcnt; omega
  have hcr : AVLNode.getAVLCount r ≤ 2 ^ 64 := by
    simp only [AVLNode.getAVLCount] at hcnt; omega
  have hhl := AVLNode.getAVLHeight_lt_of_count l hl hcl
  have hhr := AVLNode.getAVLHeight_lt_of_count r hr hcr
  have hrot := AVLNode.rotateImbalanced_isSome v l r hl hr hhl hhr hd
  have hsub : AVLNode.subtreeAt p (AVLNode.updateBalanceFactors t).1
      = some (.node v (AVLNode.updateBalanceFactors l).1 (AVLNode.updateBalanceFactors r).1
          (wrapInt32 ((AVLNode.getAVLHeight r : Int) - (AVLNode.getAVLHeight l : Int)))) := by
    rw [AVLNode.subtreeAt_updateBalanceFactors, h1, Option.map_some',
      AVLNode.updateBalanceFactors_node]
  refine ⟨_, _, _, _, hsub, ?_, ?_, ?_, hrot, ?_⟩
  · rw [AVLNode.wrapInt32_small _ (by omega) (by omega)] at hd ⊢
    omega
  · intro hb
    rw [AVLNode.wrapInt32_small _ (by omega) (by omega)] at hb
    cases r with
    | null => simp only [AVLNode.getAVLHeight] at hb; omega
    | node rv rl rr rbf =>
      obtain ⟨hrl, hrr, _⟩ := AVLNode.updateBalanceFactors_snd_eq_none_node rv rbf rl rr hr
      rw [AVLNode.updateBalanceFactors_node]
      refine ⟨_, _, _, _, rfl, ?_⟩
      intro hneg
      rw [AVLNode.getAVLHeight_node] at hhr
      rw [AVLNode.wrapInt32_small _ (by omega) (by omega)] at hneg
      apply AVLNode.updateBalanceFactors_fst_ne_null
      intro e
      subst e
      simp only [AVLNode.getAVLHeight] at hneg
      omega
  · intro hb
    rw [AVLNode.wrapInt32_small _ (by omega) (by omega)] at hb
    cases l with
    | null => simp only [AVLNode.getAVLHeight] at hb; omega
    | node lv ll lr lbf =>
      obtain ⟨hll, hlr, _⟩ := AVLNode.updateBalanceFactors_snd_eq_none_node lv lbf ll lr hl
      rw [AVLNode.updateBalanceFactors_node]
      refine ⟨_, _, _, _, rfl, ?_⟩
      intro hpos
      rw [AVLNode.getAVLHeight_node] at hhl
      rw [AVLNode.wrapInt32_small _ (by omega) (by omega)] at hpos
      apply AVLNode.updateBalanceFactors_fst_ne_null
      intro e
      subst e
      simp only [AVLNode.getAVLHeight] at hpos
      omega
  · obtain ⟨t', h⟩ := AVLNode.rotateDeepest_isSome t hc
    simp only [AVLNode.rotateDeepest, hp] at h
    exact ⟨t', h⟩

theorem restore_step_promotes_present_child_witness :
    AVLNode.getAVLCount (.node 5 (.node 2 .null (.node 4 (AVLNode.leaf 3) .null 0) 0)
        (AVLNode.leaf 8) 0) ≤ 2 ^ 64
    ∧ (AVLNode.updateBalanceFactors (.node 5 (.node 2 .null (.node 4 (AVLNode.leaf 3) .null 0) 0)
        (AVLNode.leaf 8) 0)).2 = some [Side.left]
    ∧ ∃ v l r bf, AVLNode.subtreeAt [Side.left]
          (AVLNode.updateBalanceFactors (.node 5
            (.node 2 .null (.node 4 (AVLNode.leaf 3) .null 0) 0) (AVLNode.leaf 8) 0)).1
          = some (.node v l r bf)
      ∧ (bf > 1 ∨ bf < -1)
      ∧ (bf > 1 → ∃ rv rl rr rbf, r = .node rv rl rr rbf ∧ (rbf < 0 → rl ≠ .null))
      ∧ (bf < -1 → ∃ lv ll lr lbf, l = .node lv ll lr lbf ∧ (lbf > 0 → lr ≠ .null))
      ∧ (∃ s, AVLNode.rotateImbalanced (.node v l r bf) = some s)
      ∧ ∃ t', AVLNode.atSlot AVLNode.rotateImbalanced [Side.left]
          (AVLNode.updateBalanceFactors (.node 5
            (.node 2 .null (.node 4 (AVLNode.leaf 3) .null 0) 0) (AVLNode.leaf 8) 0)).1
          = some t' :=
  ⟨by decide, by decide,
    restore_step_promotes_present_child
      (.node 5 (.node 2 .null (.node 4 (AVLNode.leaf 3) .null 0) 0) (AVLNode.leaf 8) 0)
      [Side.left] (by decide) (by decide)⟩

namespace BSTNode

/-! ### Counting the present entries of a row -/

theorem getBSTHeight_node (v : Int) (l r : BSTNode) :
    getBSTHeight (node v l r) = 1 + max (getBSTHeight l) (getBSTHeight r) := by
  simp only [getBSTHeight]
  split_ifs with h
  · rw [max_eq_left h]
  · rw [max_eq_right (by omega)]

theorem levelCount_null (depth : Nat) : levelCount null depth = 0 := by
  cases depth <;> rfl

theorem sum_levelCount_childrenRow (depth : Nat) (xs : List BSTNode) :
    ((Level.childrenRow children null xs).map fun n => levelCount n depth).sum
      = (xs.map fun n => levelCount n (depth + 1)).sum := by
  induction xs with
  | nil => rfl
  | cons x xs ih =>
    cases x with
    | null =>
      simp only [Level.childrenRow, Level.childOf, children, List.map_cons, List.sum_cons, ih,
        levelCount_null, Nat.zero_add]
    | node v l r =>
      simp only [Level.childrenRow, Level.childOf, children, List.map_cons, List.sum_cons, ih,
        levelCount]
      simp
      omega

theorem sum_levelCount_levelRow (root : BSTNode) (k : Nat) :
    ∀ depth, ((Level.levelRow children null root k).map fun n => levelCount n depth).sum
      = levelCount root (k + depth) := by
  induction k with
  | zero =>
    intro depth
    simp [Level.levelRow_zero]
  | succ k ih =>
    intro depth
    rw [← Level.childrenRow_levelRow, sum_levelCount_childrenRow, ih (depth + 1)]
    congr 1
    omega

theorem countP_eq_sum_levelCount (xs : List BSTNode) :
    (xs.countP fun n => decide (n ≠ null)) = (xs.map fun n => levelCount n 0).sum := by
  induction xs with
  | nil => rfl
  | cons x xs ih =>
    cases x with
    | null =>
      rw [List.countP_cons_of_neg _ _ (by simp), ih]
      simp [levelCount]
    | node v l r =>
      rw [List.countP_cons_of_pos _ _ (by simp), ih]
      simp [levelCount]
      omega

theorem countP_levelRow (root : BSTNode) (level : Nat) :
    ((Level.levelRow children null root level).countP fun n => decide (n ≠ null))
      = levelCount root level := by
  rw [countP_eq_sum_levelCount, sum_levelCount_levelRow]
  rfl

theorem presentEntries_getBSTLevelNodes (root : BSTNode) (height level : Nat)
    (hroot : root ≠ null) (hh : level < height) (hl : level ≤ 30) :
    presentEntries (getBSTLevelNodes true root height level) = levelCount root level := by
  have h := Level.getLevelNodes_eq children null children_eq_none root height level
    (children_isSome root hroot) hh hl
  unfold getBSTLevelNodes
  rw [h]
  exact countP_levelRow root level

/-! ### Levels, count and height -/

theorem sum_levelCount (t : BSTNode) :
    ∀ h, getBSTHeight t ≤ h → ((List.range h).map (levelCount t)).sum = getBSTCount t := by
  induction t with
  | null =>
    intro h _
    have e : levelCount null = fun _ => 0 := by
      funext d; exact levelCount_null d
    simp [e, getBSTCount]
  | node v l r ihl ihr =>
    intro h hh
    rw [getBSTHeight_node] at hh
    obtain ⟨h', rfl⟩ : ∃ h', h = h' + 1 := ⟨h - 1, by omega⟩
    rw [List.range_succ_eq_map, List.map_cons, List.sum_cons, List.map_map]
    have e : (levelCount (node v l r) ∘ Nat.succ)
        = fun d => levelCount l d + levelCount r d := by
      funext d; rfl
    rw [e, List.sum_map_add, ihl h' (by omega), ihr h' (by omega)]
    simp only [levelCount, getBSTCount]
    omega

theorem levelCount_last_pos (t : BSTNode) (h : t ≠ null) :
    1 ≤ levelCount t (getBSTHeight t - 1) := by
  induction t with
  | null => exact absurd rfl h
  | node v l r ihl ihr =>
    rw [getBSTHeight_node]
    by_cases hl : l = null
    · by_cases hr : r = null
      · subst hl; subst hr
        simp [getBSTHeight, levelCount]
      · have hp := getBSTHeight_pos r hr
        have ir := ihr hr
        have hm : max (getBSTHeight l) (getBSTHeight r) = getBSTHeight r := by
          subst hl; simp [getBSTHeight]
        have e : 1 + max (getBSTHeight l) (getBSTHeight r) - 1 = (getBSTHeight r - 1) + 1 := by
          omega
        rw [e]
        simp only [levelCount]
        omega
    · have hp := getBSTHeight_pos l hl
      have il := ihl hl
      by_cases hge : getBSTHeight r ≤ getBSTHeight l
      · have e : 1 + max (getBSTHeight l) (getBSTHeight r) - 1 = (getBSTHeight l - 1) + 1 := by
          rw [max_eq_left hge]; omega
        rw [e]
        simp only [levelCount]
        omega
      · have hr : r ≠ null := by
          intro e; subst e; simp [getBSTHeight] at hge
        have ir := ihr hr
        have e : 1 + max (getBSTHeight l) (getBSTHeight r) - 1 = (getBSTHeight r - 1) + 1 := by
          rw [max_eq_right (by omega)]; omega
        rw [e]
        simp only [levelCount]
        omega

theorem getBSTCount_lt_two_pow (t : BSTNode) : getBSTCount t + 1 ≤ 2 ^ getBSTHeight t := by
  induction t with
  | null => simp [getBSTCount, getBSTHeight]
  | node v l r ihl ihr =>
    rw [getBSTHeight_node]
    have h1 : 2 ^ getBSTHeight l ≤ 2 ^ max (getBSTHeight l) (getBSTHeight r) :=
      Nat.pow_le_pow_right (by decide) (le_max_left _ _)
    have h2 : 2 ^ getBSTHeight r ≤ 2 ^ max (getBSTHeight l) (getBSTHeight r) :=
      Nat.pow_le_pow_right (by decide) (le_max_right _ _)
    have e : 2 ^ (1 + max (getBSTHeight l) (getBSTHeight r))
        = 2 * 2 ^ max (getBSTHeight l) (getBSTHeight r) := by
      rw [Nat.add_comm, pow_succ, Nat.mul_comm]
    rw [e]
    simp only [getBSTCount]
    omega

end BSTNode

/-! ## Count, height and levels -/

/-- C36, as stated, fails for a tree of height 32: for the chain of 32 nodes the level
`h - 1 = 31` is not returned, as `1 << 31` is undefined in `int`; the levels `0 .. 30` hold one
present entry each, so that the present entries of the rows returned add up to 31 and not to the
count 32. -/
theorem getBSTLevelNodes_last_level_of_chain32_faults :
    BSTNode.chain32 ≠ .null ∧ BSTNode.chain32.getBSTHeight = 32 ∧
    BSTNode.chain32.getBSTCount = 32 ∧
    BSTNode.getBSTLevelNodes true BSTNode.chain32 BSTNode.chain32.getBSTHeight
      (BSTNode.chain32.getBSTHeight - 1) = none ∧
    ((List.range BSTNode.chain32.getBSTHeight).map fun L =>
      BSTNode.presentEntries
        (BSTNode.getBSTLevelNodes true BSTNode.chain32 BSTNode.chain32.getBSTHeight L)).sum
      = 31 := by
  have hne : BSTNode.chain32 ≠ .null := by decide
  have hh : BSTNode.chain32.getBSTHeight = 32 := by decide
  have hf : BSTNode.getBSTLevelNodes true BSTNode.chain32 32 31 = none :=
    Level.getLevelNodes_fault _ _ _ _ _ _ (by decide)
  refine ⟨hne, hh, by decide, ?_, ?_⟩
  · rw [hh]; exact hf
  · rw [hh, List.range_succ, List.map_append, List.sum_append]
    have e : ((List.range 31).map fun L =>
        BSTNode.presentEntries (BSTNode.getBSTLevelNodes true BSTNode.chain32 32 L))
        = (List.range 31).map (BSTNode.levelCount BSTNode.chain32) := by
      apply List.map_congr_left
      intro L hL
      have hL' := List.mem_range.mp hL
      exact BSTNode.presentEntries_getBSTLevelNodes _ _ _ hne (by omega) (by omega)
    rw [e]
    simp only [List.map_cons, List.map_nil, hf, BSTNode.presentEntries, List.sum_cons,
      List.sum_nil]
    decide

/-- C36 (amended: the level rows for heights up to 31).  For every tree, `getBSTCount` is at
most `2 ^ h - 1`, where `h = getBSTHeight root`, and a call of `getBSTLevelNodes` for a level of
31 or more returns no row, whatever the tree and the height passed (`1 << level` is undefined in
`int`).  For a non-empty tree of height `h ≤ 31`, allocation succeeding: `getBSTLevelNodes`
returns a row for every level below `h`; the row of level `h - 1` has at least one present
entry; and the present entries of the rows of the levels `0 .. h - 1` add up to
`getBSTCount`. -/
theorem levels_hold_every_node_once (root : BSTNode) :
    root.getBSTCount ≤ 2 ^ root.getBSTHeight - 1
    ∧ (∀ callocOk height L, 31 ≤ L →
        BSTNode.getBSTLevelNodes callocOk root height L = none)
    ∧ (root ≠ .null → root.getBSTHeight ≤ 31 →
        (∀ L, L < root.getBSTHeight →
          BSTNode.getBSTLevelNodes true root root.getBSTHeight L
            = some (some (Level.levelRow BSTNode.children .null root L))) ∧
        1 ≤ BSTNode.presentEntries
          (BSTNode.getBSTLevelNodes true root root.getBSTHeight (root.getBSTHeight - 1)) ∧
        ((List.range root.getBSTHeight).map fun L =>
          BSTNode.presentEntries (BSTNode.getBSTLevelNodes true root root.getBSTHeight L)).sum
          = root.getBSTCount) := by
  refine ⟨?_, ?_, ?_⟩
  · have := BSTNode.getBSTCount_lt_two_pow root
    omega
  · intro callocOk height L hL
    exact Level.getLevelNodes_fault _ _ _ _ _ _ (by omega)
  · intro hroot hh
    have hpos := BSTNode.getBSTHeight_pos root hroot
    refine ⟨?_, ?_, ?_⟩
    · intro L hL
      exact Level.getLevelNodes_eq BSTNode.children .null BSTNode.children_eq_none root _ L
        (BSTNode.children_isSome root hroot) hL (by omega)
    · rw [BSTNode.presentEntries_getBSTLevelNodes root _ _ hroot (by omega) (by omega)]
      exact BSTNode.levelCount_last_pos root hroot
    · have e : ((List.range root.getBSTHeight).map fun L =>
          BSTNode.presentEntries (BSTNode.getBSTLevelNodes true root root.getBSTHeight L))
          = (List.range root.getBSTHeight).map (BSTNode.levelCount root) := by
        apply List.map_congr_left
        intro L hL
        have hL' := List.mem_range.mp hL
        exact BSTNode.presentEntries_getBSTLevelNodes _ _ _ hroot hL' (by omega)
      rw [e]
      exact BSTNode.sum_levelCount root _ (le_refl _)

/-- Witness of C36: the ten-node tree `levelFixture`, of height 5. -/
theorem levels_hold_every_node_once_witness :
    BSTNode.levelFixture ≠ .null ∧ BSTNode.levelFixture.getBSTHeight ≤ 31 ∧
    BSTNode.levelFixture.getBSTHeight = 5 ∧ BSTNode.levelFixture.getBSTCount = 10 ∧
    ((∀ L, L < BSTNode.levelFixture.getBSTHeight →
      BSTNode.getBSTLevelNodes true BSTNode.levelFixture BSTNode.levelFixture.getBSTHeight L
        = some (some (Level.levelRow BSTNode.children .null BSTNode.levelFixture L))) ∧
    1 ≤ BSTNode.presentEntries
      (BSTNode.getBSTLevelNodes true BSTNode.levelFixture BSTNode.levelFixture.getBSTHeight
        (BSTNode.levelFixture.getBSTHeight - 1)) ∧
    ((List.range BSTNode.levelFixture.getBSTHeight).map fun L =>
      BSTNode.presentEntries
        (BSTNode.getBSTLevelNodes true BSTNode.levelFixture
          BSTNode.levelFixture.getBSTHeight L)).sum
      = BSTNode.levelFixture.getBSTCount) :=
  ⟨by decide, by decide, by decide, by decide,
    (levels_hold_every_node_once BSTNode.levelFixture).2.2 (by decide) (by decide)⟩

end Tree

/-! # Theorems on the linked lists -/

namespace LinkedList

namespace UniNode

/-! ### Deletion in the unordered list -/

theorem deleteUniNodeLoop_eq (l : UniNode) (v : Int) (deleted : Bool) :
    deleteUniNodeLoop l v deleted
      = (deleted || decide (v ∈ values l), (deleteUniNodeLoop l v deleted).2)
    ∧ values (deleteUniNodeLoop l v deleted).2 = (values l).filter (fun x => decide (x ≠ v)) := by
  induction l generalizing deleted with
  | null => simp [deleteUniNodeLoop, values]
  | node x next ih =>
    by_cases hx : x = v
    · subst hx
      have h := ih true
      simp only [deleteUniNodeLoop, if_true, values]
      refine ⟨?_, ?_⟩
      · rw [h.1]; simp
      · rw [h.2]; simp
    · have h := ih deleted
      have hv : ¬ v = x := fun e => hx e.symm
      simp only [deleteUniNodeLoop, if_neg hx, values]
      refine ⟨?_, ?_⟩
      · rw [h.1]; simp [hv]
      · rw [h.2]; simp [hx]

theorem deleteUniNodeRecursively_values (l : UniNode) (v : Int) :
    values (deleteUniNodeRecursively l v).2 = (values l).erase v := by
  induction l with
  | null => rfl
  | node x next ih =>
    by_cases hx : x = v
    · subst hx
      simp [deleteUniNodeRecursively, values]
    · simp only [deleteUniNodeRecursively, if_neg hx, values, ih]
      rw [List.erase_cons_tail]
      simpa using hx

end UniNode

/-! ## Deletion from an unordered list -/

/-- C26 (code defect).  `deleteUniNode` and `deleteBiNode` do not stop at the first match: the
loop goes on after a removal, so every node holding the value is removed.  On the list of the
repository's test, 1, -2, 3, -4, 5, -6, 7, 1, -2, -2, deleting -2 leaves 7 nodes and not 9; the
recursive variants remove the first match only and leave 9 nodes. -/
theorem deleteUniNode_removes_every_match :
    (∀ l v, (UniNode.deleteUniNode l v).2.values
      = (UniNode.values l).filter (fun x => decide (x ≠ v))) ∧
    UniNode.deleteUniNode (UniNode.addUniNodes .null [1, -2, 3, -4, 5, -6, 7, 1, -2, -2]) (-2)
      = (true, UniNode.addUniNodes .null [1, 3, -4, 5, -6, 7, 1]) ∧
    (UniNode.deleteUniNode
      (UniNode.addUniNodes .null [1, -2, 3, -4, 5, -6, 7, 1, -2, -2]) (-2)).2.getUniNodesCount
      = 7 ∧
    (UniNode.deleteUniNodeRecursively
      (UniNode.addUniNodes .null [1, -2, 3, -4, 5, -6, 7, 1, -2, -2]) (-2)).2.getUniNodesCount
      = 9 ∧
    (BiNode.deleteBiNode (BiNode.ofValues 0 [1, -2, 3, -4, 5, -6, 7, 1, -2, -2]) (-2)).1 = true ∧
    (BiNode.deleteBiNode (BiNode.ofValues 0 [1, -2, 3, -4, 5, -6, 7, 1, -2, -2]) (-2)).2.values
      = [1, 3, -4, 5, -6, 7, 1] ∧
    (BiNode.deleteBiNode
      (BiNode.ofValues 0 [1, -2, 3, -4, 5, -6, 7, 1, -2, -2]) (-2)).2.getBiNodesCount = 7 ∧
    (BiNode.deleteBiNodeRecursively
      (BiNode.ofValues 0 [1, -2, 3, -4, 5, -6, 7, 1, -2, -2]) (-2)).2.getBiNodesCount = 9 := by
  refine ⟨?_, by decide, by decide, by decide, by decide, by decide, by decide, by decide⟩
  intro l v
  exact (UniNode.deleteUniNodeLoop_eq l v false).2

namespace UniNode

/-! ### Insertion in the ordered list -/

theorem addOrderedUniNode_eq (l : UniNode) (v : Int) :
    ∃ l', addOrderedUniNode true l v = (true, l')
      ∧ values l' = List.orderedInsert (· ≤ ·) v (values l) := by
  induction l with
  | null => exact ⟨_, rfl, rfl⟩
  | node x next ih =>
    obtain ⟨n', h1, h2⟩ := ih
    by_cases hx : x < v
    · refine ⟨node x n', ?_, ?_⟩
      · simp [addOrderedUniNode, hx, h1]
      · have : ¬ v ≤ x := not_le.mpr hx
        simp [values, h2, List.orderedInsert, this]
    · refine ⟨node v (node x next), ?_, ?_⟩
      · simp [addOrderedUniNode, hx]
      · have : v ≤ x := not_lt.mp hx
        simp [values, List.orderedInsert, this]

theorem addOrderedUniNodeRecursively_eq (mallocOk : Bool) (l : UniNode) (v : Int) :
    addOrderedUniNodeRecursively mallocOk l v = addOrderedUniNode mallocOk l v := by
  induction l with
  | null => rfl
  | node x next ih =>
    by_cases hx : x < v
    · have : ¬ x ≥ v := not_le.mpr hx
      simp [addOrderedUniNodeRecursively, addOrderedUniNode, hx, this, ih]
    · have : x ≥ v := not_lt.mp hx
      simp [addOrderedUniNodeRecursively, addOrderedUniNode, hx, this]

end UniNode

/-! ## Insertion into an ordered list -/

/-- C27: for a list `l` whose values are non-decreasing and any `v`, with allocation
succeeding, `addOrderedUniNode` returns `true` and leaves a list whose values are non-decreasing
and are a permutation of `v` and the values of `l`; `addOrderedUniNodeRecursively` returns the
same flag and the same list. -/
theorem addOrderedUniNode_keeps_sorted (l : UniNode) (v : Int)
    (hs : (UniNode.values l).Pairwise (· ≤ ·)) :
    ∃ l', UniNode.addOrderedUniNode true l v = (true, l')
      ∧ (UniNode.values l').Pairwise (· ≤ ·)
      ∧ (UniNode.values l').Perm (v :: UniNode.values l)
      ∧ UniNode.addOrderedUniNodeRecursively true l v = (true, l') := by
  obtain ⟨l', h1, h2⟩ := UniNode.addOrderedUniNode_eq l v
  refine ⟨l', h1, ?_, ?_, ?_⟩
  · rw [h2]
    exact List.Sorted.orderedInsert v _ hs
  · rw [h2]
    exact List.perm_orderedInsert _ _ _
  · rw [UniNode.addOrderedUniNodeRecursively_eq, h1]

/-- Witness of C27: the list of the repository's test, built by ordered insertion of
1, -2, 3, -4, -6, 7, 1, -2, -2, and one more insertion of 0 into it. -/
theorem addOrderedUniNode_keeps_sorted_witness :
    (UniNode.addOrderedUniNodes .null [1, -2, 3, -4, -6, 7, 1, -2, -2]).values
      = [-6, -4, -2, -2, -2, 1, 1, 3, 7] ∧
    ((UniNode.addOrderedUniNodes .null [1, -2, 3, -4, -6, 7, 1, -2, -2]).values).Pairwise
      (· ≤ ·) ∧
    ∃ l', UniNode.addOrderedUniNode true
          (UniNode.addOrderedUniNodes .null [1, -2, 3, -4, -6, 7, 1, -2, -2]) 0 = (true, l')
      ∧ (UniNode.values l').Pairwise (· ≤ ·)
      ∧ (UniNode.values l').Perm
          (0 :: UniNode.values (UniNode.addOrderedUniNodes .null [1, -2, 3, -4, -6, 7, 1, -2, -2]))
      ∧ UniNode.addOrderedUniNodeRecursively true
          (UniNode.addOrderedUniNodes .null [1, -2, 3, -4, -6, 7, 1, -2, -2]) 0 = (true, l') :=
  ⟨by decide, by decide,
    addOrderedUniNode_keeps_sorted
      (UniNode.addOrderedUniNodes .null [1, -2, 3, -4, -6, 7, 1, -2, -2]) 0 (by decide)⟩

end LinkedList
